import Mathlib

/-!
# Hierarchical scene graph of IK-FK-OpenGL: control points and transform propagation

A shallow embedding of `classes/node/node.cpp` (class `Node`), of the control-point
record of `structs/control_point/control_point.h`, and of the parts of the linear
algebra library the node operations use.

Conventions of the embedding.

* Scalars (`float` in the source) are the elements of an arbitrary commutative ring `α`:
  the arithmetic is exact. Concrete evaluations are done over `ℤ`.
* `glm::vec3`, `glm::vec4` and `glm::mat4` are records of their components; a matrix is
  stored by rows and `Mat4.mul`, `Mat4.mulVec` are the usual products, which is what
  `operator*` of the library computes.
* A `std::vector` is a `List` in the same order: `push_back x` is `· ++ [x]`, `back()` is
  the last element. The recursive functions that consume a path with `back()` and
  `pop_back()` are written by recursion on the reversed path (the list of hops, first
  hop from the root first) and the source-level function reverses its argument.
* An access `v[i]` outside the bounds of a vector is undefined behaviour in the source;
  the embedding returns `none` there, so every operation that indexes returns an `Option`.
* Child indices are natural numbers. The source keeps them in `unsigned int` and copies
  them through `int`; the two agree with the embedding as long as a node has fewer than
  `2 ^ 31` children.
-/

namespace bgq_opengl

/-! ## Vectors and matrices -/

/-- The type `glm::vec3`. -/
structure Vec3 (α : Type) where
  x : α
  y : α
  z : α
deriving DecidableEq

/-- The type `glm::vec4`. -/
structure Vec4 (α : Type) where
  x : α
  y : α
  z : α
  w : α
deriving DecidableEq

/-- The type `glm::mat4`, given by its four rows. -/
structure Mat4 (α : Type) where
  r0 : Vec4 α
  r1 : Vec4 α
  r2 : Vec4 α
  r3 : Vec4 α
deriving DecidableEq

section Algebra

variable {α : Type} [CommRing α]

/-- Componentwise sum of two points. -/
def Vec3.add (a b : Vec3 α) : Vec3 α := ⟨a.x + b.x, a.y + b.y, a.z + b.z⟩

/-- Componentwise product of two points. -/
def Vec3.scaleBy (s a : Vec3 α) : Vec3 α := ⟨s.x * a.x, s.y * a.y, s.z * a.z⟩

/-- The opposite point. -/
def Vec3.neg (a : Vec3 α) : Vec3 α := ⟨-a.x, -a.y, -a.z⟩

/-- Dot product of two `vec4`. -/
def Vec4.dot (a b : Vec4 α) : α := a.x * b.x + a.y * b.y + a.z * b.z + a.w * b.w

/-- The conversion `glm::vec4(p, 1.0f)`. -/
def Vec4.ofPoint (p : Vec3 α) : Vec4 α := ⟨p.x, p.y, p.z, 1⟩

/-- The conversion `glm::vec3(v)`, which drops the fourth component. -/
def Vec4.xyz (v : Vec4 α) : Vec3 α := ⟨v.x, v.y, v.z⟩

namespace Mat4

/-- The matrix `glm::mat4(1.0f)`. -/
def identity : Mat4 α := ⟨⟨1, 0, 0, 0⟩, ⟨0, 1, 0, 0⟩, ⟨0, 0, 1, 0⟩, ⟨0, 0, 0, 1⟩⟩

/-- First column. -/
def c0 (m : Mat4 α) : Vec4 α := ⟨m.r0.x, m.r1.x, m.r2.x, m.r3.x⟩

/-- Second column. -/
def c1 (m : Mat4 α) : Vec4 α := ⟨m.r0.y, m.r1.y, m.r2.y, m.r3.y⟩

/-- Third column. -/
def c2 (m : Mat4 α) : Vec4 α := ⟨m.r0.z, m.r1.z, m.r2.z, m.r3.z⟩

/-- Fourth column. -/
def c3 (m : Mat4 α) : Vec4 α := ⟨m.r0.w, m.r1.w, m.r2.w, m.r3.w⟩

/-- A row of the product `a * b`: the row `r` of `a` against the columns of `b`. -/
def rowMul (r : Vec4 α) (b : Mat4 α) : Vec4 α :=
  ⟨r.dot b.c0, r.dot b.c1, r.dot b.c2, r.dot b.c3⟩

/-- The matrix product `a * b` (`operator*` on two `glm::mat4`). -/
def mul (a b : Mat4 α) : Mat4 α :=
  ⟨rowMul a.r0 b, rowMul a.r1 b, rowMul a.r2 b, rowMul a.r3 b⟩

/-- The product `m * v` of a matrix and a `glm::vec4`. -/
def mulVec (m : Mat4 α) (v : Vec4 α) : Vec4 α :=
  ⟨m.r0.dot v, m.r1.dot v, m.r2.dot v, m.r3.dot v⟩

/-- The expression `glm::vec3(m * glm::vec4(p, 1.0f))` used for anchors and control
points. -/
def applyPoint (m : Mat4 α) (p : Vec3 α) : Vec3 α := (m.mulVec (Vec4.ofPoint p)).xyz

/-- The translation matrix `T(t)`: `glm::translate(m, t)` is `m * T(t)`. -/
def translation (t : Vec3 α) : Mat4 α :=
  ⟨⟨1, 0, 0, t.x⟩, ⟨0, 1, 0, t.y⟩, ⟨0, 0, 1, t.z⟩, ⟨0, 0, 0, 1⟩⟩

/-- The scale matrix `S(s)`: `glm::scale(m, s)` is `m * S(s)`. -/
def scaling (s : Vec3 α) : Mat4 α :=
  ⟨⟨s.x, 0, 0, 0⟩, ⟨0, s.y, 0, 0⟩, ⟨0, 0, s.z, 0⟩, ⟨0, 0, 0, 1⟩⟩

/-- The rotation matrix the library builds for a unit axis `(x, y, z)` from the cosine
`c` and the sine `s` of the angle (the matrix `Rotate` of `glm::rotate`). -/
def axisAngle (c s : α) (axis : Vec3 α) : Mat4 α :=
  ⟨⟨c + (1 - c) * axis.x * axis.x, (1 - c) * axis.y * axis.x - s * axis.z,
      (1 - c) * axis.z * axis.x + s * axis.y, 0⟩,
   ⟨(1 - c) * axis.x * axis.y + s * axis.z, c + (1 - c) * axis.y * axis.y,
      (1 - c) * axis.z * axis.y - s * axis.x, 0⟩,
   ⟨(1 - c) * axis.x * axis.z - s * axis.y, (1 - c) * axis.y * axis.z + s * axis.x,
      c + (1 - c) * axis.z * axis.z, 0⟩,
   ⟨0, 0, 0, 1⟩⟩

/-- The pivot matrix `T(a) * R * T(-a)` built by
`glm::translate(glm::rotate(glm::translate(glm::mat4(1.0), a), ..), -a)`. -/
def aboutPoint (a : Vec3 α) (r : Mat4 α) : Mat4 α :=
  ((identity.mul (translation a)).mul r).mul (translation a.neg)

end Mat4

/-- The rotation matrices of the linear algebra library, which is not part of the
repository: `rot axis angle` is the matrix of the rotation by `angle` degrees about
`axis`, the one `glm::rotate(m, glm::radians(angle), axis)` multiplies `m` by on the
right. The operations that rotate take it as a parameter. -/
abbrev Rotation (α : Type) := Vec3 α → α → Mat4 α

/-- A rotation table that is exact at the angle 180 (cosine -1, sine 0) for unit axes;
used to evaluate the operations at that angle. -/
def halfTurn : Rotation α := fun axis _ => Mat4.axisAngle (-1) 0 axis

end Algebra

/-! ## Geometry, control points and nodes -/

/-- Modelled from the spec: the class `Geometry` (`classes/geometry`, not among the
sources). It owns the vertex positions and a 4x4 cumulative transform, initialised to
the identity; only these two matter to the kinematic core. -/
structure Geometry (α : Type) where
  vertices : List (Vec3 α)
  transforms : Mat4 α
deriving DecidableEq

/-- The struct `ControlPoint` of `control_point.h`. -/
structure ControlPoint (α : Type) where
  coords : Vec3 α
  initial : Vec3 α
  anchor : Vec3 α
  indices : List Nat
deriving DecidableEq

/-- The class `Node`: its geometry, its children and its anchor and control points with
their `_original` snapshots. The members `node_id` and `transforms` are left out: no
member function of `node.cpp` reads or writes them. -/
inductive Node (α : Type) where
  | mk (geometry : Geometry α) (children : List (Node α))
      (anchor anchor_original : Vec3 α)
      (control control_original : List (Vec3 α)) : Node α

section Structure

variable {α : Type}

namespace Node

/-- The member `geometry`. -/
def geometry : Node α → Geometry α
  | mk g _ _ _ _ _ => g

/-- The member `children`. -/
def children : Node α → List (Node α)
  | mk _ cs _ _ _ _ => cs

/-- The member `anchor`. -/
def anchor : Node α → Vec3 α
  | mk _ _ a _ _ _ => a

/-- The member `anchor_original`. -/
def anchor_original : Node α → Vec3 α
  | mk _ _ _ ao _ _ => ao

/-- The member `control`. -/
def control : Node α → List (Vec3 α)
  | mk _ _ _ _ c _ => c

/-- The member `control_original`. -/
def control_original : Node α → List (Vec3 α)
  | mk _ _ _ _ _ co => co

/-- The function `Node::getAnchor`. -/
def getAnchor (n : Node α) : Vec3 α := n.anchor

/-- The descent of the path-consuming functions, on the list of hops: at each step
`children[ind]` for the next hop `ind`; `none` when an index is out of range. -/
def walk : Node α → List Nat → Option (Node α)
  | n, [] => some n
  | n, ind :: rest =>
    match n.children[ind]? with
    | some child => child.walk rest
    | none => none

/-- The node a path addresses: start at the node and repeatedly descend into the child
whose index is the last remaining element of `inds`. -/
def descend (n : Node α) (inds : List Nat) : Option (Node α) := n.walk inds.reverse

end Node

/-- The statement `p.indices.push_back(i)`. -/
def ControlPoint.pushIndex (i : Nat) (p : ControlPoint α) : ControlPoint α :=
  { p with indices := p.indices ++ [i] }

mutual

/-- The function `Node::getControlPoints`: one point per entry of `control`, then the
points of each child with the index of the child pushed on their `indices`. -/
def Node.getControlPoints : Node α → List (ControlPoint α)
  | .mk _ cs an _ c _ =>
    c.map (fun v => ({ coords := v, initial := v, anchor := an, indices := [] } : ControlPoint α))
      ++ childControlPoints 0 cs

/-- The second loop of `Node::getControlPoints`, from the child of index `i` on. -/
def childControlPoints (i : Nat) : List (Node α) → List (ControlPoint α)
  | [] => []
  | child :: rest =>
    child.getControlPoints.map (ControlPoint.pushIndex i) ++ childControlPoints (i + 1) rest

end

/-- The second half of `Node::getOrderedControlPoints`: when `ret_ctrl.size() < num_ik`
the node appends its own link. The comparison is between a `size_t` and an `int`, so
`num_ik` is converted to a 64-bit unsigned value first. -/
def Node.appendLink (n : Node α) (num_ik : Int) (ctrl : ControlPoint α)
    (ret_ctrl : List (ControlPoint α)) : List (ControlPoint α) :=
  if ret_ctrl.length < (num_ik % 2 ^ 64).toNat then
    match ret_ctrl.getLast? with
    | some last =>
      ret_ctrl ++ [{ coords := last.anchor, initial := last.anchor, anchor := n.getAnchor,
                     indices := [] }]
    | none =>
      ret_ctrl ++ [{ coords := ctrl.coords, initial := ctrl.initial, anchor := n.getAnchor,
                     indices := [] }]
  else ret_ctrl

/-- The recursion of `Node::getOrderedControlPoints` on the list of hops that remain
(`ctrl_copy.indices` read from its back); `ctrl` supplies `coords` and `initial`. -/
def Node.orderedHops (num_ik : Int) (ctrl : ControlPoint α) :
    List Nat → Node α → Option (List (ControlPoint α))
  | [], n => some (n.appendLink num_ik ctrl [])
  | ind :: rest, n =>
    match n.children[ind]? with
    | some child =>
      match Node.orderedHops num_ik ctrl rest child with
      | some ret_ctrl => some (n.appendLink num_ik ctrl (ret_ctrl.map (ControlPoint.pushIndex ind)))
      | none => none
    | none => none

/-- The function `Node::getOrderedControlPoints`. -/
def Node.getOrderedControlPoints (n : Node α) (num_ik : Int) (ctrl : ControlPoint α) :
    Option (List (ControlPoint α)) :=
  Node.orderedHops num_ik ctrl ctrl.indices.reverse n

end Structure

section Model

variable {α : Type} [CommRing α]

namespace Geometry

/-- Modelled from the spec: `Geometry::getTransformMat`. -/
def getTransformMat (g : Geometry α) : Mat4 α := g.transforms

/-- Modelled from the spec: `Geometry::setTransformMat`, the explicit setter. -/
def setTransformMat (g : Geometry α) (m : Mat4 α) : Geometry α := { g with transforms := m }

/-- Modelled from the spec: `Geometry::translate` composes the translation matrix and
left-multiplies it onto the stored transform (`new = op * old`). -/
def translate (g : Geometry α) (x y z : α) : Geometry α :=
  { g with transforms := (Mat4.translation ⟨x, y, z⟩).mul g.transforms }

/-- Modelled from the spec: `Geometry::scale` composes the scale matrix and
left-multiplies it onto the stored transform. -/
def scale (g : Geometry α) (x y z : α) : Geometry α :=
  { g with transforms := (Mat4.scaling ⟨x, y, z⟩).mul g.transforms }

/-- Modelled from the spec: `Geometry::rotate(axis, angleDegrees)` composes the rotation
matrix and left-multiplies it onto the stored transform. -/
def rotate (rot : Rotation α) (g : Geometry α) (x y z angle : α) : Geometry α :=
  { g with transforms := (rot ⟨x, y, z⟩ angle).mul g.transforms }

/-- Modelled from the spec: `Geometry::resetTransforms` puts the identity back. -/
def resetTransforms (g : Geometry α) : Geometry α := { g with transforms := Mat4.identity }

end Geometry

/-! ## Transform propagation -/

/-- The loop shared by the unscoped operations,
`for (i = 0; i < control.size(); i++) { control[i] = f(control[i]);
control_original[i] = f(control_original[i]); }`:
it indexes `control_original` with the indices of `control`, which is out of bounds
(`none`) when `control_original` is the shorter of the two. -/
def updateControls (f : Vec3 α → Vec3 α) :
    List (Vec3 α) → List (Vec3 α) → Option (List (Vec3 α) × List (Vec3 α))
  | [], control_original => some ([], control_original)
  | _ :: _, [] => none
  | c :: control, o :: control_original =>
    match updateControls f control control_original with
    | some (control', control_original') => some (f c :: control', f o :: control_original')
    | none => none

mutual

/-- The function `Node::transform(glm::vec3 anchor, glm::mat4 matrix)`. The line for
`anchor_original` reads `this->anchor` after the line before it has overwritten it. -/
def Node.transformAnchor (anchor : Vec3 α) (matrix : Mat4 α) : Node α → Option (Node α)
  | .mk g cs an _ c co =>
    match transformAnchorChildren anchor matrix cs with
    | some cs' =>
      match updateControls matrix.applyPoint c co with
      | some (c', co') =>
        some (.mk (g.setTransformMat (matrix.mul g.getTransformMat)) cs'
          (matrix.applyPoint an) (matrix.applyPoint (matrix.applyPoint an)) c' co')
      | none => none
    | none => none

/-- The loop `children[i].transform(anchor, matrix)` over all the children. -/
def transformAnchorChildren (anchor : Vec3 α) (matrix : Mat4 α) :
    List (Node α) → Option (List (Node α))
  | [] => some []
  | child :: rest =>
    match child.transformAnchor anchor matrix with
    | some child' =>
      match transformAnchorChildren anchor matrix rest with
      | some rest' => some (child' :: rest')
      | none => none
    | none => none

end

/-- The function `Node::transform(glm::mat4 matrix)`. -/
def Node.transform (matrix : Mat4 α) (n : Node α) : Option (Node α) :=
  n.transformAnchor n.getAnchor matrix

/-- The body of `Node::transform(inds, anchor, matrix)` once the path is empty: the
geometry, the children (through the unscoped overload), then `anchor` and `control`
only. -/
def Node.transformHere (anchor : Vec3 α) (matrix : Mat4 α) : Node α → Option (Node α)
  | .mk g cs an ao c co =>
    match transformAnchorChildren anchor matrix cs with
    | some cs' =>
      some (.mk (g.setTransformMat (matrix.mul g.getTransformMat)) cs'
        (matrix.applyPoint an) ao (c.map matrix.applyPoint) co)
    | none => none

/-- The function `Node::transform(inds, anchor, matrix)` on the list of hops. -/
def Node.transformHops (anchor : Vec3 α) (matrix : Mat4 α) :
    List Nat → Node α → Option (Node α)
  | [], n => n.transformHere anchor matrix
  | ind :: inds, .mk g cs an ao c co =>
    match cs[ind]? with
    | some child =>
      match Node.transformHops anchor matrix inds child with
      | some child' => some (.mk g (cs.set ind child') an ao c co)
      | none => none
    | none => none

/-- The function `Node::transform(std::vector<unsigned int> inds, glm::vec3 anchor,
glm::mat4 matrix)`. -/
def Node.transformIndsAnchor (inds : List Nat) (anchor : Vec3 α) (matrix : Mat4 α)
    (n : Node α) : Option (Node α) :=
  n.transformHops anchor matrix inds.reverse

/-- The function `Node::transform(inds, matrix)` on the list of hops: at the end of the
path it calls the overload with a path (now empty) and the anchor of the node. -/
def Node.transformSelfHops (matrix : Mat4 α) : List Nat → Node α → Option (Node α)
  | [], n => n.transformIndsAnchor [] n.getAnchor matrix
  | ind :: inds, .mk g cs an ao c co =>
    match cs[ind]? with
    | some child =>
      match Node.transformSelfHops matrix inds child with
      | some child' => some (.mk g (cs.set ind child') an ao c co)
      | none => none
    | none => none

/-- The function `Node::transform(std::vector<unsigned int> inds, glm::mat4 matrix)`. -/
def Node.transformInds (inds : List Nat) (matrix : Mat4 α) (n : Node α) : Option (Node α) :=
  n.transformSelfHops matrix inds.reverse

/-- The matrix `trans_matrix` of the two rotate overloads that update the points: the
pivot matrix about `anchor` of the rotation by `angle` about the axis `(0, 0, 1)`. -/
def rotatePointsMat (rot : Rotation α) (anchor : Vec3 α) (angle : α) : Mat4 α :=
  Mat4.aboutPoint anchor (rot ⟨0, 0, 1⟩ angle)

/-- The three geometry calls of the rotate overloads: translate by `-anchor`, rotate
about `(x, y, z)`, translate by `anchor`. -/
def rotateGeometry (rot : Rotation α) (anchor : Vec3 α) (x y z angle : α) (g : Geometry α) :
    Geometry α :=
  ((g.translate (-anchor.x) (-anchor.y) (-anchor.z)).rotate rot x y z angle).translate
    anchor.x anchor.y anchor.z

mutual

/-- The function `Node::rotate(glm::vec3 anchor, float x, float y, float z, float angle)`.
As in `transform`, the line for `anchor_original` reads the new `this->anchor`. -/
def Node.rotateAnchor (rot : Rotation α) (anchor : Vec3 α) (x y z angle : α) :
    Node α → Option (Node α)
  | .mk g cs an _ c co =>
    match rotateAnchorChildren rot anchor x y z angle cs with
    | some cs' =>
      match updateControls (rotatePointsMat rot anchor angle).applyPoint c co with
      | some (c', co') =>
        some (.mk (rotateGeometry rot anchor x y z angle g) cs'
          ((rotatePointsMat rot anchor angle).applyPoint an)
          ((rotatePointsMat rot anchor angle).applyPoint
            ((rotatePointsMat rot anchor angle).applyPoint an)) c' co')
      | none => none
    | none => none

/-- The loop `children[i].rotate(anchor, x, y, z, angle)` over all the children. -/
def rotateAnchorChildren (rot : Rotation α) (anchor : Vec3 α) (x y z angle : α) :
    List (Node α) → Option (List (Node α))
  | [] => some []
  | child :: rest =>
    match child.rotateAnchor rot anchor x y z angle with
    | some child' =>
      match rotateAnchorChildren rot anchor x y z angle rest with
      | some rest' => some (child' :: rest')
      | none => none
    | none => none

end

/-- The function `Node::rotate(float x, float y, float z, float angle)`. -/
def Node.rotate (rot : Rotation α) (x y z angle : α) (n : Node α) : Option (Node α) :=
  n.rotateAnchor rot n.getAnchor x y z angle

/-- The body of `Node::rotate(inds, anchor, x, y, z, angle)` once the path is empty. -/
def Node.rotateHere (rot : Rotation α) (anchor : Vec3 α) (x y z angle : α) :
    Node α → Option (Node α)
  | .mk g cs an ao c co =>
    match rotateAnchorChildren rot anchor x y z angle cs with
    | some cs' =>
      some (.mk (rotateGeometry rot anchor x y z angle g) cs'
        ((rotatePointsMat rot anchor angle).applyPoint an) ao
        (c.map (rotatePointsMat rot anchor angle).applyPoint) co)
    | none => none

/-- The function `Node::rotate(inds, anchor, x, y, z, angle)` on the list of hops. -/
def Node.rotateHops (rot : Rotation α) (anchor : Vec3 α) (x y z angle : α) :
    List Nat → Node α → Option (Node α)
  | [], n => n.rotateHere rot anchor x y z angle
  | ind :: inds, .mk g cs an ao c co =>
    match cs[ind]? with
    | some child =>
      match Node.rotateHops rot anchor x y z angle inds child with
      | some child' => some (.mk g (cs.set ind child') an ao c co)
      | none => none
    | none => none

/-- The function `Node::rotate(std::vector<unsigned int> inds, glm::vec3 anchor, float x,
float y, float z, float angle)`. -/
def Node.rotateIndsAnchor (rot : Rotation α) (inds : List Nat) (anchor : Vec3 α)
    (x y z angle : α) (n : Node α) : Option (Node α) :=
  n.rotateHops rot anchor x y z angle inds.reverse

/-- The function `Node::rotate(inds, x, y, z, angle)` on the list of hops: at the end of
the path it calls the overload with a path (now empty) and the anchor of the node. -/
def Node.rotateSelfHops (rot : Rotation α) (x y z angle : α) :
    List Nat → Node α → Option (Node α)
  | [], n => n.rotateIndsAnchor rot [] n.getAnchor x y z angle
  | ind :: inds, .mk g cs an ao c co =>
    match cs[ind]? with
    | some child =>
      match Node.rotateSelfHops rot x y z angle inds child with
      | some child' => some (.mk g (cs.set ind child') an ao c co)
      | none => none
    | none => none

/-- The function `Node::rotate(std::vector<unsigned int> inds, float x, float y, float z,
float angle)`. -/
def Node.rotateInds (rot : Rotation α) (inds : List Nat) (x y z angle : α) (n : Node α) :
    Option (Node α) :=
  n.rotateSelfHops rot x y z angle inds.reverse

mutual

/-- The function `Node::scale`. -/
def Node.scale (x y z : α) : Node α → Option (Node α)
  | .mk g cs an ao c co =>
    match scaleChildren x y z cs with
    | some cs' =>
      match updateControls (Mat4.identity.mul (Mat4.scaling ⟨x, y, z⟩)).applyPoint c co with
      | some (c', co') =>
        some (.mk (g.scale x y z) cs'
          ((Mat4.identity.mul (Mat4.scaling ⟨x, y, z⟩)).applyPoint an)
          ((Mat4.identity.mul (Mat4.scaling ⟨x, y, z⟩)).applyPoint ao) c' co')
      | none => none
    | none => none

/-- The loop `children[i].scale(x, y, z)` over all the children. -/
def scaleChildren (x y z : α) : List (Node α) → Option (List (Node α))
  | [] => some []
  | child :: rest =>
    match child.scale x y z with
    | some child' =>
      match scaleChildren x y z rest with
      | some rest' => some (child' :: rest')
      | none => none
    | none => none

end

mutual

/-- The function `Node::translate`. -/
def Node.translate (x y z : α) : Node α → Option (Node α)
  | .mk g cs an ao c co =>
    match translateChildren x y z cs with
    | some cs' =>
      match updateControls (Mat4.identity.mul (Mat4.translation ⟨x, y, z⟩)).applyPoint c co with
      | some (c', co') =>
        some (.mk (g.translate x y z) cs'
          ((Mat4.identity.mul (Mat4.translation ⟨x, y, z⟩)).applyPoint an)
          ((Mat4.identity.mul (Mat4.translation ⟨x, y, z⟩)).applyPoint ao) c' co')
      | none => none
    | none => none

/-- The loop `children[i].translate(x, y, z)` over all the children. -/
def translateChildren (x y z : α) : List (Node α) → Option (List (Node α))
  | [] => some []
  | child :: rest =>
    match child.translate x y z with
    | some child' =>
      match translateChildren x y z rest with
      | some rest' => some (child' :: rest')
      | none => none
    | none => none

end

mutual

/-- The function `Node::resetTransforms`. -/
def Node.resetTransforms : Node α → Node α
  | .mk g cs _ ao _ co => .mk g.resetTransforms (resetTransformsChildren cs) ao ao co co

/-- The loop `children[i].resetTransforms()` over all the children. -/
def resetTransformsChildren : List (Node α) → List (Node α)
  | [] => []
  | child :: rest => child.resetTransforms :: resetTransformsChildren rest

end

/-! ## The common shape of the operations

Two traversals that the operations above instantiate; they are used to state and prove
the properties of the operations once. -/

/-- The update an unscoped operation performs on the members of one node: the geometry,
`anchor`, `anchor_original` (from the old `anchor` and the old `anchor_original`), and
the function applied to every entry of `control` and `control_original`. -/
structure NodeUpdate (α : Type) where
  onGeometry : Geometry α → Geometry α
  onAnchor : Vec3 α → Vec3 α
  onAnchorOriginal : Vec3 α → Vec3 α → Vec3 α
  onPoint : Vec3 α → Vec3 α

/-- The function `f` on every element, `none` as soon as one result is `none`. -/
def allSome {β γ : Type} (f : β → Option γ) : List β → Option (List γ)
  | [] => some []
  | b :: bs =>
    match f b with
    | some c =>
      match allSome f bs with
      | some cs => some (c :: cs)
      | none => none
    | none => none

mutual

/-- The traversal of the unscoped operations: the same update at the node and at every
descendant. -/
def Node.visit (u : NodeUpdate α) : Node α → Option (Node α)
  | .mk g cs an ao c co =>
    match visitChildren u cs with
    | some cs' =>
      match updateControls u.onPoint c co with
      | some (c', co') => some (.mk (u.onGeometry g) cs' (u.onAnchor an) (u.onAnchorOriginal an ao) c' co')
      | none => none
    | none => none

/-- The traversal `Node.visit` on a list of children. -/
def visitChildren (u : NodeUpdate α) : List (Node α) → Option (List (Node α))
  | [] => some []
  | child :: rest =>
    match child.visit u with
    | some child' =>
      match visitChildren u rest with
      | some rest' => some (child' :: rest')
      | none => none
    | none => none

end

/-- The descent of the path-scoped operations: follow the hops, run `op` on the node
they lead to and put the result back in place of that node. -/
def Node.applyAt (op : Node α → Option (Node α)) : List Nat → Node α → Option (Node α)
  | [], n => op n
  | ind :: inds, .mk g cs an ao c co =>
    match cs[ind]? with
    | some child =>
      match Node.applyAt op inds child with
      | some child' => some (.mk g (cs.set ind child') an ao c co)
      | none => none
    | none => none

/-- The update of `Node::transform(anchor, matrix)`. -/
def transformUpdate (matrix : Mat4 α) : NodeUpdate α where
  onGeometry g := g.setTransformMat (matrix.mul g.getTransformMat)
  onAnchor an := matrix.applyPoint an
  onAnchorOriginal an _ := matrix.applyPoint (matrix.applyPoint an)
  onPoint := matrix.applyPoint

/-- The update of `Node::rotate(anchor, x, y, z, angle)`. -/
def rotateUpdate (rot : Rotation α) (anchor : Vec3 α) (x y z angle : α) : NodeUpdate α where
  onGeometry g := rotateGeometry rot anchor x y z angle g
  onAnchor an := (rotatePointsMat rot anchor angle).applyPoint an
  onAnchorOriginal an _ :=
    (rotatePointsMat rot anchor angle).applyPoint ((rotatePointsMat rot anchor angle).applyPoint an)
  onPoint := (rotatePointsMat rot anchor angle).applyPoint

/-- The update of `Node::scale`. -/
def scaleUpdate (x y z : α) : NodeUpdate α where
  onGeometry g := g.scale x y z
  onAnchor an := (Mat4.identity.mul (Mat4.scaling ⟨x, y, z⟩)).applyPoint an
  onAnchorOriginal _ ao := (Mat4.identity.mul (Mat4.scaling ⟨x, y, z⟩)).applyPoint ao
  onPoint := (Mat4.identity.mul (Mat4.scaling ⟨x, y, z⟩)).applyPoint

/-- The update of `Node::translate`. -/
def translateUpdate (x y z : α) : NodeUpdate α where
  onGeometry g := g.translate x y z
  onAnchor an := (Mat4.identity.mul (Mat4.translation ⟨x, y, z⟩)).applyPoint an
  onAnchorOriginal _ ao := (Mat4.identity.mul (Mat4.translation ⟨x, y, z⟩)).applyPoint ao
  onPoint := (Mat4.identity.mul (Mat4.translation ⟨x, y, z⟩)).applyPoint

mutual

/-- In a well-formed tree every node has as many `control_original` as `control`
entries, as is the case after construction and after every operation of the class. -/
def Node.wellFormed : Node α → Bool
  | .mk _ cs _ _ c co => c.length == co.length && wellFormedChildren cs

/-- The check `Node.wellFormed` on every child of a list. -/
def wellFormedChildren : List (Node α) → Bool
  | [] => true
  | child :: rest => child.wellFormed && wellFormedChildren rest

end

/-- The members of two nodes other than their children are the same. -/
def Node.sameMembers (m m' : Node α) : Prop :=
  m'.geometry = m.geometry ∧ m'.anchor = m.anchor ∧ m'.anchor_original = m.anchor_original ∧
    m'.control = m.control ∧ m'.control_original = m.control_original

/-- The nodes outside the subtree addressed by the path `p` are left as they were: every
node of `root` whose path `q` does not end with `p` (the paths being read from their
back, these are the nodes that are not reached through the node `p` addresses) is at
the same path in `root'`, with the same members. -/
def Node.unchangedOutside (root root' : Node α) (p : List Nat) : Prop :=
  ∀ (q : List Nat) (m : Node α), root.descend q = some m → ¬ p <:+ q →
    ∃ m', root'.descend q = some m' ∧ m.sameMembers m'

end Model

/-! ## Concrete trees -/

/-- A point with integer coordinates. -/
def pt (x y z : ℤ) : Vec3 ℤ := ⟨x, y, z⟩

/-- A geometry without vertices, at the identity. -/
def emptyGeometry : Geometry ℤ := ⟨[], Mat4.identity⟩

/-- The last link of a chain: anchored at `(2, 0, 0)`, its end point at `(3, 0, 0)`. -/
def tip : Node ℤ := .mk emptyGeometry [] (pt 2 0 0) (pt 2 0 0) [pt 3 0 0] [pt 3 0 0]

/-- The middle link: anchored at `(1, 0, 0)`, with `tip` as its only child. -/
def mid : Node ℤ := .mk emptyGeometry [tip] (pt 1 0 0) (pt 1 0 0) [pt 2 0 0] [pt 2 0 0]

/-- A 3-deep chain, in the state `calculateControlPoints` leaves it in: the control
point of a node for a child is the anchor of the child. -/
def chain3 : Node ℤ := .mk emptyGeometry [mid] (pt 0 0 0) (pt 0 0 0) [pt 1 0 0] [pt 1 0 0]

/-- A side link anchored at `(0, 1, 0)`, without children. -/
def side : Node ℤ := .mk emptyGeometry [] (pt 0 1 0) (pt 0 1 0) [pt 0 2 0] [pt 0 2 0]

/-- A root with two branches: the chain `mid`, `tip` and the link `side`. -/
def fork : Node ℤ :=
  .mk emptyGeometry [mid, side] (pt 0 0 0) (pt 0 0 0) [pt 1 0 0, pt 0 1 0] [pt 1 0 0, pt 0 1 0]

/-- The translation by one unit along `z`. -/
def liftZ : Mat4 ℤ := Mat4.translation (pt 0 0 1)

/-- The link `tip` after the unscoped `transform(anchor, liftZ)`. -/
def tipLifted : Node ℤ :=
  .mk ⟨[], liftZ⟩ [] (pt 2 0 1) (pt 2 0 2) [pt 3 0 1] [pt 3 0 1]

/-- The link `mid` after the unscoped `transform(anchor, liftZ)`. -/
def midLifted : Node ℤ :=
  .mk ⟨[], liftZ⟩ [tipLifted] (pt 1 0 1) (pt 1 0 2) [pt 2 0 1] [pt 2 0 1]

/-- The control point `getControlPoints` returns for the end of `chain3`. -/
def tipPoint : ControlPoint ℤ :=
  { coords := pt 3 0 0, initial := pt 3 0 0, anchor := pt 2 0 0, indices := [0, 0] }

/-! ## Bounding boxes and the computation of the control points -/

/-- Modelled from the spec: the struct `BoundingBox` (`structs/bounding_box`, not among
the sources), the axis-aligned minimum and maximum of a point set. -/
structure BoundingBox (α : Type) where
  min : Vec3 α
  max : Vec3 α
deriving DecidableEq

section Boxes

variable {α : Type} [LinearOrderedField α]

/-- The box that also encloses the point `v`. -/
def BoundingBox.extend (bb : BoundingBox α) (v : Vec3 α) : BoundingBox α :=
  ⟨⟨Min.min bb.min.x v.x, Min.min bb.min.y v.y, Min.min bb.min.z v.z⟩,
   ⟨Max.max bb.max.x v.x, Max.max bb.max.y v.y, Max.max bb.max.z v.z⟩⟩

/-- Modelled from the spec: `Geometry::getBoundingBox` transforms every vertex position
by the current matrix and folds the minimum and the maximum; the zero box for an empty
vertex list. -/
def Geometry.getBoundingBox (g : Geometry α) : BoundingBox α :=
  match g.vertices.map g.transforms.applyPoint with
  | [] => ⟨⟨0, 0, 0⟩, ⟨0, 0, 0⟩⟩
  | p :: ps => ps.foldl BoundingBox.extend ⟨p, p⟩

/-- The body of the loop of `Node::getBoundingBox`: the six comparisons that widen
`global_bb` to the box `bb` of a child. -/
def BoundingBox.widen (global_bb bb : BoundingBox α) : BoundingBox α :=
  ⟨⟨if global_bb.min.x > bb.min.x then bb.min.x else global_bb.min.x,
    if global_bb.min.y > bb.min.y then bb.min.y else global_bb.min.y,
    if global_bb.min.z > bb.min.z then bb.min.z else global_bb.min.z⟩,
   ⟨if global_bb.max.x < bb.max.x then bb.max.x else global_bb.max.x,
    if global_bb.max.y < bb.max.y then bb.max.y else global_bb.max.y,
    if global_bb.max.z < bb.max.z then bb.max.z else global_bb.max.z⟩⟩

mutual

/-- The function `Node::getBoundingBox`: the box of the geometry of the node, widened by
the boxes of the children from the index 1 on (the loop starts at `i = 1`). -/
def Node.getBoundingBox : Node α → BoundingBox α
  | .mk g cs _ _ _ _ =>
    match cs with
    | [] => g.getBoundingBox
    | _ :: rest => widenByChildren g.getBoundingBox rest

/-- The loop of `Node::getBoundingBox` over the children that remain. -/
def widenByChildren (global_bb : BoundingBox α) : List (Node α) → BoundingBox α
  | [] => global_bb
  | child :: rest => widenByChildren (global_bb.widen child.getBoundingBox) rest

end

/-- The constructor `Node::Node`: the geometry is built from the vertices with the
identity as transform, the children are stored, and the anchors and the control lists
keep their default values (zero and empty). -/
def Node.new (vertices : List (Vec3 α)) (children : List (Node α)) : Node α :=
  .mk ⟨vertices, Mat4.identity⟩ children ⟨0, 0, 0⟩ ⟨0, 0, 0⟩ [] []

/-- The point `glm::vec3(bb.max.x, (bb.min.y + bb.max.y) / 2, (bb.min.z + bb.max.z) / 2)`
of the policy `right`. -/
def BoundingBox.right (bb : BoundingBox α) : Vec3 α :=
  ⟨bb.max.x, (bb.min.y + bb.max.y) / 2, (bb.min.z + bb.max.z) / 2⟩

/-- The point `glm::vec3((bb.min.x + bb.max.x) / 2, bb.min.y, (bb.min.z + bb.max.z) / 2)`
of the policy `down`. -/
def BoundingBox.down (bb : BoundingBox α) : Vec3 α :=
  ⟨(bb.min.x + bb.max.x) / 2, bb.min.y, (bb.min.z + bb.max.z) / 2⟩

/-- The point `glm::vec3(bb.min.x, (bb.min.y + bb.max.y) / 2, (bb.min.z + bb.max.z) / 2)`
of the policy `left`. -/
def BoundingBox.left (bb : BoundingBox α) : Vec3 α :=
  ⟨bb.min.x, (bb.min.y + bb.max.y) / 2, (bb.min.z + bb.max.z) / 2⟩

/-- The centre of the box, of the policy `centre`. -/
def BoundingBox.centre (bb : BoundingBox α) : Vec3 α :=
  ⟨(bb.min.x + bb.max.x) / 2, (bb.min.y + bb.max.y) / 2, (bb.min.z + bb.max.z) / 2⟩

/-- The box `intersection` of the policy `inter`, built with `fmax` on the minima and
`fmin` on the maxima of the two boxes. -/
def BoundingBox.inter (bb_1 bb_2 : BoundingBox α) : BoundingBox α :=
  ⟨⟨Max.max bb_1.min.x bb_2.min.x, Max.max bb_1.min.y bb_2.min.y, Max.max bb_1.min.z bb_2.min.z⟩,
   ⟨Min.min bb_1.max.x bb_2.max.x, Min.min bb_1.max.y bb_2.max.y, Min.min bb_1.max.z bb_2.max.z⟩⟩

/-- The control point of a node without children in the overload of
`calculateControlPoints` with a parent geometry: `right` and `down` are handled, any other
value of `end` runs into `assert(false)` (`none`). -/
def endControlPoint (end_ : String) (g : Geometry α) : Option (Vec3 α) :=
  if end_ = "right" then some g.getBoundingBox.right
  else if end_ = "down" then some g.getBoundingBox.down
  else none

/-- The anchor in the overload of `calculateControlPoints` with a parent geometry: `left`
and `inter` are handled, any other value of `middle` runs into `assert(false)`. -/
def middleAnchor (middle : String) (parentGeom g : Geometry α) : Option (Vec3 α) :=
  if middle = "left" then some g.getBoundingBox.left
  else if middle = "inter" then
    some (g.getBoundingBox.inter parentGeom.getBoundingBox).centre
  else none

/-- The control point of a node without children in the overload of
`calculateControlPoints` called on the root: only `right` is handled. -/
def rootEndControlPoint (end_ : String) (g : Geometry α) : Option (Vec3 α) :=
  if end_ = "right" then some g.getBoundingBox.right else none

/-- The anchor in the overload of `calculateControlPoints` called on the root: `left` and
`centre` are handled, any other value of `first` runs into `assert(false)`. -/
def firstAnchor (first : String) (g : Geometry α) : Option (Vec3 α) :=
  if first = "left" then some g.getBoundingBox.left
  else if first = "centre" then some g.getBoundingBox.centre
  else none

mutual

/-- The function `Node::calculateControlPoints(const Geometry &parentGeom, const char*
middle, const char* end)`; `none` when an `assert(false)` is reached. -/
def Node.calculateControlPointsIn (parentGeom : Geometry α) (middle end_ : String) :
    Node α → Option (Node α)
  | .mk g cs _ _ c _ =>
    match cs with
    | [] =>
      match endControlPoint end_ g with
      | some v =>
        match middleAnchor middle parentGeom g with
        | some a => some (.mk g [] a a (c ++ [v]) (c ++ [v]))
        | none => none
      | none => none
    | child :: rest =>
      match calculateChildren g middle end_ (child :: rest) c with
      | some (cs', c') =>
        match middleAnchor middle parentGeom g with
        | some a => some (.mk g cs' a a c' c')
        | none => none
      | none => none

/-- The loop of both overloads over the children: `children[i].calculateControlPoints(
this->geometry, middle, end)` followed by
`this->control.push_back(this->children[i].getAnchor())`. -/
def calculateChildren (geometry : Geometry α) (middle end_ : String) :
    List (Node α) → List (Vec3 α) → Option (List (Node α) × List (Vec3 α))
  | [], control => some ([], control)
  | child :: rest, control =>
    match child.calculateControlPointsIn geometry middle end_ with
    | some child' =>
      match calculateChildren geometry middle end_ rest (control ++ [child'.getAnchor]) with
      | some (rest', control') => some (child' :: rest', control')
      | none => none
    | none => none

end

/-- The function `Node::calculateControlPoints(const char* first, const char* middle,
const char* end)`; `none` when an `assert(false)` is reached. -/
def Node.calculateControlPoints (first middle end_ : String) : Node α → Option (Node α)
  | .mk g cs _ _ c _ =>
    match cs with
    | [] =>
      match rootEndControlPoint end_ g with
      | some v =>
        match firstAnchor first g with
        | some a => some (.mk g [] a a (c ++ [v]) (c ++ [v]))
        | none => none
      | none => none
    | child :: rest =>
      match calculateChildren g middle end_ (child :: rest) c with
      | some (cs', c') =>
        match firstAnchor first g with
        | some a => some (.mk g cs' a a c' c')
        | none => none
      | none => none

/-- What `calculateControlPoints` leaves at a node: the control points are the anchors of
the children, or the single end point of a node without children, and the snapshots are
copies of the live values. -/
def Node.calculated (m : Node α) : Prop :=
  (m.children ≠ [] → m.control = m.children.map Node.anchor) ∧
    (m.children = [] → m.control.length = 1) ∧
    m.anchor_original = m.anchor ∧ m.control_original = m.control

end Boxes

section Sequences

variable {α : Type} [CommRing α]

mutual

/-- A freshly built tree: every node is as the constructor `Node::Node` leaves it, with
the identity as geometry transform, zero anchors and empty control lists. -/
def Node.isFresh : Node α → Prop
  | .mk g cs an ao c co =>
    g.transforms = Mat4.identity ∧ an = ⟨0, 0, 0⟩ ∧ ao = ⟨0, 0, 0⟩ ∧ c = [] ∧ co = [] ∧
      freshChildren cs

/-- The predicate `Node.isFresh` on every child of a list. -/
def freshChildren : List (Node α) → Prop
  | [] => True
  | child :: rest => child.isFresh ∧ freshChildren rest

end

/-- A call of one of the transform operations of `Node`, with its arguments. -/
inductive NodeOp (α : Type) where
  | rotate (x y z angle : α)
  | rotateInds (inds : List Nat) (x y z angle : α)
  | rotateAnchor (anchor : Vec3 α) (x y z angle : α)
  | rotateIndsAnchor (inds : List Nat) (anchor : Vec3 α) (x y z angle : α)
  | scale (x y z : α)
  | translate (x y z : α)
  | transform (matrix : Mat4 α)
  | transformInds (inds : List Nat) (matrix : Mat4 α)
  | transformAnchor (anchor : Vec3 α) (matrix : Mat4 α)
  | transformIndsAnchor (inds : List Nat) (anchor : Vec3 α) (matrix : Mat4 α)

/-- The call `op` made on the node `n`. -/
def Node.call (rot : Rotation α) (n : Node α) : NodeOp α → Option (Node α)
  | .rotate x y z angle => n.rotate rot x y z angle
  | .rotateInds inds x y z angle => n.rotateInds rot inds x y z angle
  | .rotateAnchor anchor x y z angle => n.rotateAnchor rot anchor x y z angle
  | .rotateIndsAnchor inds anchor x y z angle => n.rotateIndsAnchor rot inds anchor x y z angle
  | .scale x y z => n.scale x y z
  | .translate x y z => n.translate x y z
  | .transform matrix => n.transform matrix
  | .transformInds inds matrix => n.transformInds inds matrix
  | .transformAnchor anchor matrix => n.transformAnchor anchor matrix
  | .transformIndsAnchor inds anchor matrix => n.transformIndsAnchor inds anchor matrix

/-- A sequence of calls made one after the other on the node `n`. -/
def Node.callAll (rot : Rotation α) : Node α → List (NodeOp α) → Option (Node α)
  | n, [] => some n
  | n, op :: ops =>
    match n.call rot op with
    | some n' => n'.callAll rot ops
    | none => none

mutual

/-- The tree of the geometries of a node, each one passed through `f`: the members other
than the geometry and the children are put back to their default values. -/
def Node.geometryTree (f : Geometry α → Geometry α) : Node α → Node α
  | .mk g cs _ _ _ _ => .mk (f g) (geometryTreeChildren f cs) ⟨0, 0, 0⟩ ⟨0, 0, 0⟩ [] []

/-- The function `Node.geometryTree` on a list of children. -/
def geometryTreeChildren (f : Geometry α → Geometry α) : List (Node α) → List (Node α)
  | [] => []
  | child :: rest => child.geometryTree f :: geometryTreeChildren f rest

end

end Sequences

/-- A unit cube corner set used as the vertices of the links of `rawChain`. -/
def boxVertices (x : ℚ) : List (Vec3 ℚ) := [⟨x, 0, 0⟩, ⟨x + 1, 1, 1⟩]

/-- A freshly built chain of three links, each with a box of size one, laid along `x`. -/
def rawChain : Node ℚ :=
  Node.new (boxVertices 0) [Node.new (boxVertices 1) [Node.new (boxVertices 2) []]]

/-- A freshly built node without children. -/
def rawLeaf : Node ℚ := Node.new (boxVertices 0) []

/-- The point `(x, 1/2, 1/2)`, on the axis of the boxes of `rawChain`. -/
def onAxis (x : ℚ) : Vec3 ℚ := ⟨x, 1 / 2, 1 / 2⟩

/-- The chain `rawChain` after `calculateControlPoints("left", "inter", "right")`. -/
def builtChain : Node ℚ :=
  .mk ⟨boxVertices 0, Mat4.identity⟩
    [.mk ⟨boxVertices 1, Mat4.identity⟩
      [.mk ⟨boxVertices 2, Mat4.identity⟩ [] (onAxis 2) (onAxis 2) [onAxis 3] [onAxis 3]]
      (onAxis 1) (onAxis 1) [onAxis 2] [onAxis 2]]
    (onAxis 0) (onAxis 0) [onAxis 1] [onAxis 1]

/-- A sequence of calls: a translation of the whole chain, a half turn of the second
link about its anchor, a scale of the whole chain and a translation of the last link. -/
def poseCalls : List (NodeOp ℚ) :=
  [.translate 1 2 3, .rotateIndsAnchor [0] (onAxis 2) 0 0 1 180, .scale 2 2 2,
    .transformInds [0, 0] (Mat4.translation ⟨0, 0, 1⟩)]

/-- The chain `builtChain` after the calls `poseCalls`. -/
def posedChain : Node ℚ := (builtChain.callAll halfTurn poseCalls).getD builtChain


/-! ## Forward and inverse kinematics (`displayElements` of `main.cpp`)

The square root (`std::sqrt`, and the one inside `glm::length`, `glm::normalize` and
`glm::distance`) is a parameter `sqrt` of the definitions: the scalars are exact, and the
properties that need it ask that it is exact on the numbers the step takes the root of.
The functions of the library are written out by their documented formulas. -/

/-- The type `glm::quat`. -/
structure Quat (α : Type) where
  x : α
  y : α
  z : α
  w : α
deriving DecidableEq

/-- The class `ObjectHierarchical`: the root node and the three anchor policies. -/
structure ObjectHierarchical (α : Type) where
  root : Node α
  first : String
  middle : String
  end_ : String

/-- The control point whose `coords` and `initial` are taken through `f` and whose
`anchor` is taken through `g`; the path is kept. -/
def ControlPoint.image {α : Type} (f g : Vec3 α → Vec3 α) (p : ControlPoint α) :
    ControlPoint α :=
  ⟨f p.coords, f p.initial, g p.anchor, p.indices⟩

/-- The element `v[i]` of a vector for an index `i` held in an `int`: the index is
converted to `size_t`, so a negative one is out of bounds. -/
def atInt {β : Type} (v : List β) (i : Int) : Option β :=
  if i < 0 then none else v[i.toNat]?

/-- The statement `ctrl_pnts[moving_joint].coords = click` of `handleMouseEvents`. -/
def dragTo {α : Type} (ctrl_pnts : List (ControlPoint α)) (moving_joint : Nat) (click : Vec3 α) :
    List (ControlPoint α) :=
  match ctrl_pnts[moving_joint]? with
  | some p => ctrl_pnts.set moving_joint { p with coords := click }
  | none => ctrl_pnts

section Kinematics

variable {α : Type} [LinearOrderedField α]

/-- The difference `a - b` of two points. -/
def Vec3.sub (a b : Vec3 α) : Vec3 α := ⟨a.x - b.x, a.y - b.y, a.z - b.z⟩

/-- The product `v * k` of a vector and a scalar. -/
def Vec3.times (v : Vec3 α) (k : α) : Vec3 α := ⟨v.x * k, v.y * k, v.z * k⟩

/-- The function `glm::dot` on `vec3`. -/
def Vec3.dot (a b : Vec3 α) : α := a.x * b.x + a.y * b.y + a.z * b.z

/-- The function `glm::cross`. -/
def Vec3.cross (a b : Vec3 α) : Vec3 α :=
  ⟨a.y * b.z - b.y * a.z, a.z * b.x - b.z * a.x, a.x * b.y - b.x * a.y⟩

/-- The function `glm::length` on `vec3`: `sqrt(dot(v, v))`. -/
def Vec3.length (sqrt : α → α) (v : Vec3 α) : α := sqrt (v.dot v)

/-- The function `glm::normalize` on `vec3`: `v * inversesqrt(dot(v, v))`. The value is
that of the code for a vector whose length is not zero. For a vector of length zero the
code multiplies zero by the inverse of zero and obtains a vector that is not a number,
which exact scalars have no value for (see `pivotDefined`). -/
def Vec3.normalize (sqrt : α → α) (v : Vec3 α) : Vec3 α := v.times (1 / sqrt (v.dot v))

/-- The function `glm::distance` on `vec3`: `length(p1 - p0)`. -/
def Vec3.distance (sqrt : α → α) (p0 p1 : Vec3 α) : α := (p1.sub p0).length sqrt

/-- The function `glm::dot` on quaternions. -/
def Quat.dot (a b : Quat α) : α := a.x * b.x + a.y * b.y + a.z * b.z + a.w * b.w

/-- The function `glm::normalize` on quaternions: the quaternion divided by its length,
and the identity quaternion when the length is not positive. -/
def Quat.normalize (sqrt : α → α) (q : Quat α) : Quat α :=
  if sqrt (q.dot q) ≤ 0 then ⟨0, 0, 0, 1⟩
  else ⟨q.x * (1 / sqrt (q.dot q)), q.y * (1 / sqrt (q.dot q)), q.z * (1 / sqrt (q.dot q)),
    q.w * (1 / sqrt (q.dot q))⟩

/-- The function `glm::toMat4`: the rotation matrix of a quaternion. -/
def Quat.toMat4 (q : Quat α) : Mat4 α :=
  ⟨⟨1 - 2 * (q.y * q.y + q.z * q.z), 2 * (q.x * q.y - q.w * q.z), 2 * (q.x * q.z + q.w * q.y), 0⟩,
   ⟨2 * (q.x * q.y + q.w * q.z), 1 - 2 * (q.x * q.x + q.z * q.z), 2 * (q.y * q.z - q.w * q.x), 0⟩,
   ⟨2 * (q.x * q.z - q.w * q.y), 2 * (q.y * q.z + q.w * q.x), 1 - 2 * (q.x * q.x + q.y * q.y), 0⟩,
   ⟨0, 0, 0, 1⟩⟩

/-- The quaternion `q` the kinematic steps build from the two unit vectors, before it is
normalised: the cross product as `x`, `y`, `z`, and
`std::sqrt(std::pow(glm::length(v1), 2) * std::pow(glm::length(v2), 2)) + glm::dot(v1, v2)`
as `w`. -/
def arcQuat (sqrt : α → α) (v1 v2 : Vec3 α) : Quat α :=
  ⟨(v1.cross v2).x, (v1.cross v2).y, (v1.cross v2).z,
    sqrt ((v1.length sqrt * v1.length sqrt) * (v2.length sqrt * v2.length sqrt)) + v1.dot v2⟩

/-- The matrix `trans_matrix` of the kinematic steps (the block repeated in the FK, IK
and scripted branches): the rotation that takes the direction from `anchor` to `start`
onto the direction from `anchor` to `goal`, as a pivot matrix about `anchor`. -/
def pivotMatrix (sqrt : α → α) (start goal anchor : Vec3 α) : Mat4 α :=
  Mat4.aboutPoint anchor
    ((arcQuat sqrt ((start.sub anchor).normalize sqrt)
      ((goal.sub anchor).normalize sqrt)).normalize sqrt).toMat4

/-- The two normalisations of a kinematic step are defined: neither `start - anchor` nor
`goal - anchor` has length zero. When one of them has, `glm::normalize` divides by zero,
and the vector, the quaternion and the matrix `trans_matrix` the step computes from it
are not numbers. -/
def pivotDefined (sqrt : α → α) (start goal anchor : Vec3 α) : Prop :=
  (start.sub anchor).length sqrt ≠ 0 ∧ (goal.sub anchor).length sqrt ≠ 0

instance (sqrt : α → α) (start goal anchor : Vec3 α) :
    Decidable (pivotDefined sqrt start goal anchor) :=
  inferInstanceAs (Decidable ((start.sub anchor).length sqrt ≠ 0
    ∧ (goal.sub anchor).length sqrt ≠ 0))

namespace ObjectHierarchical

/-- The function `ObjectHierarchical::getControlPoints`. -/
def getControlPoints (o : ObjectHierarchical α) : List (ControlPoint α) :=
  o.root.getControlPoints

/-- The function `ObjectHierarchical::getOrderedControlPoints`. -/
def getOrderedControlPoints (o : ObjectHierarchical α) (num_ik : Int)
    (ctrl : ControlPoint α) : Option (List (ControlPoint α)) :=
  o.root.getOrderedControlPoints num_ik ctrl

/-- The function `ObjectHierarchical::transform(inds, anchor, matrix)`. -/
def transform (o : ObjectHierarchical α) (inds : List Nat) (anchor : Vec3 α)
    (matrix : Mat4 α) : Option (ObjectHierarchical α) :=
  match o.root.transformIndsAnchor inds anchor matrix with
  | some root' => some { o with root := root' }
  | none => none

end ObjectHierarchical

/-- The branch `kinematic == 0` of `displayElements`: nothing is done when no joint is
selected or when the selected control point has `coords == initial`; otherwise the pivot
matrix is applied to the node of the control point. -/
def fkStep (sqrt : α → α) (selected : ObjectHierarchical α)
    (ctrl_pnts : List (ControlPoint α)) (moving_joint : Int) :
    Option (ObjectHierarchical α) :=
  if moving_joint ≠ -1 then
    match atInt ctrl_pnts moving_joint with
    | some p =>
      if p.coords ≠ p.initial then
        selected.transform p.indices p.anchor (pivotMatrix sqrt p.initial p.coords p.anchor)
      else some selected
    | none => none
  else some selected

/-- The numbers the FK step takes the square root of, for the control point `p`: the
squared lengths of the two vectors it normalises, those of the two unit vectors, the
product under `std::sqrt`, and the squared length of the quaternion. -/
def fkRadicands (sqrt : α → α) (p : ControlPoint α) : List α :=
  [(p.initial.sub p.anchor).dot (p.initial.sub p.anchor),
   (p.coords.sub p.anchor).dot (p.coords.sub p.anchor),
   ((p.initial.sub p.anchor).normalize sqrt).dot ((p.initial.sub p.anchor).normalize sqrt),
   ((p.coords.sub p.anchor).normalize sqrt).dot ((p.coords.sub p.anchor).normalize sqrt),
   (((p.initial.sub p.anchor).normalize sqrt).length sqrt
      * ((p.initial.sub p.anchor).normalize sqrt).length sqrt)
    * (((p.coords.sub p.anchor).normalize sqrt).length sqrt
      * ((p.coords.sub p.anchor).normalize sqrt).length sqrt),
   (arcQuat sqrt ((p.initial.sub p.anchor).normalize sqrt)
      ((p.coords.sub p.anchor).normalize sqrt)).dot
    (arcQuat sqrt ((p.initial.sub p.anchor).normalize sqrt)
      ((p.coords.sub p.anchor).normalize sqrt))]

/-- The function `sqrt` is exact at `x`: its value is the non-negative root of `x`. -/
def ExactSqrt (sqrt : α → α) (x : α) : Prop := 0 ≤ sqrt x ∧ sqrt x * sqrt x = x

instance (sqrt : α → α) (x : α) :
    Decidable (ExactSqrt sqrt x) :=
  inferInstanceAs (Decidable (0 ≤ sqrt x ∧ sqrt x * sqrt x = x))

/-- The two directions are opposite: `d2` is a negative multiple of `d1`. -/
def Vec3.opposite (d1 d2 : Vec3 α) : Prop := ∃ t : α, 0 < t ∧ d2 = d1.times (-t)

end Kinematics

/-- A square root on the rationals that is exact on the squares of the candidates
`roots`: the first candidate whose square is `x`, and `0` when there is none. -/
def sqrtIn (roots : List ℚ) (x : ℚ) : ℚ := (roots.find? (fun r => r * r = x)).getD 0

/-- A point with rational coordinates. -/
def qpt (x y z : ℚ) : Vec3 ℚ := ⟨x, y, z⟩

/-- The last link of the arm: anchored at `(4, 0, 0)`, its end point at `(6, 0, 0)`. -/
def armTip : Node ℚ := .mk ⟨[], Mat4.identity⟩ [] (qpt 4 0 0) (qpt 4 0 0) [qpt 6 0 0] [qpt 6 0 0]

/-- The middle link of the arm, anchored at `(2, 0, 0)`. -/
def armMid : Node ℚ :=
  .mk ⟨[], Mat4.identity⟩ [armTip] (qpt 2 0 0) (qpt 2 0 0) [qpt 4 0 0] [qpt 4 0 0]

/-- An arm of three links of length 2 laid along the `x` axis from the origin. -/
def arm : Node ℚ :=
  .mk ⟨[], Mat4.identity⟩ [armMid] (qpt 0 0 0) (qpt 0 0 0) [qpt 2 0 0] [qpt 2 0 0]

/-- The arm as an object, with the policies of the first scene. -/
def armObject : ObjectHierarchical ℚ := ⟨arm, "left", "inter", "right"⟩

/-! ## The inverse kinematics loop (the branch `kinematic == 1` of `displayElements`) -/

/-- How a loop of the model ends: with a result, in undefined behaviour (an access out
of bounds, a counter leaving the range of `int`), or with its fuel used up before the
loop has ended. -/
inductive Outcome (σ : Type) where
  | done (s : σ) : Outcome σ
  | undefined : Outcome σ
  | outOfFuel : Outcome σ
deriving DecidableEq

/-- The result of a loop that has ended. -/
def Outcome.result? {σ : Type} : Outcome σ → Option σ
  | .done s => some s
  | .undefined => none
  | .outOfFuel => none

/-- The variables of the IK loop: the object, and the locals `current_ctrl`, `ik_struc`,
`has_moved` and `iterations`. -/
structure IkState (α : Type) where
  selected : ObjectHierarchical α
  current_ctrl : List (ControlPoint α)
  ik_struc : List (ControlPoint α)
  has_moved : Bool
  iterations : Nat

section InverseKinematics

variable {α : Type} [LinearOrderedField α]

/-- The body of the `for` loop for the link `i`: the pivot matrix that turns the
direction from the anchor of the link to the effector onto the direction to `target` is
applied at the path of the link, the control points and the links are fetched again,
`has_moved` is set when the effector has moved by `0.01` or more, and `iterations` is
incremented (`none` when it would leave the range of `int`). -/
def ikLink (sqrt : α → α) (num_ik moving_joint : Int) (target : Vec3 α) (i : Nat)
    (s : IkState α) : Option (IkState α) :=
  match atInt s.current_ctrl moving_joint with
  | none => none
  | some reach =>
    match s.ik_struc[i]? with
    | none => none
    | some link =>
      match s.selected.transform link.indices link.anchor
          (pivotMatrix sqrt reach.coords target link.anchor) with
      | none => none
      | some selected' =>
        match atInt selected'.getControlPoints moving_joint with
        | none => none
        | some reach' =>
          match selected'.getOrderedControlPoints num_ik reach' with
          | none => none
          | some ik_struc' =>
            if s.iterations + 1 < 2 ^ 31 then
              some ⟨selected', selected'.getControlPoints, ik_struc',
                if 1 / 100 ≤ Vec3.distance sqrt reach.coords reach'.coords then true
                else s.has_moved,
                s.iterations + 1⟩
            else none

/-- The loop `for (int i = 0; i < ik_struc.size(); i++)` from the index `i` on. -/
def ikFor (sqrt : α → α) (num_ik moving_joint : Int) (target : Vec3 α) :
    Nat → Nat → IkState α → Outcome (IkState α)
  | 0, _, _ => .outOfFuel
  | fuel + 1, i, s =>
    if i < s.ik_struc.length then
      match ikLink sqrt num_ik moving_joint target i s with
      | some s' => ikFor sqrt num_ik moving_joint target fuel (i + 1) s'
      | none => .undefined
    else .done s

/-- The loop `while (has_moved)`, with the test `iterations >= pow(num_ik, 3)` that
breaks out of it after a pass. The number `passes` counts the passes made; it is not a
variable of the program. -/
def ikWhile (sqrt : α → α) (num_ik moving_joint : Int) (target : Vec3 α) (forFuel : Nat) :
    Nat → Nat → IkState α → Outcome (IkState α × Nat)
  | 0, _, _ => .outOfFuel
  | fuel + 1, passes, s =>
    if s.has_moved then
      match ikFor sqrt num_ik moving_joint target forFuel 0 { s with has_moved := false } with
      | .done s' =>
        if num_ik ^ 3 ≤ (s'.iterations : Int) then .done (s', passes + 1)
        else ikWhile sqrt num_ik moving_joint target forFuel fuel (passes + 1) s'
      | .undefined => .undefined
      | .outOfFuel => .outOfFuel
    else .done (s, passes)

/-- The IK solve for the control point `p = ctrl_pnts[moving_joint]`, lines 123 to 193 of
`main.cpp`: the state when the loop has ended and the number of passes it has made. -/
def ikSolve (sqrt : α → α) (selected : ObjectHierarchical α) (p : ControlPoint α)
    (moving_joint ik_level : Int) (fuel : Nat) : Outcome (IkState α × Nat) :=
  match atInt selected.getControlPoints moving_joint with
  | none => .undefined
  | some reach =>
    match selected.getOrderedControlPoints (min ((p.indices.length : Int) + 1) ik_level)
        reach with
    | none => .undefined
    | some ik_struc =>
      ikWhile sqrt (min ((p.indices.length : Int) + 1) ik_level) moving_joint p.coords fuel
        fuel 0 ⟨selected, selected.getControlPoints, ik_struc, true, 0⟩

/-- The branch `kinematic == 1` of `displayElements`: the solve is run when a joint is
selected and its control point has `coords != initial`. -/
def ikStep (sqrt : α → α) (selected : ObjectHierarchical α)
    (ctrl_pnts : List (ControlPoint α)) (moving_joint ik_level : Int) (fuel : Nat) :
    Outcome (ObjectHierarchical α) :=
  if moving_joint ≠ -1 then
    match atInt ctrl_pnts moving_joint with
    | some p =>
      if p.coords ≠ p.initial then
        match ikSolve sqrt selected p moving_joint ik_level fuel with
        | .done r => .done r.1.selected
        | .undefined => .undefined
        | .outOfFuel => .outOfFuel
      else .done selected
    | none => .undefined
  else .done selected

/-- The distance from the effector (the control point `moving_joint` of the tree) to the
target, for a state of the IK loop. -/
def IkState.reach (sqrt : α → α) (moving_joint : Int) (target : Vec3 α) (s : IkState α) :
    Option α :=
  (atInt s.selected.getControlPoints moving_joint).map
    (fun c => Vec3.distance sqrt c.coords target)

end InverseKinematics

/-- The collinear stall: the effector of the arm, at `(6, 0, 0)`, is asked to reach
`(5, 0, 0)`, on the axis of the arm and within its extended length. -/
def armStall : ControlPoint ℚ := ⟨qpt 5 0 0, qpt 6 0 0, qpt 4 0 0, [0, 0]⟩

/-- The state of the IK loop is consistent for the path `path` of the effector: the tree
is well formed, `current_ctrl` holds its control points, the entry `moving_joint` of
these has the path `path`, and `ik_struc` holds the links fetched for it. -/
def IkState.consistent {α : Type} [LinearOrderedField α] (num_ik moving_joint : Int) (path : List Nat)
    (s : IkState α) : Prop :=
  s.selected.root.wellFormed = true ∧ s.current_ctrl = s.selected.getControlPoints ∧
    ∃ reach, atInt s.current_ctrl moving_joint = some reach ∧ reach.indices = path ∧
      s.selected.getOrderedControlPoints num_ik reach = some s.ik_struc

/-! ## The remaining methods of `ObjectHierarchical` and the mouse handler -/

section Delegation

variable {α : Type} [LinearOrderedField α]

namespace ObjectHierarchical

/-- The function `ObjectHierarchical::translate`: its body is commented out, so that the
call does nothing. -/
def translate (o : ObjectHierarchical α) (_x _y _z : α) : ObjectHierarchical α := o

/-- The function `ObjectHierarchical::scale`, which calls `scale` on the root. -/
def scale (o : ObjectHierarchical α) (x y z : α) : Option (ObjectHierarchical α) :=
  match o.root.scale x y z with
  | some root' => some { o with root := root' }
  | none => none

/-- The function `ObjectHierarchical::transform(glm::vec3 anchor, glm::mat4 matrix)`. -/
def transformAnchor (o : ObjectHierarchical α) (anchor : Vec3 α) (matrix : Mat4 α) :
    Option (ObjectHierarchical α) :=
  match o.root.transformAnchor anchor matrix with
  | some root' => some { o with root := root' }
  | none => none

/-- The function `ObjectHierarchical::getBoundingBox`. -/
def getBoundingBox (o : ObjectHierarchical α) : BoundingBox α := o.root.getBoundingBox

end ObjectHierarchical

/-- The loop of `handleMouseEvents` over the control points, on the list of their screen
distances to the cursor from the index `i` on:
`if (dist < min_dist and dist < 10) { moving_joint = i; min_dist = dist; }`. -/
def pickJoint : List α → Nat → Int → α → Int
  | [], _, moving_joint, _ => moving_joint
  | dist :: rest, i, moving_joint, min_dist =>
    if dist < min_dist ∧ dist < 10 then pickJoint rest (i + 1) (i : Int) dist
    else pickJoint rest (i + 1) moving_joint min_dist

/-- The function `handleMouseEvents`, on the variables `moving_joint` and `ctrl_pnts`.
The state of the left button is `button` (`GLFW_RELEASE` is 0, `GLFW_PRESS` is 1); the
projection of a point to the screen followed by the distance to the cursor is the
parameter `screenDist`, and the point `click` the cursor unprojects to, which depends on
the selected control point, is the parameter `click`. -/
def handleMouseEvents (button : Int) (screenDist : ControlPoint α → α)
    (click : ControlPoint α → Vec3 α) (moving_joint : Int)
    (ctrl_pnts : List (ControlPoint α)) : Option (Int × List (ControlPoint α)) :=
  if button = 0 then some (-1, ctrl_pnts)
  else if button = 1 then
    if moving_joint = -1 then
      some (pickJoint (ctrl_pnts.map screenDist) 0 moving_joint 10000, ctrl_pnts)
    else
      match atInt ctrl_pnts moving_joint with
      | some p => some (moving_joint, dragTo ctrl_pnts moving_joint.toNat (click p))
      | none => none
  else some (moving_joint, ctrl_pnts)

end Delegation

/-- A parent whose only child reaches further along `x` than the parent does. -/
def rawPair : Node ℚ := Node.new (boxVertices 0) [Node.new (boxVertices 1) []]

/-- Three control points for the selection, whose `x` coordinate stands for their screen
distance to the cursor: 12, 4 and 4. -/
def onScreen : List (ControlPoint ℚ) :=
  [⟨qpt 12 0 0, qpt 12 0 0, qpt 0 0 0, []⟩, ⟨qpt 4 0 0, qpt 4 0 0, qpt 0 0 0, [0]⟩,
    ⟨qpt 4 0 0, qpt 4 0 0, qpt 0 0 0, [1]⟩]

/-- The screen distance of the example of the selection. -/
def xDist (p : ControlPoint ℚ) : ℚ := p.coords.x

/-! ## Loading the hierarchy (`ObjectHierarchical::loadNode`) -/

/-- A node as `loadNode` builds it, with the arguments of the call that built it: the
entry `currentInd` of the arrays, the mesh `node_indexes[currentInd]` its vertices come
from, and the nodes built for its children. (The constructor of `Node` does not store
the id it is given.) -/
inductive Loaded where
  | mk (currentInd : Int) (mesh : Nat) (children : List Loaded) : Loaded

/-- How a call of `loadNode` ends: with a node, in the abort of the assertion, in
undefined behaviour (an access out of bounds), or with the fuel of the model used up. -/
inductive Load (σ : Type) where
  | built (s : σ) : Load σ
  | aborted : Load σ
  | undefined : Load σ
  | outOfFuel : Load σ

namespace Loaded

/-- The entry of the arrays the node was built for. -/
def currentInd : Loaded → Int
  | mk c _ _ => c

/-- The index of the mesh of the node. -/
def mesh : Loaded → Nat
  | mk _ m _ => m

/-- The children of the node. -/
def children : Loaded → List Loaded
  | mk _ _ cs => cs

end Loaded

mutual

/-- The node and all the nodes below it, one for each call of `loadNode`, in the order
of the calls. -/
def Loaded.nodes : Loaded → List Loaded
  | .mk c m cs => .mk c m cs :: nodesOfChildren cs

/-- The nodes of a list of children and all the nodes below them. -/
def nodesOfChildren : List Loaded → List Loaded
  | [] => []
  | child :: rest => child.nodes ++ nodesOfChildren rest

end

/-- The entries the nodes of the tree were built for, one for each call. -/
def Loaded.entries (t : Loaded) : List Int := t.nodes.map Loaded.currentInd

/-- The loop `for (int i = 0; i < parents.size(); i++) if (parents[i] == currentInd)
children.push_back(loadNode(scene, i, node_indexes, parents));` over the indices that
remain, `load` being the recursive call. -/
def loadChildren (load : Int → Load Loaded) (parents : List Int) (currentInd : Int) :
    List Nat → Load (List Loaded)
  | [] => .built []
  | i :: rest =>
    if parents[i]? = some currentInd then
      match load (i : Int) with
      | .built child =>
        match loadChildren load parents currentInd rest with
        | .built children => .built (child :: children)
        | .aborted => .aborted
        | .undefined => .undefined
        | .outOfFuel => .outOfFuel
      | .aborted => .aborted
      | .undefined => .undefined
      | .outOfFuel => .outOfFuel
    else loadChildren load parents currentInd rest

/-- The function `ObjectHierarchical::loadNode`, with fuel for the depth of the recursion:
the assertion on the sizes of the two arrays, the loop that loads the children, then the
mesh `scene->mMeshes[node_indexes[currentInd]]`, which is out of bounds when `currentInd`
is not an index of `node_indexes` or the entry is not one of the `numMeshes` meshes of
the scene. -/
def loadNode (numMeshes : Nat) (node_indexes parents : List Int) : Nat → Int → Load Loaded
  | 0, _ => .outOfFuel
  | fuel + 1, currentInd =>
    if node_indexes.length ≠ parents.length then .aborted
    else
      match loadChildren (loadNode numMeshes node_indexes parents fuel) parents currentInd
          (List.range parents.length) with
      | .built children =>
        match atInt node_indexes currentInd with
        | some mesh =>
          if 0 ≤ mesh ∧ mesh < (numMeshes : Int) then
            .built (.mk currentInd mesh.toNat children)
          else .undefined
        | none => .undefined
      | .aborted => .aborted
      | .undefined => .undefined
      | .outOfFuel => .outOfFuel

/-- The entry `i` has the entry `c` as its parent: `parents[i] == c`. -/
def childOf (parents : List Int) (c i : Nat) : Prop := parents[i]? = some (c : Int)

/-- The entry `i` is reachable from the entry 0 through the parent links. -/
def Reachable (parents : List Int) (i : Nat) : Prop :=
  Relation.ReflTransGen (childOf parents) 0 i

/-- The entries `i` with `parents[i] == c`, in increasing order of `i`. -/
def childEntries (parents : List Int) (c : Int) : List Nat :=
  (List.range parents.length).filter (fun i => parents[i]? = some c)

/-- What the call of `loadNode` for the entry `c` has built: a node for `c`; at every node
of the tree, for an entry `k`, the children are the nodes for the entries `i` with
`parents[i] == k`, in increasing order of `i`, and each of them is for a greater entry;
the entries of the tree are the entries reachable from `c`, each one once. -/
def Loaded.builtFor (parents : List Int) (c : Nat) (t : Loaded) : Prop :=
  t.currentInd = (c : Int) ∧
  (∀ m ∈ t.nodes, ∃ k : Nat, m.currentInd = (k : Int) ∧
    m.children.map Loaded.currentInd = (childEntries parents k).map Int.ofNat) ∧
  (∀ m ∈ t.nodes, ∀ ch ∈ m.children, m.currentInd < ch.currentInd) ∧
  (∀ e ∈ t.entries, ∃ j : Nat, e = (j : Int) ∧ c ≤ j) ∧
  (∀ j : Nat, (j : Int) ∈ t.entries ↔ Relation.ReflTransGen (childOf parents) c j) ∧
  t.entries.Nodup

/-- The arrays of the two objects of `initElements`. -/
def indOnyx : List Int := [0, 1, 2, 3, 4]

/-- The parents of the first object: a chain of five parts. -/
def parOnyx : List Int := [-1, 0, 1, 2, 3]

/-- The meshes of the second object. -/
def indJelly : List Int := [12, 11, 10, 9, 8, 7, 6, 5, 4, 3, 2, 1, 0]

/-- The parents of the second object: a body with four arms of three parts. -/
def parJelly : List Int := [-1, 0, 1, 2, 0, 4, 5, 0, 7, 8, 0, 10, 11]

section LoadedNodes

variable {α : Type} [LinearOrderedField α]

mutual

/-- The object `Node(currentInd, vertices, indices, textures, children)` that `loadNode`
returns, for the vertex positions `meshes` of the meshes of the scene. -/
def Loaded.toNode (meshes : List (List (Vec3 α))) : Loaded → Node α
  | .mk _ m cs => Node.new (meshes.getD m []) (toNodes meshes cs)

/-- The objects `Node` of a list of children. -/
def toNodes (meshes : List (List (Vec3 α))) : List Loaded → List (Node α)
  | [] => []
  | child :: rest => child.toNode meshes :: toNodes meshes rest

end

end LoadedNodes

/-! ## The shape of a tree and the calls that keep it -/

/-- The shape of a tree of nodes: the number of control points of the node and the shapes
of its children. -/
inductive Shape where
  | mk (controls : Nat) (children : List Shape) : Shape

section Shapes

variable {α : Type}

mutual

/-- The shape of a node. -/
def Node.shape : Node α → Shape
  | .mk _ cs _ _ c _ => .mk c.length (shapeOfChildren cs)

/-- The shapes of a list of children. -/
def shapeOfChildren : List (Node α) → List Shape
  | [] => []
  | child :: rest => child.shape :: shapeOfChildren rest

end

mutual

/-- The paths of the control points of a tree of this shape, in the order of
`getControlPoints`: the empty path for each control point of the node, then the paths of
each child with the index of the child pushed on them. -/
def Shape.paths : Shape → List (List Nat)
  | .mk k cs => List.replicate k [] ++ childPaths 0 cs

/-- The paths of the control points of the children, from the child of index `i` on. -/
def childPaths (i : Nat) : List Shape → List (List Nat)
  | [] => []
  | child :: rest => child.paths.map (fun p => p ++ [i]) ++ childPaths (i + 1) rest

end

end Shapes

/-- A call that changes the state of a tree: one of the transform operations, or
`resetTransforms`. -/
inductive NodeCall (α : Type) where
  | op (call : NodeOp α)
  | reset

section Runs

variable {α : Type} [CommRing α]

/-- A sequence of calls of transform operations and of `resetTransforms` made one after
the other on the node `n`. -/
def Node.run (rot : Rotation α) : Node α → List (NodeCall α) → Option (Node α)
  | n, [] => some n
  | n, .op call :: rest =>
    match n.call rot call with
    | some n' => n'.run rot rest
    | none => none
  | n, .reset :: rest => n.resetTransforms.run rot rest

end Runs
/-! ## The joints: the control points of a node are the anchors of its children -/

section Joints

variable {α : Type}

mutual

/-- The joints of the tree are consistent: at the node and at every node below it, when
the node has children its control points are the anchors of its children, in order. -/
def Node.jointed : Node α → Prop
  | .mk _ cs _ _ c _ => (cs ≠ [] → c = cs.map Node.anchor) ∧ jointedChildren cs

/-- The predicate `Node.jointed` on every child of a list. -/
def jointedChildren : List (Node α) → Prop
  | [] => True
  | child :: rest => child.jointed ∧ jointedChildren rest

end

end Joints
/-! ## Anchors and control points attached to the geometry -/

section Attachment

variable {α : Type} [CommRing α]

/-- The matrix is affine: its last row is `0 0 0 1`. -/
def Mat4.affine (M : Mat4 α) : Prop := M.r3 = ⟨0, 0, 0, 1⟩

/-- The call is a `translate`, a `scale`, or a `transform` (any overload) with an affine
matrix. -/
def NodeOp.affine : NodeOp α → Prop
  | .scale _ _ _ => True
  | .translate _ _ _ => True
  | .transform M => M.affine
  | .transformInds _ M => M.affine
  | .transformAnchor _ M => M.affine
  | .transformIndsAnchor _ _ M => M.affine
  | _ => False

/-- The node `m'` is the node `m` moved by the matrix `F`: the matrix is multiplied onto
the geometry transform and applied to the anchor and to every control point. -/
def Node.movedBy (F : Mat4 α) (m m' : Node α) : Prop :=
  m'.geometry.transforms = F.mul m.geometry.transforms ∧ m'.anchor = F.applyPoint m.anchor ∧
    m'.control = m.control.map F.applyPoint

end Attachment

/-- A matrix that is not affine: the identity with 2 in the last place. -/
def doubleW : Mat4 ℤ := ⟨⟨1, 0, 0, 0⟩, ⟨0, 1, 0, 0⟩, ⟨0, 0, 1, 0⟩, ⟨0, 0, 0, 2⟩⟩

/-- The state of the IK loop on the arm before the first link application, with the
effector (the control point 2, at the end of the last link) selected and `ik_level = 3`:
`ik_struc` holds the three links, from the link of the effector up to the root. -/
def armStart : IkState ℚ :=
  ⟨armObject, armObject.getControlPoints,
    [⟨qpt 6 0 0, qpt 6 0 0, qpt 4 0 0, [0, 0]⟩, ⟨qpt 4 0 0, qpt 4 0 0, qpt 2 0 0, [0]⟩,
      ⟨qpt 2 0 0, qpt 2 0 0, qpt 0 0 0, []⟩], true, 0⟩

end bgq_opengl

/-! ## Lemmas on lists and on the loop over the control points -/

namespace bgq_opengl

section Lemmas

variable {α : Type}

/-- Induction on a tree: a property holds of every node when it holds of a node as soon
as it holds of all its children. -/
theorem Node.induction {P : Node α → Prop}
    (step : ∀ g cs an ao c co, (∀ child ∈ cs, P child) → P (Node.mk g cs an ao c co))
    (n : Node α) : P n := by
  refine Node.rec (motive_1 := P) (motive_2 := fun cs => ∀ child ∈ cs, P child)
    (fun g cs an ao c co ih => step g cs an ao c co ih) ?_ ?_ n
  · intro child h
    cases h
  · intro head tail hh ht child h
    rcases List.mem_cons.mp h with rfl | h
    · exact hh
    · exact ht child h

theorem wellFormedChildren_iff (cs : List (Node α)) :
    wellFormedChildren cs = true ↔ ∀ child ∈ cs, child.wellFormed = true := by
  induction cs with
  | nil => simp [wellFormedChildren]
  | cons child rest ih => simp [wellFormedChildren, ih]

theorem Node.wellFormed_mk (g : Geometry α) (cs : List (Node α)) (an ao : Vec3 α)
    (c co : List (Vec3 α)) :
    (Node.mk g cs an ao c co).wellFormed = true ↔
      c.length = co.length ∧ ∀ child ∈ cs, child.wellFormed = true := by
  rw [Node.wellFormed, Bool.and_eq_true, beq_iff_eq, wellFormedChildren_iff]

theorem allSome_eq_some {β γ : Type} (f : β → Option γ) :
    ∀ (bs : List β) (cs : List γ), allSome f bs = some cs →
      cs.length = bs.length ∧
        ∀ (i : Nat) (b : β), bs[i]? = some b → ∃ c, cs[i]? = some c ∧ f b = some c := by
  intro bs
  induction bs with
  | nil =>
    intro cs h
    simp only [allSome, Option.some.injEq] at h
    subst h
    simp
  | cons b bs ih =>
    intro cs h
    simp only [allSome] at h
    cases hb : f b with
    | none => simp [hb] at h
    | some c =>
      cases hbs : allSome f bs with
      | none => simp [hb, hbs] at h
      | some cs0 =>
        simp only [hb, hbs, Option.some.injEq] at h
        subst h
        obtain ⟨hlen, hget⟩ := ih cs0 hbs
        refine ⟨by simp [hlen], ?_⟩
        intro i b0 hi
        cases i with
        | zero =>
          simp only [List.getElem?_cons_zero, Option.some.injEq] at hi
          subst hi
          exact ⟨c, by simp, hb⟩
        | succ i =>
          simp only [List.getElem?_cons_succ] at hi
          obtain ⟨c0, hc0, hf⟩ := hget i b0 hi
          exact ⟨c0, by simpa using hc0, hf⟩

theorem allSome_isSome {β γ : Type} (f : β → Option γ) :
    ∀ (bs : List β), (∀ b ∈ bs, ∃ c, f b = some c) → ∃ cs, allSome f bs = some cs := by
  intro bs
  induction bs with
  | nil => intro _; exact ⟨[], rfl⟩
  | cons b bs ih =>
    intro h
    obtain ⟨c, hc⟩ := h b (by simp)
    obtain ⟨cs, hcs⟩ := ih (fun b0 hb0 => h b0 (by simp [hb0]))
    exact ⟨c :: cs, by simp [allSome, hc, hcs]⟩

theorem allSome_congr {β γ : Type} (f g : β → Option γ) :
    ∀ (bs : List β), (∀ b ∈ bs, f b = g b) → allSome f bs = allSome g bs := by
  intro bs
  induction bs with
  | nil => intro _; rfl
  | cons b bs ih =>
    intro h
    simp only [allSome, h b (by simp), ih (fun b0 hb0 => h b0 (by simp [hb0]))]

theorem updateControls_eq_some (f : Vec3 α → Vec3 α) :
    ∀ (c co c' co' : List (Vec3 α)), updateControls f c co = some (c', co') →
      c' = c.map f ∧ co' = (co.take c.length).map f ++ co.drop c.length := by
  intro c
  induction c with
  | nil =>
    intro co c' co' h
    simp only [updateControls, Option.some.injEq, Prod.mk.injEq] at h
    obtain ⟨rfl, rfl⟩ := h
    simp
  | cons v c ih =>
    intro co c' co' h
    cases co with
    | nil => simp [updateControls] at h
    | cons o co =>
      simp only [updateControls] at h
      cases hr : updateControls f c co with
      | none => simp [hr] at h
      | some r =>
        obtain ⟨r1, r2⟩ := r
        simp only [hr, Option.some.injEq, Prod.mk.injEq] at h
        obtain ⟨rfl, rfl⟩ := h
        obtain ⟨h1, h2⟩ := ih co r1 r2 hr
        subst h1
        simp [h2]

theorem updateControls_same_length (f : Vec3 α → Vec3 α) (c co c' co' : List (Vec3 α))
    (hlen : c.length = co.length) (h : updateControls f c co = some (c', co')) :
    c' = c.map f ∧ co' = co.map f := by
  obtain ⟨h1, h2⟩ := updateControls_eq_some f c co c' co' h
  refine ⟨h1, ?_⟩
  rw [h2, hlen]
  simp

theorem updateControls_isSome (f : Vec3 α → Vec3 α) :
    ∀ (c co : List (Vec3 α)), c.length ≤ co.length →
      ∃ r, updateControls f c co = some r := by
  intro c
  induction c with
  | nil => intro co _; exact ⟨([], co), rfl⟩
  | cons v c ih =>
    intro co h
    cases co with
    | nil => simp at h
    | cons o co =>
      obtain ⟨r, hr⟩ := ih co (by simpa using h)
      obtain ⟨r1, r2⟩ := r
      exact ⟨(f v :: r1, f o :: r2), by simp [updateControls, hr]⟩

end Lemmas

end bgq_opengl

/-! ## The traversals -/

namespace bgq_opengl

section Traversals

variable {α : Type}

theorem visitChildren_eq (u : NodeUpdate α) (cs : List (Node α)) :
    visitChildren u cs = allSome (Node.visit u) cs := by
  induction cs with
  | nil => simp [visitChildren, allSome]
  | cons child rest ih =>
    simp only [visitChildren, allSome, ih]
    cases Node.visit u child with
    | none => rfl
    | some c => cases allSome (Node.visit u) rest <;> rfl

theorem Node.visit_mk (u : NodeUpdate α) (g : Geometry α) (cs : List (Node α))
    (an ao : Vec3 α) (c co : List (Vec3 α)) (n' : Node α)
    (h : (Node.mk g cs an ao c co).visit u = some n') :
    ∃ cs' c' co', allSome (Node.visit u) cs = some cs' ∧
      updateControls u.onPoint c co = some (c', co') ∧
      n' = Node.mk (u.onGeometry g) cs' (u.onAnchor an) (u.onAnchorOriginal an ao) c' co' := by
  rw [Node.visit, visitChildren_eq] at h
  cases hcs : allSome (Node.visit u) cs with
  | none => simp [hcs] at h
  | some cs' =>
    cases hr : updateControls u.onPoint c co with
    | none => simp [hcs, hr] at h
    | some r =>
      obtain ⟨c', co'⟩ := r
      simp only [hcs, hr, Option.some.injEq] at h
      exact ⟨cs', c', co', rfl, rfl, h.symm⟩

theorem Node.visit_walk (u : NodeUpdate α) (q : List Nat) :
    ∀ (n n' m : Node α), n.visit u = some n' → n.walk q = some m →
      ∃ m', n'.walk q = some m' ∧ m.visit u = some m' := by
  induction q with
  | nil =>
    intro n n' m h hw
    simp only [Node.walk, Option.some.injEq] at hw
    subst hw
    exact ⟨n', rfl, h⟩
  | cons ind rest ih =>
    intro n n' m h hw
    cases n with
    | mk g cs an ao c co =>
      obtain ⟨cs', c', co', hcs, _, rfl⟩ := Node.visit_mk u g cs an ao c co n' h
      simp only [Node.walk, Node.children] at hw ⊢
      cases hch : cs[ind]? with
      | none => simp [hch] at hw
      | some child =>
        simp only [hch] at hw
        obtain ⟨child', hch', hv⟩ := (allSome_eq_some _ cs cs' hcs).2 ind child hch
        simp only [hch']
        exact ih child child' m hv hw

theorem Node.visit_members (u : NodeUpdate α) (m m' : Node α) (h : m.visit u = some m') :
    m'.geometry = u.onGeometry m.geometry ∧ m'.anchor = u.onAnchor m.anchor ∧
      m'.anchor_original = u.onAnchorOriginal m.anchor m.anchor_original ∧
      m'.control = m.control.map u.onPoint ∧
      (m.control.length = m.control_original.length →
        m'.control_original = m.control_original.map u.onPoint) := by
  cases m with
  | mk g cs an ao c co =>
    obtain ⟨cs', c', co', _, hr, rfl⟩ := Node.visit_mk u g cs an ao c co m' h
    refine ⟨rfl, rfl, rfl, (updateControls_eq_some _ c co c' co' hr).1, ?_⟩
    intro hlen
    exact (updateControls_same_length _ c co c' co' hlen hr).2

theorem Node.visit_isSome (u : NodeUpdate α) (n : Node α) :
    n.wellFormed → ∃ n', n.visit u = some n' := by
  induction n using Node.induction with
  | step g cs an ao c co ih =>
    intro hwf
    rw [Node.wellFormed_mk] at hwf
    obtain ⟨cs', hcs⟩ := allSome_isSome (Node.visit u) cs (fun ch hch => ih ch hch (hwf.2 ch hch))
    obtain ⟨r, hr⟩ := updateControls_isSome u.onPoint c co (le_of_eq hwf.1)
    obtain ⟨c', co'⟩ := r
    exact ⟨_, by rw [Node.visit, visitChildren_eq, hcs, hr]⟩

theorem Node.wellFormed_walk (q : List Nat) :
    ∀ (n m : Node α), n.wellFormed → n.walk q = some m → m.wellFormed := by
  induction q with
  | nil =>
    intro n m hwf hw
    simp only [Node.walk, Option.some.injEq] at hw
    exact hw ▸ hwf
  | cons ind rest ih =>
    intro n m hwf hw
    cases n with
    | mk g cs an ao c co =>
      rw [Node.wellFormed_mk] at hwf
      simp only [Node.walk, Node.children] at hw
      cases hch : cs[ind]? with
      | none => simp [hch] at hw
      | some child =>
        simp only [hch] at hw
        exact ih child m (hwf.2 child (List.getElem?_mem hch)) hw

theorem Node.wellFormed_length (m : Node α) (h : m.wellFormed) :
    m.control.length = m.control_original.length := by
  cases m with
  | mk g cs an ao c co => exact ((Node.wellFormed_mk g cs an ao c co).mp h).1

theorem Node.applyAt_frame (op : Node α → Option (Node α)) (p : List Nat) :
    ∀ (n n' : Node α) (q : List Nat) (m : Node α), n.applyAt op p = some n' →
      n.walk q = some m → ¬ p <+: q → ∃ m', n'.walk q = some m' ∧ m.sameMembers m' := by
  induction p with
  | nil =>
    intro n n' q m _ _ hq
    exact absurd (List.nil_prefix) hq
  | cons ind rest ih =>
    intro n n' q m h hw hq
    cases n with
    | mk g cs an ao c co =>
      simp only [Node.applyAt] at h
      cases hch : cs[ind]? with
      | none => simp [hch] at h
      | some child =>
        cases hr : Node.applyAt op rest child with
        | none => simp [hch, hr] at h
        | some child' =>
          simp only [hch, hr, Option.some.injEq] at h
          subst h
          cases q with
          | nil =>
            simp only [Node.walk, Option.some.injEq] at hw
            subst hw
            exact ⟨_, rfl, rfl, rfl, rfl, rfl, rfl⟩
          | cons j q' =>
            simp only [Node.walk, Node.children] at hw ⊢
            by_cases hj : ind = j
            · subst hj
              simp only [hch] at hw
              have hlt : ind < cs.length := (List.getElem?_eq_some.mp hch).1
              have hq' : ¬ rest <+: q' := fun hpre => hq (by simpa using hpre)
              obtain ⟨m', hm', hs⟩ := ih child child' q' m hr hw hq'
              refine ⟨m', ?_, hs⟩
              simp only [List.getElem?_set_self hlt]
              exact hm'
            · rw [List.getElem?_set_ne hj]
              exact ⟨m, hw, rfl, rfl, rfl, rfl, rfl⟩

theorem Node.applyAt_target (op : Node α → Option (Node α)) (p : List Nat) :
    ∀ (n n' m : Node α), n.applyAt op p = some n' → n.walk p = some m →
      ∃ m', n'.walk p = some m' ∧ op m = some m' := by
  induction p with
  | nil =>
    intro n n' m h hw
    simp only [Node.walk, Option.some.injEq] at hw
    subst hw
    exact ⟨n', rfl, h⟩
  | cons ind rest ih =>
    intro n n' m h hw
    cases n with
    | mk g cs an ao c co =>
      simp only [Node.applyAt] at h
      simp only [Node.walk, Node.children] at hw
      cases hch : cs[ind]? with
      | none => simp [hch] at h
      | some child =>
        cases hr : Node.applyAt op rest child with
        | none => simp [hch, hr] at h
        | some child' =>
          simp only [hch, hr, Option.some.injEq] at h
          subst h
          simp only [hch] at hw
          have hlt : ind < cs.length := (List.getElem?_eq_some.mp hch).1
          obtain ⟨m', hm', hop⟩ := ih child child' m hr hw
          refine ⟨m', ?_, hop⟩
          simp only [Node.walk, Node.children, List.getElem?_set_self hlt]
          exact hm'

theorem Node.applyAt_isSome (op : Node α → Option (Node α)) (p : List Nat) :
    ∀ (n m m' : Node α), n.walk p = some m → op m = some m' →
      ∃ n', n.applyAt op p = some n' := by
  induction p with
  | nil =>
    intro n m m' hw hop
    simp only [Node.walk, Option.some.injEq] at hw
    subst hw
    exact ⟨m', hop⟩
  | cons ind rest ih =>
    intro n m m' hw hop
    cases n with
    | mk g cs an ao c co =>
      simp only [Node.walk, Node.children] at hw
      cases hch : cs[ind]? with
      | none => simp [hch] at hw
      | some child =>
        simp only [hch] at hw
        obtain ⟨child', hc⟩ := ih child m m' hw hop
        exact ⟨Node.mk g (cs.set ind child') an ao c co, by simp only [Node.applyAt, hch, hc]⟩

theorem Node.unchangedOutside_of_applyAt (op : Node α → Option (Node α)) (p : List Nat)
    (root root' : Node α) (h : root.applyAt op p.reverse = some root') :
    root.unchangedOutside root' p := by
  intro q m hq hnot
  exact Node.applyAt_frame op p.reverse root root' q.reverse m h hq
    (fun hpre => hnot (List.reverse_prefix.mp hpre))

theorem Node.walk_append (l : List Nat) (ind : Nat) :
    ∀ n : Node α, n.walk (l ++ [ind]) = (n.walk l).bind (fun m => m.children[ind]?) := by
  induction l with
  | nil =>
    intro n
    simp only [List.nil_append, Node.walk, Option.some_bind]
    cases n.children[ind]? <;> rfl
  | cons j rest ih =>
    intro n
    simp only [List.cons_append, Node.walk]
    cases n.children[j]? with
    | none => rfl
    | some child => exact ih child

/-- The path without its first entry addresses the parent: the node addressed by
`ind :: inds` is the child of index `ind` of the node addressed by `inds`. -/
theorem Node.descend_cons (n : Node α) (ind : Nat) (inds : List Nat) :
    n.descend (ind :: inds) = (n.descend inds).bind (fun m => m.children[ind]?) := by
  rw [Node.descend, Node.descend, List.reverse_cons, Node.walk_append]

theorem Node.walk_of_children_eq (a b : Node α) (h : a.children = b.children) (ind : Nat)
    (rest : List Nat) : a.walk (ind :: rest) = b.walk (ind :: rest) := by
  simp only [Node.walk, h]

end Traversals

end bgq_opengl

/-! ## The operations as instances of the traversals -/

namespace bgq_opengl

section Instances

variable {α : Type} [CommRing α]

theorem transformAnchorChildren_eq (anchor : Vec3 α) (matrix : Mat4 α) (cs : List (Node α)) :
    transformAnchorChildren anchor matrix cs = allSome (Node.transformAnchor anchor matrix) cs := by
  induction cs with
  | nil => simp [transformAnchorChildren, allSome]
  | cons child rest ih =>
    simp only [transformAnchorChildren, allSome, ih]
    cases Node.transformAnchor anchor matrix child with
    | none => rfl
    | some c => cases allSome (Node.transformAnchor anchor matrix) rest <;> rfl

theorem rotateAnchorChildren_eq (rot : Rotation α) (anchor : Vec3 α) (x y z angle : α)
    (cs : List (Node α)) :
    rotateAnchorChildren rot anchor x y z angle cs
      = allSome (Node.rotateAnchor rot anchor x y z angle) cs := by
  induction cs with
  | nil => simp [rotateAnchorChildren, allSome]
  | cons child rest ih =>
    simp only [rotateAnchorChildren, allSome, ih]
    cases Node.rotateAnchor rot anchor x y z angle child with
    | none => rfl
    | some c => cases allSome (Node.rotateAnchor rot anchor x y z angle) rest <;> rfl

theorem scaleChildren_eq (x y z : α) (cs : List (Node α)) :
    scaleChildren x y z cs = allSome (Node.scale x y z) cs := by
  induction cs with
  | nil => simp [scaleChildren, allSome]
  | cons child rest ih =>
    simp only [scaleChildren, allSome, ih]
    cases Node.scale x y z child with
    | none => rfl
    | some c => cases allSome (Node.scale x y z) rest <;> rfl

theorem translateChildren_eq (x y z : α) (cs : List (Node α)) :
    translateChildren x y z cs = allSome (Node.translate x y z) cs := by
  induction cs with
  | nil => simp [translateChildren, allSome]
  | cons child rest ih =>
    simp only [translateChildren, allSome, ih]
    cases Node.translate x y z child with
    | none => rfl
    | some c => cases allSome (Node.translate x y z) rest <;> rfl

theorem Node.transformAnchor_eq_visit (anchor : Vec3 α) (matrix : Mat4 α) (n : Node α) :
    n.transformAnchor anchor matrix = n.visit (transformUpdate matrix) := by
  induction n using Node.induction with
  | step g cs an ao c co ih =>
    rw [Node.transformAnchor, Node.visit, transformAnchorChildren_eq, visitChildren_eq,
      allSome_congr _ _ cs ih]
    rfl

theorem Node.rotateAnchor_eq_visit (rot : Rotation α) (anchor : Vec3 α) (x y z angle : α)
    (n : Node α) :
    n.rotateAnchor rot anchor x y z angle = n.visit (rotateUpdate rot anchor x y z angle) := by
  induction n using Node.induction with
  | step g cs an ao c co ih =>
    rw [Node.rotateAnchor, Node.visit, rotateAnchorChildren_eq, visitChildren_eq,
      allSome_congr _ _ cs ih]
    rfl

theorem Node.scale_eq_visit (x y z : α) (n : Node α) :
    n.scale x y z = n.visit (scaleUpdate x y z) := by
  induction n using Node.induction with
  | step g cs an ao c co ih =>
    rw [Node.scale, Node.visit, scaleChildren_eq, visitChildren_eq, allSome_congr _ _ cs ih]
    rfl

theorem Node.translate_eq_visit (x y z : α) (n : Node α) :
    n.translate x y z = n.visit (translateUpdate x y z) := by
  induction n using Node.induction with
  | step g cs an ao c co ih =>
    rw [Node.translate, Node.visit, translateChildren_eq, visitChildren_eq,
      allSome_congr _ _ cs ih]
    rfl

theorem Node.transformHops_eq (anchor : Vec3 α) (matrix : Mat4 α) (p : List Nat) :
    ∀ n : Node α, n.transformHops anchor matrix p = n.applyAt (Node.transformHere anchor matrix) p := by
  induction p with
  | nil => intro n; rfl
  | cons ind rest ih =>
    intro n
    cases n with
    | mk g cs an ao c co =>
      simp only [Node.transformHops, Node.applyAt]
      cases cs[ind]? with
      | none => rfl
      | some child => simp only [ih child]

theorem Node.transformSelfHops_eq (matrix : Mat4 α) (p : List Nat) :
    ∀ n : Node α,
      n.transformSelfHops matrix p = n.applyAt (fun m => m.transformHere m.getAnchor matrix) p := by
  induction p with
  | nil => intro n; rfl
  | cons ind rest ih =>
    intro n
    cases n with
    | mk g cs an ao c co =>
      simp only [Node.transformSelfHops, Node.applyAt]
      cases cs[ind]? with
      | none => rfl
      | some child => simp only [ih child]

theorem Node.rotateHops_eq (rot : Rotation α) (anchor : Vec3 α) (x y z angle : α)
    (p : List Nat) :
    ∀ n : Node α, n.rotateHops rot anchor x y z angle p
      = n.applyAt (Node.rotateHere rot anchor x y z angle) p := by
  induction p with
  | nil => intro n; rfl
  | cons ind rest ih =>
    intro n
    cases n with
    | mk g cs an ao c co =>
      simp only [Node.rotateHops, Node.applyAt]
      cases cs[ind]? with
      | none => rfl
      | some child => simp only [ih child]

theorem Node.rotateSelfHops_eq (rot : Rotation α) (x y z angle : α) (p : List Nat) :
    ∀ n : Node α, n.rotateSelfHops rot x y z angle p
      = n.applyAt (fun m => m.rotateHere rot m.getAnchor x y z angle) p := by
  induction p with
  | nil => intro n; rfl
  | cons ind rest ih =>
    intro n
    cases n with
    | mk g cs an ao c co =>
      simp only [Node.rotateSelfHops, Node.applyAt]
      cases cs[ind]? with
      | none => rfl
      | some child => simp only [ih child]

/-- The members of a node after the unscoped `transform(anchor, matrix)`: the snapshot of
the anchor receives the matrix twice. -/
theorem Node.transformAnchor_members (anchor : Vec3 α) (M : Mat4 α) (n n' : Node α)
    (h : n.transformAnchor anchor M = some n') :
    n'.geometry = n.geometry.setTransformMat (M.mul n.geometry.getTransformMat) ∧
      n'.anchor = M.applyPoint n.anchor ∧
      n'.anchor_original = M.applyPoint (M.applyPoint n.anchor) ∧
      n'.control = n.control.map M.applyPoint ∧
      (n.control.length = n.control_original.length →
        n'.control_original = n.control_original.map M.applyPoint) := by
  rw [Node.transformAnchor_eq_visit] at h
  exact Node.visit_members (transformUpdate M) n n' h

/-- The members of a node after the unscoped `rotate(anchor, x, y, z, angle)`: the
geometry is rotated about `(x, y, z)`, the points about `(0, 0, 1)`. -/
theorem Node.rotateAnchor_members (rot : Rotation α) (anchor : Vec3 α) (x y z angle : α)
    (n n' : Node α) (h : n.rotateAnchor rot anchor x y z angle = some n') :
    n'.geometry = rotateGeometry rot anchor x y z angle n.geometry ∧
      n'.anchor = (rotatePointsMat rot anchor angle).applyPoint n.anchor ∧
      n'.anchor_original = (rotatePointsMat rot anchor angle).applyPoint
        ((rotatePointsMat rot anchor angle).applyPoint n.anchor) ∧
      n'.control = n.control.map (rotatePointsMat rot anchor angle).applyPoint ∧
      (n.control.length = n.control_original.length →
        n'.control_original
          = n.control_original.map (rotatePointsMat rot anchor angle).applyPoint) := by
  rw [Node.rotateAnchor_eq_visit] at h
  exact Node.visit_members (rotateUpdate rot anchor x y z angle) n n' h

/-- The body of the path-scoped transform succeeds as soon as the children are well
formed. -/
theorem Node.transformHere_isSome (anchor : Vec3 α) (matrix : Mat4 α) (m : Node α)
    (h : m.wellFormed) : ∃ m', m.transformHere anchor matrix = some m' := by
  cases m with
  | mk g cs an ao c co =>
    rw [Node.wellFormed_mk] at h
    obtain ⟨cs', hcs⟩ := allSome_isSome (Node.transformAnchor anchor matrix) cs (fun ch hch => by
      rw [Node.transformAnchor_eq_visit]
      exact Node.visit_isSome _ ch (h.2 ch hch))
    exact ⟨_, by rw [Node.transformHere, transformAnchorChildren_eq, hcs]⟩

theorem Node.rotateHere_isSome (rot : Rotation α) (anchor : Vec3 α) (x y z angle : α)
    (m : Node α) (h : m.wellFormed) : ∃ m', m.rotateHere rot anchor x y z angle = some m' := by
  cases m with
  | mk g cs an ao c co =>
    rw [Node.wellFormed_mk] at h
    obtain ⟨cs', hcs⟩ := allSome_isSome (Node.rotateAnchor rot anchor x y z angle) cs
      (fun ch hch => by
        rw [Node.rotateAnchor_eq_visit]
        exact Node.visit_isSome _ ch (h.2 ch hch))
    exact ⟨_, by rw [Node.rotateHere, rotateAnchorChildren_eq, hcs]⟩

end Instances

end bgq_opengl

/-! ## Control point extraction -/

namespace bgq_opengl

section ControlPoints

variable {α : Type}

theorem childControlPoints_mem (cs : List (Node α)) : ∀ (i : Nat) (p : ControlPoint α),
    p ∈ childControlPoints i cs →
    ∃ (j : Nat) (child : Node α) (q : ControlPoint α),
      cs[j]? = some child ∧ q ∈ child.getControlPoints ∧ p = q.pushIndex (i + j) := by
  induction cs with
  | nil => intro i p hp; simp [childControlPoints] at hp
  | cons child rest ih =>
    intro i p hp
    rw [childControlPoints] at hp
    rcases List.mem_append.mp hp with h | h
    · obtain ⟨q, hq, rfl⟩ := List.mem_map.mp h
      exact ⟨0, child, q, by simp, hq, by simp⟩
    · obtain ⟨j, c, q, hj, hq, rfl⟩ := ih (i + 1) p h
      refine ⟨j + 1, c, q, by simpa using hj, hq, ?_⟩
      congr 1
      omega

theorem Node.getControlPoints_mem (n : Node α) (p : ControlPoint α)
    (hp : p ∈ n.getControlPoints) :
    (p.indices = [] ∧ p.coords ∈ n.control ∧ p.initial = p.coords ∧ p.anchor = n.anchor) ∨
    ∃ (j : Nat) (child : Node α) (q : ControlPoint α),
      n.children[j]? = some child ∧ q ∈ child.getControlPoints ∧ p = q.pushIndex j := by
  cases n with
  | mk g cs an ao c co =>
    rw [Node.getControlPoints] at hp
    rcases List.mem_append.mp hp with h | h
    · left
      obtain ⟨v, hv, rfl⟩ := List.mem_map.mp h
      exact ⟨rfl, hv, rfl, rfl⟩
    · right
      obtain ⟨j, child, q, hj, hq, rfl⟩ := childControlPoints_mem cs 0 p h
      exact ⟨j, child, q, hj, hq, by simp⟩

theorem Node.getControlPoints_descend (k : Nat) : ∀ (n : Node α) (p : ControlPoint α),
    p.indices.length = k → p ∈ n.getControlPoints →
    ∃ m, n.descend p.indices = some m ∧ p.coords ∈ m.control ∧ p.anchor = m.anchor := by
  induction k with
  | zero =>
    intro n p hk hp
    rcases Node.getControlPoints_mem n p hp with ⟨h0, hc, _, ha⟩ | ⟨j, child, q, _, _, rfl⟩
    · exact ⟨n, by simp [Node.descend, h0, Node.walk], hc, ha⟩
    · simp [ControlPoint.pushIndex] at hk
  | succ k ih =>
    intro n p hk hp
    rcases Node.getControlPoints_mem n p hp with ⟨h0, hc, _, ha⟩ | ⟨j, child, q, hj, hq, rfl⟩
    · simp [h0] at hk
    · have hk2 : q.indices.length = k := by simpa [ControlPoint.pushIndex] using hk
      obtain ⟨m, hm, hc, ha⟩ := ih child q hk2 hq
      refine ⟨m, ?_, hc, ha⟩
      simp only [Node.descend, ControlPoint.pushIndex, List.reverse_append, List.reverse_cons,
        List.reverse_nil, List.nil_append, List.singleton_append, Node.walk, hj]
      exact hm

theorem Node.appendLink_of_lt (n : Node α) (k : Int) (ctrl : ControlPoint α)
    (ret : List (ControlPoint α)) (h : ret.length < (k % 2 ^ 64).toNat) :
    n.appendLink k ctrl ret = ret ++ [match ret.getLast? with
      | some last => ControlPoint.mk last.anchor last.anchor n.getAnchor []
      | none => ControlPoint.mk ctrl.coords ctrl.initial n.getAnchor []] := by
  rw [Node.appendLink, if_pos h]
  cases ret.getLast? <;> rfl

theorem Node.appendLink_of_not_lt (n : Node α) (k : Int) (ctrl : ControlPoint α)
    (ret : List (ControlPoint α)) (h : ¬ ret.length < (k % 2 ^ 64).toNat) :
    n.appendLink k ctrl ret = ret := by
  rw [Node.appendLink, if_neg h]

/-- What `Node::getOrderedControlPoints` returns, on the list of hops: the number of
links, their paths and anchors, and how their coordinates chain. -/
theorem Node.orderedHops_spec (k : Int) (ctrl : ControlPoint α) (hops : List Nat) :
    ∀ (n target : Node α), n.walk hops = some target →
      ∃ r, Node.orderedHops k ctrl hops n = some r ∧
        r.length = min (k % 2 ^ 64).toNat (hops.length + 1) ∧
        (∀ (m : Nat) (pt : ControlPoint α), r[m]? = some pt →
          pt.indices = (hops.take (hops.length - m)).reverse ∧
          ∃ nm, n.walk (hops.take (hops.length - m)) = some nm ∧ pt.anchor = nm.anchor) ∧
        (∀ pt : ControlPoint α, r[0]? = some pt →
          pt.coords = ctrl.coords ∧ pt.initial = ctrl.initial) ∧
        (∀ (m : Nat) (pt prev : ControlPoint α), r[m + 1]? = some pt → r[m]? = some prev →
          pt.coords = prev.anchor ∧ pt.initial = prev.anchor) := by
  induction hops with
  | nil =>
    intro n target _
    by_cases hK : 0 < (k % 2 ^ 64).toNat
    · refine ⟨[ControlPoint.mk ctrl.coords ctrl.initial n.getAnchor []], ?_, ?_, ?_, ?_, ?_⟩
      · rw [Node.orderedHops, Node.appendLink_of_lt n k ctrl [] hK]
        rfl
      · have h1 : ([] : List Nat).length = 0 := rfl
        rw [List.length_singleton, h1]
        omega
      · intro m pt hm
        cases m with
        | zero =>
          simp only [List.getElem?_cons_zero, Option.some.injEq] at hm
          subst hm
          exact ⟨rfl, n, rfl, rfl⟩
        | succ m => simp at hm
      · intro pt hm
        simp only [List.getElem?_cons_zero, Option.some.injEq] at hm
        subst hm
        exact ⟨rfl, rfl⟩
      · intro m pt prev hm
        simp at hm
    · refine ⟨[], ?_, ?_, ?_, ?_, ?_⟩
      · rw [Node.orderedHops, Node.appendLink_of_not_lt n k ctrl [] hK]
      · have h1 : ([] : List Nat).length = 0 := rfl
        have h2 : ([] : List (ControlPoint α)).length = 0 := rfl
        rw [h1, h2]
        omega
      · intro m pt hm; simp at hm
      · intro pt hm; simp at hm
      · intro m pt prev hm; simp at hm
  | cons ind rest ih =>
    intro n target hw
    simp only [Node.walk] at hw
    cases hch : n.children[ind]? with
    | none => simp [hch] at hw
    | some child =>
      simp only [hch] at hw
      obtain ⟨r0, hr0, hlen0, hA0, hB0, hC0⟩ := ih child target hw
      -- the links of the child with the hop pushed on their paths
      have hlen1 : (r0.map (ControlPoint.pushIndex ind)).length
          = min (k % 2 ^ 64).toNat (rest.length + 1) := by
        rw [List.length_map, hlen0]
      have hget1 : ∀ (m : Nat) (pt : ControlPoint α),
          (r0.map (ControlPoint.pushIndex ind))[m]? = some pt →
          ∃ pt0, r0[m]? = some pt0 ∧ pt = pt0.pushIndex ind := by
        intro m pt hm
        rw [List.getElem?_map] at hm
        cases h0 : r0[m]? with
        | none => simp [h0] at hm
        | some pt0 =>
          simp only [h0, Option.map_some', Option.some.injEq] at hm
          exact ⟨pt0, rfl, hm.symm⟩
      have hA1 : ∀ (m : Nat) (pt : ControlPoint α),
          (r0.map (ControlPoint.pushIndex ind))[m]? = some pt →
          pt.indices = ((ind :: rest).take ((ind :: rest).length - m)).reverse ∧
          ∃ nm, n.walk ((ind :: rest).take ((ind :: rest).length - m)) = some nm ∧
            pt.anchor = nm.anchor := by
        intro m pt hm
        obtain ⟨pt0, h0, rfl⟩ := hget1 m pt hm
        have hmlt : m < r0.length := (List.getElem?_eq_some.mp h0).1
        have hm' : (ind :: rest).length - m = (rest.length - m) + 1 := by
          simp only [List.length_cons]
          omega
        obtain ⟨hi, nm, hnm, ha⟩ := hA0 m pt0 h0
        rw [hm', List.take_succ_cons]
        refine ⟨?_, nm, ?_, ha⟩
        · simp [ControlPoint.pushIndex, hi]
        · simp only [Node.walk, hch]
          exact hnm
      have hB1 : ∀ pt : ControlPoint α, (r0.map (ControlPoint.pushIndex ind))[0]? = some pt →
          pt.coords = ctrl.coords ∧ pt.initial = ctrl.initial := by
        intro pt hm
        obtain ⟨pt0, h0, rfl⟩ := hget1 0 pt hm
        exact hB0 pt0 h0
      have hC1 : ∀ (m : Nat) (pt prev : ControlPoint α),
          (r0.map (ControlPoint.pushIndex ind))[m + 1]? = some pt →
          (r0.map (ControlPoint.pushIndex ind))[m]? = some prev →
          pt.coords = prev.anchor ∧ pt.initial = prev.anchor := by
        intro m pt prev hm hp
        obtain ⟨pt0, h0, rfl⟩ := hget1 (m + 1) pt hm
        obtain ⟨prev0, hp0, rfl⟩ := hget1 m prev hp
        exact hC0 m pt0 prev0 h0 hp0
      have hcall : Node.orderedHops k ctrl (ind :: rest) n
          = some (n.appendLink k ctrl (r0.map (ControlPoint.pushIndex ind))) := by
        simp only [Node.orderedHops, hch, hr0]
      clear hget1
      generalize r0.map (ControlPoint.pushIndex ind) = r1 at hlen1 hA1 hB1 hC1 hcall
      by_cases hlt : r1.length < (k % 2 ^ 64).toNat
      · -- the node appends its own link
        have hfull : r1.length = rest.length + 1 := by omega
        rw [Node.appendLink_of_lt n k ctrl r1 hlt] at hcall
        obtain ⟨last, hlast⟩ : ∃ last, r1[rest.length]? = some last :=
          ⟨r1[rest.length], List.getElem?_eq_getElem (by omega)⟩
        have hgl : r1.getLast? = some last := by
          rw [List.getLast?_eq_getElem?, hfull]
          simpa using hlast
        rw [hgl] at hcall
        refine ⟨_, hcall, ?_, ?_, ?_, ?_⟩
        · simp only [List.length_append, List.length_singleton, List.length_cons,
            List.length_nil, hfull]
          omega
        · intro m pt hm
          by_cases hm1 : m < r1.length
          · rw [List.getElem?_append_left hm1] at hm
            exact hA1 m pt hm
          · rw [List.getElem?_append_right (by omega)] at hm
            have hm0 : m - r1.length = 0 := by
              cases hz : m - r1.length with
              | zero => rfl
              | succ j => simp [hz] at hm
            have hmeq : m = rest.length + 1 := by omega
            simp only [hm0, List.getElem?_cons_zero, Option.some.injEq] at hm
            subst hm
            subst hmeq
            have hz : (ind :: rest).length - (rest.length + 1) = 0 := by simp
            rw [hz, List.take_zero]
            exact ⟨rfl, n, rfl, rfl⟩
        · intro pt hm
          rw [List.getElem?_append_left (by omega)] at hm
          exact hB1 pt hm
        · intro m pt prev hm hp
          by_cases hm1 : m + 1 < r1.length
          · rw [List.getElem?_append_left hm1] at hm
            rw [List.getElem?_append_left (by omega)] at hp
            exact hC1 m pt prev hm hp
          · rw [List.getElem?_append_right (by omega)] at hm
            have hm0 : m + 1 - r1.length = 0 := by
              cases hz : m + 1 - r1.length with
              | zero => rfl
              | succ j => simp [hz] at hm
            have hmeq : m = rest.length := by omega
            simp only [hm0, List.getElem?_cons_zero, Option.some.injEq] at hm
            subst hm
            subst hmeq
            rw [List.getElem?_append_left (by omega), hlast] at hp
            simp only [Option.some.injEq] at hp
            subst hp
            exact ⟨rfl, rfl⟩
      · -- the chain is already complete
        rw [Node.appendLink_of_not_lt n k ctrl r1 hlt] at hcall
        refine ⟨r1, hcall, ?_, hA1, hB1, hC1⟩
        simp only [List.length_cons]
        omega

end ControlPoints

end bgq_opengl

/-! ## Claims on the control point queries -/

namespace bgq_opengl

section ControlPointClaims

variable {α : Type}

theorem toNat_int_as_size_t (k : Int) (hk0 : 0 ≤ k) (hk : k < 2 ^ 31) :
    (k % 2 ^ 64).toNat = k.toNat := by
  rw [Int.emod_eq_of_lt hk0 (by omega)]

/-- C1: for every point `p` returned by `getControlPoints` on the root, the descent from
the root that consumes `p.indices` from the back never indexes out of range and ends at
a node whose `control` has `p.coords` as an entry and whose anchor is `p.anchor`. -/
theorem getControlPoints_path_invariant (root : Node α) (p : ControlPoint α)
    (hp : p ∈ root.getControlPoints) :
    ∃ n, root.descend p.indices = some n ∧ p.coords ∈ n.control ∧ p.anchor = n.anchor :=
  Node.getControlPoints_descend p.indices.length root p rfl hp

theorem getControlPoints_path_invariant_witness :
    tipPoint ∈ chain3.getControlPoints ∧
      ∃ n, chain3.descend tipPoint.indices = some n ∧ tipPoint.coords ∈ n.control ∧
        tipPoint.anchor = n.anchor :=
  ⟨by decide, getControlPoints_path_invariant chain3 tipPoint (by decide)⟩

/-- C2: for `0 ≤ k` (an `int`) and a control point whose `indices` are a valid path of
`d` hops from the root, `getOrderedControlPoints(k, ctrl)` returns exactly
`min(k, d + 1)` points, and the anchor of the point of index `m` is the anchor of the
ancestor `m` levels above the target (the node addressed by `ctrl.indices` without its
first `m` entries): the target itself first, then its parent, and so on. -/
theorem getOrderedControlPoints_count_and_anchors (root target : Node α) (k : Int)
    (ctrl : ControlPoint α) (hk0 : 0 ≤ k) (hk : k < 2 ^ 31)
    (hvalid : root.descend ctrl.indices = some target) :
    ∃ r, root.getOrderedControlPoints k ctrl = some r ∧
      r.length = min k.toNat (ctrl.indices.length + 1) ∧
      ∀ (m : Nat) (pt : ControlPoint α), r[m]? = some pt →
        ∃ nm, root.descend (ctrl.indices.drop m) = some nm ∧ pt.anchor = nm.anchor := by
  obtain ⟨r, hr, hlen, hA, _, _⟩ :=
    Node.orderedHops_spec k ctrl ctrl.indices.reverse root target hvalid
  refine ⟨r, hr, ?_, ?_⟩
  · rw [hlen, toNat_int_as_size_t k hk0 hk, List.length_reverse]
  · intro m pt hm
    obtain ⟨_, nm, hnm, ha⟩ := hA m pt hm
    refine ⟨nm, ?_, ha⟩
    rw [Node.descend, List.reverse_drop]
    rw [List.length_reverse] at hnm
    exact hnm

theorem getOrderedControlPoints_count_and_anchors_witness :
    (0 : Int) ≤ 2 ∧ (2 : Int) < 2 ^ 31 ∧ chain3.descend tipPoint.indices = some tip ∧
      ∃ r, chain3.getOrderedControlPoints 2 tipPoint = some r ∧
        r.length = min (2 : Int).toNat (tipPoint.indices.length + 1) ∧
        ∀ (m : Nat) (pt : ControlPoint ℤ), r[m]? = some pt →
          ∃ nm, chain3.descend (tipPoint.indices.drop m) = some nm ∧ pt.anchor = nm.anchor :=
  ⟨by decide, by decide, rfl,
    getOrderedControlPoints_count_and_anchors chain3 tip 2 tipPoint (by decide) (by decide) rfl⟩

/-- C3: for the result `r` of `getOrderedControlPoints(k, ctrl)` on a valid path of `d`
hops, `r[0]` carries `coords` and `initial` of `ctrl`; for `m ≥ 1` both `coords` and
`initial` of `r[m]` are the anchor of `r[m - 1]`; and `r[m].indices` is `ctrl.indices`
without its first `m` entries (its last `d - m` elements), a path that leads from the
root to the node whose anchor is `r[m].anchor`. -/
theorem getOrderedControlPoints_links (root target : Node α) (k : Int)
    (ctrl : ControlPoint α) (hk0 : 0 ≤ k) (hk : k < 2 ^ 31)
    (hvalid : root.descend ctrl.indices = some target) :
    ∃ r, root.getOrderedControlPoints k ctrl = some r ∧
      r.length = min k.toNat (ctrl.indices.length + 1) ∧
      (∀ pt : ControlPoint α, r[0]? = some pt →
        pt.coords = ctrl.coords ∧ pt.initial = ctrl.initial) ∧
      (∀ (m : Nat) (pt prev : ControlPoint α), r[m + 1]? = some pt → r[m]? = some prev →
        pt.coords = prev.anchor ∧ pt.initial = prev.anchor) ∧
      (∀ (m : Nat) (pt : ControlPoint α), r[m]? = some pt →
        pt.indices = ctrl.indices.drop m ∧
        pt.indices.length = ctrl.indices.length - m ∧
        ∃ nm, root.descend pt.indices = some nm ∧ pt.anchor = nm.anchor) := by
  obtain ⟨r, hr, hlen, hA, hB, hC⟩ :=
    Node.orderedHops_spec k ctrl ctrl.indices.reverse root target hvalid
  refine ⟨r, hr, ?_, hB, hC, ?_⟩
  · rw [hlen, toNat_int_as_size_t k hk0 hk, List.length_reverse]
  · intro m pt hm
    obtain ⟨hi, nm, hnm, ha⟩ := hA m pt hm
    have hidx : pt.indices = ctrl.indices.drop m := by
      rw [hi, List.length_reverse, ← List.reverse_drop, List.reverse_reverse]
    refine ⟨hidx, ?_, nm, ?_, ha⟩
    · rw [hidx, List.length_drop]
    · rw [hidx, Node.descend, List.reverse_drop]
      rw [List.length_reverse] at hnm
      exact hnm

theorem getOrderedControlPoints_links_witness :
    (0 : Int) ≤ 2 ∧ (2 : Int) < 2 ^ 31 ∧ chain3.descend tipPoint.indices = some tip ∧
      ∃ r, chain3.getOrderedControlPoints 2 tipPoint = some r ∧
        r.length = min (2 : Int).toNat (tipPoint.indices.length + 1) ∧
        (∀ pt : ControlPoint ℤ, r[0]? = some pt →
          pt.coords = tipPoint.coords ∧ pt.initial = tipPoint.initial) ∧
        (∀ (m : Nat) (pt prev : ControlPoint ℤ), r[m + 1]? = some pt → r[m]? = some prev →
          pt.coords = prev.anchor ∧ pt.initial = prev.anchor) ∧
        (∀ (m : Nat) (pt : ControlPoint ℤ), r[m]? = some pt →
          pt.indices = tipPoint.indices.drop m ∧
          pt.indices.length = tipPoint.indices.length - m ∧
          ∃ nm, chain3.descend pt.indices = some nm ∧ pt.anchor = nm.anchor) :=
  ⟨by decide, by decide, rfl,
    getOrderedControlPoints_links chain3 tip 2 tipPoint (by decide) (by decide) rfl⟩

end ControlPointClaims

end bgq_opengl

/-! ## Claims on the transform propagation -/

namespace bgq_opengl

section TransformClaims

variable {α : Type} [CommRing α]

theorem Mat4.applyPoint_translation (v p : Vec3 α) :
    (Mat4.identity.mul (Mat4.translation v)).applyPoint p = p.add v := by
  simp only [Mat4.applyPoint, Mat4.mulVec, Mat4.mul, Mat4.rowMul, Mat4.identity,
    Mat4.translation, Mat4.c0, Mat4.c1, Mat4.c2, Mat4.c3, Vec4.dot, Vec4.ofPoint, Vec4.xyz,
    Vec3.add, Vec3.mk.injEq]
  refine ⟨?_, ?_, ?_⟩ <;> ring

theorem Mat4.applyPoint_scaling (s p : Vec3 α) :
    (Mat4.identity.mul (Mat4.scaling s)).applyPoint p = s.scaleBy p := by
  simp only [Mat4.applyPoint, Mat4.mulVec, Mat4.mul, Mat4.rowMul, Mat4.identity,
    Mat4.scaling, Mat4.c0, Mat4.c1, Mat4.c2, Mat4.c3, Vec4.dot, Vec4.ofPoint, Vec4.xyz,
    Vec3.scaleBy, Vec3.mk.injEq]
  refine ⟨?_, ?_, ?_⟩ <;> ring

/-- C4: on a well-formed tree and for a valid path `p`, each of the four path-scoped
operations `transform(p, anchor, M)`, `transform(p, M)`, `rotate(p, anchor, x, y, z,
angle)` and `rotate(p, x, y, z, angle)` returns, and leaves every node outside the
subtree of the node addressed by `p` (ancestors, siblings and their descendants) with
the same geometry, anchor, anchor_original, control and control_original. -/
theorem scoped_operations_frame (rot : Rotation α) (root target : Node α) (p : List Nat)
    (anchor : Vec3 α) (M : Mat4 α) (x y z angle : α)
    (hwf : root.wellFormed) (hp : root.descend p = some target) :
    (∃ r, root.transformIndsAnchor p anchor M = some r ∧ root.unchangedOutside r p) ∧
    (∃ r, root.transformInds p M = some r ∧ root.unchangedOutside r p) ∧
    (∃ r, root.rotateIndsAnchor rot p anchor x y z angle = some r ∧
      root.unchangedOutside r p) ∧
    (∃ r, root.rotateInds rot p x y z angle = some r ∧ root.unchangedOutside r p) := by
  have htwf : target.wellFormed := Node.wellFormed_walk p.reverse root target hwf hp
  refine ⟨?_, ?_, ?_, ?_⟩
  · obtain ⟨t', ht'⟩ := Node.transformHere_isSome anchor M target htwf
    obtain ⟨r, hr⟩ := Node.applyAt_isSome (Node.transformHere anchor M) p.reverse root target
      t' hp ht'
    exact ⟨r, by rw [Node.transformIndsAnchor, Node.transformHops_eq, hr],
      Node.unchangedOutside_of_applyAt _ p root r hr⟩
  · obtain ⟨t', ht'⟩ := Node.transformHere_isSome target.getAnchor M target htwf
    obtain ⟨r, hr⟩ := Node.applyAt_isSome (fun m => m.transformHere m.getAnchor M) p.reverse
      root target t' hp ht'
    exact ⟨r, by rw [Node.transformInds, Node.transformSelfHops_eq, hr],
      Node.unchangedOutside_of_applyAt _ p root r hr⟩
  · obtain ⟨t', ht'⟩ := Node.rotateHere_isSome rot anchor x y z angle target htwf
    obtain ⟨r, hr⟩ := Node.applyAt_isSome (Node.rotateHere rot anchor x y z angle) p.reverse
      root target t' hp ht'
    exact ⟨r, by rw [Node.rotateIndsAnchor, Node.rotateHops_eq, hr],
      Node.unchangedOutside_of_applyAt _ p root r hr⟩
  · obtain ⟨t', ht'⟩ := Node.rotateHere_isSome rot target.getAnchor x y z angle target htwf
    obtain ⟨r, hr⟩ := Node.applyAt_isSome (fun m => m.rotateHere rot m.getAnchor x y z angle)
      p.reverse root target t' hp ht'
    exact ⟨r, by rw [Node.rotateInds, Node.rotateSelfHops_eq, hr],
      Node.unchangedOutside_of_applyAt _ p root r hr⟩

end TransformClaims

theorem scoped_operations_frame_witness :
    fork.wellFormed ∧ fork.descend [0] = some mid ∧
    (∃ r, fork.transformIndsAnchor [0] (pt 1 0 0) (Mat4.translation (pt 0 0 1)) = some r ∧
      fork.unchangedOutside r [0]) ∧
    (∃ r, fork.transformInds [0] (Mat4.translation (pt 0 0 1)) = some r ∧
      fork.unchangedOutside r [0]) ∧
    (∃ r, fork.rotateIndsAnchor halfTurn [0] (pt 1 0 0) 0 1 0 180 = some r ∧
      fork.unchangedOutside r [0]) ∧
    (∃ r, fork.rotateInds halfTurn [0] 0 1 0 180 = some r ∧ fork.unchangedOutside r [0]) :=
  ⟨by decide, rfl,
    scoped_operations_frame halfTurn fork mid [0] (pt 1 0 0) (Mat4.translation (pt 0 0 1))
      0 1 0 180 (by decide) rfl⟩

end bgq_opengl

namespace bgq_opengl

section TransformClaims2

variable {α : Type} [CommRing α]

/-- The path-scoped body and the unscoped overload of `transform` agree on the node on
everything but the two snapshots. -/
theorem Node.transformHere_of_transformAnchor (anchor : Vec3 α) (M : Mat4 α)
    (n whole : Node α) (h : n.transformAnchor anchor M = some whole) :
    ∃ landed, n.transformHere anchor M = some landed ∧
      landed.geometry = whole.geometry ∧ landed.children = whole.children ∧
      landed.anchor = whole.anchor ∧ landed.control = whole.control ∧
      landed.anchor_original = n.anchor_original ∧
      landed.control_original = n.control_original := by
  cases n with
  | mk g cs an ao c co =>
    rw [Node.transformAnchor] at h
    cases hcs : transformAnchorChildren anchor M cs with
    | none => simp [hcs] at h
    | some cs' =>
      cases hr : updateControls M.applyPoint c co with
      | none => simp [hcs, hr] at h
      | some r =>
        obtain ⟨c', co'⟩ := r
        simp only [hcs, hr, Option.some.injEq] at h
        subst h
        refine ⟨Node.mk (g.setTransformMat (M.mul g.getTransformMat)) cs' (M.applyPoint an) ao
          (c.map M.applyPoint) co, by rw [Node.transformHere, hcs], rfl, rfl, rfl, ?_, rfl, rfl⟩
        exact ((updateControls_eq_some _ c co c' co' hr).1).symm

/-- C5: for a valid path `p` addressing the node `target` (the empty path addresses the
node the call is made on), whenever the unscoped `target.transform(anchor, M)` returns
`whole`, the path-scoped `transform(p, anchor, M)` returns a tree that has at `p` a
node `landed` such that every node of its subtree (itself at the empty path, and every
descendant) has the geometry, the anchor and the control values of the node at the same
place in `whole`. -/
theorem transformIndsAnchor_refines_unscoped (root target whole : Node α) (p : List Nat)
    (anchor : Vec3 α) (M : Mat4 α) (hp : root.descend p = some target)
    (hu : target.transformAnchor anchor M = some whole) :
    ∃ root' landed, root.transformIndsAnchor p anchor M = some root' ∧
      root'.descend p = some landed ∧
      ∀ (q : List Nat) (m : Node α), whole.descend q = some m →
        ∃ m', landed.descend q = some m' ∧ m'.geometry = m.geometry ∧
          m'.anchor = m.anchor ∧ m'.control = m.control := by
  obtain ⟨landed, hs, hg, hc, ha, hctl, _, _⟩ :=
    Node.transformHere_of_transformAnchor anchor M target whole hu
  obtain ⟨root', hr⟩ := Node.applyAt_isSome (Node.transformHere anchor M) p.reverse root
    target landed hp hs
  obtain ⟨s2, hs2, hop⟩ := Node.applyAt_target (Node.transformHere anchor M) p.reverse root
    root' target hr hp
  have hs2eq : s2 = landed := by
    rw [hs] at hop
    exact (Option.some.inj hop).symm
  subst hs2eq
  refine ⟨root', s2, by rw [Node.transformIndsAnchor, Node.transformHops_eq, hr], hs2, ?_⟩
  intro q m hq
  rw [Node.descend] at hq ⊢
  cases hrev : q.reverse with
  | nil =>
    rw [hrev] at hq
    simp only [Node.walk, Option.some.injEq] at hq
    subst hq
    exact ⟨s2, rfl, hg, ha, hctl⟩
  | cons ind rest =>
    rw [hrev] at hq
    rw [Node.walk_of_children_eq s2 whole hc ind rest]
    exact ⟨m, hq, rfl, rfl, rfl⟩

/-- C6: on a well-formed tree the unscoped `transform(anchor, M)` returns, and every node
of the subtree (the node itself at the empty path, and all descendants) then has the
geometry transform `M * old_transform`, the anchor `M` applied to its old anchor, and
for every `i` the control point `M` applied to its old `control[i]`. -/
theorem transformAnchor_every_node (n : Node α) (anchor : Vec3 α) (M : Mat4 α)
    (hwf : n.wellFormed) :
    ∃ n', n.transformAnchor anchor M = some n' ∧
      ∀ (q : List Nat) (m : Node α), n.descend q = some m →
        ∃ m', n'.descend q = some m' ∧
          m'.geometry.getTransformMat = M.mul m.geometry.getTransformMat ∧
          m'.geometry.vertices = m.geometry.vertices ∧
          m'.anchor = M.applyPoint m.anchor ∧
          m'.control = m.control.map M.applyPoint := by
  obtain ⟨n', hn'⟩ := Node.visit_isSome (transformUpdate M) n hwf
  refine ⟨n', by rw [Node.transformAnchor_eq_visit, hn'], ?_⟩
  intro q m hq
  obtain ⟨m', hm', hv⟩ := Node.visit_walk (transformUpdate M) q.reverse n n' m hn' hq
  obtain ⟨hg, ha, _, hc, _⟩ := Node.visit_members (transformUpdate M) m m' hv
  refine ⟨m', hm', ?_, ?_, ha, hc⟩
  · rw [hg]; rfl
  · rw [hg]; rfl

/-- C10: on a well-formed tree `translate(x, y, z)` returns, and at the node and at every
descendant it has added `(x, y, z)` to anchor, anchor_original, every `control[i]` and
every `control_original[i]` and called `Geometry::translate` on the geometry, which
left-multiplies the translation onto the geometry transform; `scale(sx, sy, sz)` returns
and has multiplied the same four kinds of points componentwise by `(sx, sy, sz)` and
called `Geometry::scale`, which left-multiplies the scale matrix onto the geometry
transform. The live values and the snapshots get the same update. -/
theorem translate_scale_every_node (n : Node α) (x y z : α) (hwf : n.wellFormed) :
    (∃ n', n.translate x y z = some n' ∧
      ∀ (q : List Nat) (m : Node α), n.descend q = some m →
        ∃ m', n'.descend q = some m' ∧
          m'.geometry = m.geometry.translate x y z ∧
          m'.geometry.getTransformMat
            = (Mat4.translation ⟨x, y, z⟩).mul m.geometry.getTransformMat ∧
          m'.anchor = m.anchor.add ⟨x, y, z⟩ ∧
          m'.anchor_original = m.anchor_original.add ⟨x, y, z⟩ ∧
          m'.control = m.control.map (fun v => v.add ⟨x, y, z⟩) ∧
          m'.control_original = m.control_original.map (fun v => v.add ⟨x, y, z⟩)) ∧
    (∃ n', n.scale x y z = some n' ∧
      ∀ (q : List Nat) (m : Node α), n.descend q = some m →
        ∃ m', n'.descend q = some m' ∧
          m'.geometry = m.geometry.scale x y z ∧
          m'.geometry.getTransformMat
            = (Mat4.scaling ⟨x, y, z⟩).mul m.geometry.getTransformMat ∧
          m'.anchor = Vec3.scaleBy ⟨x, y, z⟩ m.anchor ∧
          m'.anchor_original = Vec3.scaleBy ⟨x, y, z⟩ m.anchor_original ∧
          m'.control = m.control.map (Vec3.scaleBy ⟨x, y, z⟩) ∧
          m'.control_original = m.control_original.map (Vec3.scaleBy ⟨x, y, z⟩)) := by
  constructor
  · obtain ⟨n', hn'⟩ := Node.visit_isSome (translateUpdate x y z) n hwf
    refine ⟨n', by rw [Node.translate_eq_visit, hn'], ?_⟩
    intro q m hq
    obtain ⟨m', hm', hv⟩ := Node.visit_walk (translateUpdate x y z) q.reverse n n' m hn' hq
    obtain ⟨hg, ha, hao, hc, hco⟩ := Node.visit_members (translateUpdate x y z) m m' hv
    have hlen := Node.wellFormed_length m (Node.wellFormed_walk q.reverse n m hwf hq)
    have hf : (translateUpdate x y z).onPoint = fun v => v.add ⟨x, y, z⟩ := by
      funext v
      exact Mat4.applyPoint_translation ⟨x, y, z⟩ v
    refine ⟨m', hm', hg, ?_, ?_, ?_, ?_, ?_⟩
    · rw [hg]; rfl
    · rw [ha]; exact Mat4.applyPoint_translation ⟨x, y, z⟩ m.anchor
    · rw [hao]; exact Mat4.applyPoint_translation ⟨x, y, z⟩ m.anchor_original
    · rw [hc, hf]
    · rw [hco hlen, hf]
  · obtain ⟨n', hn'⟩ := Node.visit_isSome (scaleUpdate x y z) n hwf
    refine ⟨n', by rw [Node.scale_eq_visit, hn'], ?_⟩
    intro q m hq
    obtain ⟨m', hm', hv⟩ := Node.visit_walk (scaleUpdate x y z) q.reverse n n' m hn' hq
    obtain ⟨hg, ha, hao, hc, hco⟩ := Node.visit_members (scaleUpdate x y z) m m' hv
    have hlen := Node.wellFormed_length m (Node.wellFormed_walk q.reverse n m hwf hq)
    have hf : (scaleUpdate x y z).onPoint = Vec3.scaleBy ⟨x, y, z⟩ := by
      funext v
      exact Mat4.applyPoint_scaling ⟨x, y, z⟩ v
    refine ⟨m', hm', hg, ?_, ?_, ?_, ?_, ?_⟩
    · rw [hg]; rfl
    · rw [ha]; exact Mat4.applyPoint_scaling ⟨x, y, z⟩ m.anchor
    · rw [hao]; exact Mat4.applyPoint_scaling ⟨x, y, z⟩ m.anchor_original
    · rw [hc, hf]
    · rw [hco hlen, hf]

end TransformClaims2

end bgq_opengl

namespace bgq_opengl

theorem transformIndsAnchor_refines_unscoped_witness :
    chain3.descend [0] = some mid ∧ mid.transformAnchor (pt 1 0 0) liftZ = some midLifted ∧
    ∃ root' landed, chain3.transformIndsAnchor [0] (pt 1 0 0) liftZ = some root' ∧
      root'.descend [0] = some landed ∧
      ∀ (q : List Nat) (m : Node ℤ), midLifted.descend q = some m →
        ∃ m', landed.descend q = some m' ∧ m'.geometry = m.geometry ∧
          m'.anchor = m.anchor ∧ m'.control = m.control :=
  ⟨rfl, rfl, transformIndsAnchor_refines_unscoped chain3 mid midLifted [0] (pt 1 0 0) liftZ
    rfl rfl⟩

theorem transformAnchor_every_node_witness :
    chain3.wellFormed ∧
    ∃ n', chain3.transformAnchor (pt 0 0 0) liftZ = some n' ∧
      ∀ (q : List Nat) (m : Node ℤ), chain3.descend q = some m →
        ∃ m', n'.descend q = some m' ∧
          m'.geometry.getTransformMat = liftZ.mul m.geometry.getTransformMat ∧
          m'.geometry.vertices = m.geometry.vertices ∧
          m'.anchor = liftZ.applyPoint m.anchor ∧
          m'.control = m.control.map liftZ.applyPoint :=
  ⟨by decide,
    transformAnchor_every_node chain3 (pt 0 0 0) liftZ
      (by decide)⟩

theorem translate_scale_every_node_witness :
    chain3.wellFormed ∧
    (∃ n', chain3.translate 1 2 3 = some n' ∧
      ∀ (q : List Nat) (m : Node ℤ), chain3.descend q = some m →
        ∃ m', n'.descend q = some m' ∧
          m'.geometry = m.geometry.translate 1 2 3 ∧
          m'.geometry.getTransformMat
            = (Mat4.translation ⟨1, 2, 3⟩).mul m.geometry.getTransformMat ∧
          m'.anchor = m.anchor.add ⟨1, 2, 3⟩ ∧
          m'.anchor_original = m.anchor_original.add ⟨1, 2, 3⟩ ∧
          m'.control = m.control.map (fun v => v.add ⟨1, 2, 3⟩) ∧
          m'.control_original = m.control_original.map (fun v => v.add ⟨1, 2, 3⟩)) ∧
    (∃ n', chain3.scale 1 2 3 = some n' ∧
      ∀ (q : List Nat) (m : Node ℤ), chain3.descend q = some m →
        ∃ m', n'.descend q = some m' ∧
          m'.geometry = m.geometry.scale 1 2 3 ∧
          m'.geometry.getTransformMat
            = (Mat4.scaling ⟨1, 2, 3⟩).mul m.geometry.getTransformMat ∧
          m'.anchor = Vec3.scaleBy ⟨1, 2, 3⟩ m.anchor ∧
          m'.anchor_original = Vec3.scaleBy ⟨1, 2, 3⟩ m.anchor_original ∧
          m'.control = m.control.map (Vec3.scaleBy ⟨1, 2, 3⟩) ∧
          m'.control_original = m.control_original.map (Vec3.scaleBy ⟨1, 2, 3⟩)) :=
  ⟨by decide,
    translate_scale_every_node chain3 1 2 3
      (by decide)⟩

/-- C7, evaluated: on the single link `tip`, where `anchor_original = anchor` and
`control_original = control` hold, the unscoped `transform` by a translation of one unit
along `x` moves the anchor to `(3, 0, 0)` and the snapshot to `(4, 0, 0)`, and the
unscoped `rotate` by a half turn about the `z` axis through the origin moves the anchor
to `(-2, 0, 0)` and leaves the snapshot at `(2, 0, 0)`: the matrix is applied twice to
the snapshot of the anchor, once to everything else. -/
theorem unscoped_anchor_original_out_of_step :
    tip.anchor_original = tip.anchor ∧ tip.control_original = tip.control ∧
    (∃ n', tip.transformAnchor (pt 0 0 0) (Mat4.translation (pt 1 0 0)) = some n' ∧
      n'.anchor = pt 3 0 0 ∧ n'.anchor_original = pt 4 0 0 ∧
      n'.control = [pt 4 0 0] ∧ n'.control_original = [pt 4 0 0]) ∧
    (∃ n', tip.rotateAnchor halfTurn (pt 0 0 0) 0 0 1 180 = some n' ∧
      n'.anchor = pt (-2) 0 0 ∧ n'.anchor_original = pt 2 0 0 ∧
      n'.control = [pt (-3) 0 0] ∧ n'.control_original = [pt (-3) 0 0]) :=
  ⟨rfl, rfl, ⟨_, rfl, rfl, rfl, rfl, rfl⟩, ⟨_, rfl, rfl, rfl, rfl, rfl⟩⟩

/-- C8, evaluated: on the chain `chain3` the path-scoped `transform([0], anchor, liftZ)`
addresses `mid`; it leaves the snapshots of `mid` alone but changes those of its child
`tip`, at the path `[0, 0]`: `anchor_original` goes from `(2, 0, 0)` to `(2, 0, 2)` and
`control_original` from `[(3, 0, 0)]` to `[(3, 0, 1)]`, so that `resetTransforms` then
puts the anchor and the control point of that node at these new values. The path-scoped
`rotate` by a half turn about the anchor of `mid` likewise changes `control_original` of
`tip` from `[(3, 0, 0)]` to `[(-1, 0, 0)]`. -/
theorem scoped_operations_refresh_descendant_snapshots :
    chain3.descend [0, 0] = some tip ∧
    tip.anchor_original = pt 2 0 0 ∧ tip.control_original = [pt 3 0 0] ∧
    (∃ r addressed below, chain3.transformIndsAnchor [0] (pt 1 0 0) liftZ = some r ∧
      r.descend [0] = some addressed ∧
      addressed.anchor_original = mid.anchor_original ∧
      addressed.control_original = mid.control_original ∧
      r.descend [0, 0] = some below ∧
      below.anchor_original = pt 2 0 2 ∧ below.control_original = [pt 3 0 1] ∧
      ∃ restored, r.resetTransforms.descend [0, 0] = some restored ∧
        restored.anchor = pt 2 0 2 ∧ restored.control = [pt 3 0 1]) ∧
    (∃ r below, chain3.rotateIndsAnchor halfTurn [0] (pt 1 0 0) 0 0 1 180 = some r ∧
      r.descend [0, 0] = some below ∧ below.control_original = [pt (-1) 0 0] ∧
      ∃ restored, r.resetTransforms.descend [0, 0] = some restored ∧
        restored.control = [pt (-1) 0 0]) :=
  ⟨rfl, rfl, rfl, ⟨_, _, _, rfl, rfl, rfl, rfl, rfl, rfl, rfl, _, rfl, rfl, rfl⟩,
    ⟨_, _, rfl, rfl, rfl, _, rfl, rfl⟩⟩

/-- C9, evaluated at the axis `(1, 0, 0)` and the angle 180 on the link `tip`, about its
own anchor `(2, 0, 0)`: the geometry receives the pivot matrix of the rotation about the
`x` axis, which keeps the control point `(3, 0, 0)` where it is, while `control` is
updated with the pivot matrix of the rotation about the `z` axis and becomes
`(1, 0, 0)`. -/
theorem rotateAnchor_points_ignore_axis :
    ∃ n', tip.rotateAnchor halfTurn (pt 2 0 0) 1 0 0 180 = some n' ∧
      n'.geometry.getTransformMat
        = (Mat4.aboutPoint (pt 2 0 0) (halfTurn ⟨1, 0, 0⟩ 180)).mul tip.geometry.getTransformMat ∧
      (Mat4.aboutPoint (pt 2 0 0) (halfTurn ⟨1, 0, 0⟩ 180)).applyPoint (pt 3 0 0) = pt 3 0 0 ∧
      tip.control = [pt 3 0 0] ∧ n'.control = [pt 1 0 0] ∧
      n'.control = tip.control.map
        (Mat4.aboutPoint (pt 2 0 0) (halfTurn ⟨0, 0, 1⟩ 180)).applyPoint :=
  ⟨_, rfl, rfl, rfl, rfl, rfl, rfl⟩

end bgq_opengl

/-! ## Reset and the computation of the control points -/

namespace bgq_opengl

section Reset

variable {α : Type} [CommRing α]

theorem resetTransformsChildren_eq (cs : List (Node α)) :
    resetTransformsChildren cs = cs.map Node.resetTransforms := by
  induction cs with
  | nil => rfl
  | cons child rest ih => simp only [resetTransformsChildren, List.map_cons, ih]

theorem Node.resetTransforms_walk (q : List Nat) :
    ∀ n : Node α, n.resetTransforms.walk q = (n.walk q).map Node.resetTransforms := by
  induction q with
  | nil => intro n; rfl
  | cons ind rest ih =>
    intro n
    cases n with
    | mk g cs an ao c co =>
      simp only [Node.resetTransforms, Node.walk, Node.children, resetTransformsChildren_eq,
        List.getElem?_map]
      cases cs[ind]? with
      | none => rfl
      | some child => exact ih child

/-- C11: after `resetTransforms` on the root, in any state of the tree, every node of
the tree has `anchor = anchor_original`, `control = control_original` and the identity
as geometry transform, and it is the node the tree had at the same path, with
`anchor_original` and `control_original` as they were. -/
theorem resetTransforms_invariant (root : Node α) (q : List Nat) (m' : Node α)
    (hq : root.resetTransforms.descend q = some m') :
    m'.anchor = m'.anchor_original ∧ m'.control = m'.control_original ∧
      m'.geometry.getTransformMat = Mat4.identity ∧
      ∃ m, root.descend q = some m ∧ m'.anchor_original = m.anchor_original ∧
        m'.control_original = m.control_original ∧
        m'.geometry.vertices = m.geometry.vertices ∧
        m'.children.length = m.children.length := by
  rw [Node.descend, Node.resetTransforms_walk] at hq
  cases hm : root.walk q.reverse with
  | none => simp [hm] at hq
  | some m =>
    simp only [hm, Option.map_some', Option.some.injEq] at hq
    subst hq
    cases m with
    | mk g cs an ao c co =>
      refine ⟨rfl, rfl, rfl, _, hm, rfl, rfl, rfl, ?_⟩
      simp [Node.resetTransforms, Node.children, resetTransformsChildren_eq]

theorem freshChildren_iff (cs : List (Node α)) :
    freshChildren cs ↔ ∀ child ∈ cs, child.isFresh := by
  induction cs with
  | nil => simp [freshChildren]
  | cons child rest ih => simp [freshChildren, ih]

theorem Node.isFresh_mk (g : Geometry α) (cs : List (Node α)) (an ao : Vec3 α)
    (c co : List (Vec3 α)) :
    (Node.mk g cs an ao c co).isFresh ↔
      g.transforms = Mat4.identity ∧ an = ⟨0, 0, 0⟩ ∧ ao = ⟨0, 0, 0⟩ ∧ c = [] ∧ co = [] ∧
        ∀ child ∈ cs, child.isFresh := by
  rw [Node.isFresh, freshChildren_iff]

end Reset

theorem resetTransforms_invariant_witness :
    midLifted.resetTransforms.descend [0] = some tipLifted.resetTransforms ∧
    (tipLifted.resetTransforms.anchor = tipLifted.resetTransforms.anchor_original ∧
      tipLifted.resetTransforms.control = tipLifted.resetTransforms.control_original ∧
      tipLifted.resetTransforms.geometry.getTransformMat = Mat4.identity ∧
      ∃ m, midLifted.descend [0] = some m ∧
        tipLifted.resetTransforms.anchor_original = m.anchor_original ∧
        tipLifted.resetTransforms.control_original = m.control_original ∧
        tipLifted.resetTransforms.geometry.vertices = m.geometry.vertices ∧
        tipLifted.resetTransforms.children.length = m.children.length) :=
  ⟨rfl, resetTransforms_invariant midLifted [0] tipLifted.resetTransforms rfl⟩

end bgq_opengl

namespace bgq_opengl

section Calculate

variable {α : Type} [LinearOrderedField α]

/-- The loop over the children: the children are replaced one by one by the result of
their own computation and their anchors are pushed on `control`. -/
theorem calculateChildren_eq_some (geometry : Geometry α) (middle end_ : String) :
    ∀ (cs : List (Node α)) (control : List (Vec3 α)) (cs' : List (Node α))
      (control' : List (Vec3 α)),
      calculateChildren geometry middle end_ cs control = some (cs', control') →
      cs'.length = cs.length ∧ control' = control ++ cs'.map Node.anchor ∧
        ∀ (i : Nat) (child' : Node α), cs'[i]? = some child' →
          ∃ child, cs[i]? = some child ∧
            child.calculateControlPointsIn geometry middle end_ = some child' := by
  intro cs
  induction cs with
  | nil =>
    intro control cs' control' h
    simp only [calculateChildren, Option.some.injEq, Prod.mk.injEq] at h
    obtain ⟨rfl, rfl⟩ := h
    simp
  | cons child rest ih =>
    intro control cs' control' h
    rw [calculateChildren] at h
    cases hc : child.calculateControlPointsIn geometry middle end_ with
    | none => simp [hc] at h
    | some child1 =>
      cases hr : calculateChildren geometry middle end_ rest (control ++ [child1.getAnchor]) with
      | none => simp [hc, hr] at h
      | some r =>
        obtain ⟨rest1, control1⟩ := r
        simp only [hc, hr, Option.some.injEq, Prod.mk.injEq] at h
        obtain ⟨rfl, rfl⟩ := h
        obtain ⟨hlen, hctl, hget⟩ := ih _ rest1 control1 hr
        refine ⟨by simp [hlen], ?_, ?_⟩
        · rw [hctl]
          simp [Node.getAnchor]
        · intro i child' hi
          cases i with
          | zero =>
            simp only [List.getElem?_cons_zero, Option.some.injEq] at hi
            subst hi
            exact ⟨child, by simp, hc⟩
          | succ i =>
            simp only [List.getElem?_cons_succ] at hi
            obtain ⟨ch, hch, hcalc⟩ := hget i child' hi
            exact ⟨ch, by simpa using hch, hcalc⟩

theorem calculateChildren_isSome (geometry : Geometry α) (middle end_ : String) :
    ∀ (cs : List (Node α)) (control : List (Vec3 α)),
      (∀ child ∈ cs, ∃ child', child.calculateControlPointsIn geometry middle end_ = some child') →
      ∃ r, calculateChildren geometry middle end_ cs control = some r := by
  intro cs
  induction cs with
  | nil => intro control _; exact ⟨([], control), rfl⟩
  | cons child rest ih =>
    intro control h
    obtain ⟨child', hc⟩ := h child (by simp)
    obtain ⟨r, hr⟩ := ih (control ++ [child'.getAnchor]) (fun ch hch => h ch (by simp [hch]))
    obtain ⟨rest', control'⟩ := r
    exact ⟨(child' :: rest', control'), by simp only [calculateChildren, hc, hr]⟩

theorem middleAnchor_isSome (middle : String) (parentGeom g : Geometry α)
    (h : middle = "left" ∨ middle = "inter") : ∃ a, middleAnchor middle parentGeom g = some a := by
  rcases h with rfl | rfl
  · exact ⟨_, rfl⟩
  · exact ⟨_, rfl⟩

theorem endControlPoint_isSome (end_ : String) (g : Geometry α)
    (h : end_ = "right" ∨ end_ = "down") : ∃ v, endControlPoint end_ g = some v := by
  rcases h with rfl | rfl
  · exact ⟨_, rfl⟩
  · exact ⟨_, rfl⟩

theorem firstAnchor_isSome (first : String) (g : Geometry α)
    (h : first = "left" ∨ first = "centre") : ∃ a, firstAnchor first g = some a := by
  rcases h with rfl | rfl
  · exact ⟨_, rfl⟩
  · exact ⟨_, rfl⟩

/-- The overload with a parent geometry does not abort when `middle` and `end` are among
the values it handles. -/
theorem Node.calculateControlPointsIn_isSome (middle end_ : String)
    (hmiddle : middle = "left" ∨ middle = "inter") (hend : end_ = "right" ∨ end_ = "down")
    (n : Node α) :
    ∀ parentGeom : Geometry α, ∃ n', n.calculateControlPointsIn parentGeom middle end_ = some n' := by
  induction n using Node.induction with
  | step g cs an ao c co ih =>
    intro parentGeom
    obtain ⟨a, ha⟩ := middleAnchor_isSome middle parentGeom g hmiddle
    cases cs with
    | nil =>
      obtain ⟨v, hv⟩ := endControlPoint_isSome end_ g hend
      exact ⟨Node.mk g [] a a (c ++ [v]) (c ++ [v]),
        by simp only [Node.calculateControlPointsIn, hv, ha]⟩
    | cons child rest =>
      obtain ⟨r, hr⟩ := calculateChildren_isSome g middle end_ (child :: rest) c
        (fun ch hch => ih ch hch g)
      obtain ⟨cs', c'⟩ := r
      exact ⟨Node.mk g cs' a a c' c', by simp only [Node.calculateControlPointsIn, hr, ha]⟩

/-- Every node of the result of the overload with a parent geometry, run on a freshly
built tree, is as `Node.calculated` says. -/
theorem Node.calculateControlPointsIn_calculated (middle end_ : String) (n : Node α) :
    n.isFresh → ∀ (parentGeom : Geometry α) (n' : Node α),
      n.calculateControlPointsIn parentGeom middle end_ = some n' →
      ∀ (q : List Nat) (m' : Node α), n'.walk q = some m' → m'.calculated := by
  induction n using Node.induction with
  | step g cs an ao c co ih =>
    intro hfresh parentGeom n' h q m' hq
    rw [Node.isFresh_mk] at hfresh
    obtain ⟨_, _, _, hc0, _, hfc⟩ := hfresh
    subst hc0
    cases cs with
    | nil =>
      simp only [Node.calculateControlPointsIn] at h
      cases hv : endControlPoint end_ g with
      | none => simp [hv] at h
      | some v =>
        cases ha : middleAnchor middle parentGeom g with
        | none => simp [hv, ha] at h
        | some a =>
          simp only [hv, ha, Option.some.injEq] at h
          subst h
          cases q with
          | nil =>
            simp only [Node.walk, Option.some.injEq] at hq
            subst hq
            exact ⟨fun hne => absurd rfl hne, fun _ => rfl, rfl, rfl⟩
          | cons i rest => simp [Node.walk, Node.children] at hq
    | cons child rest =>
      simp only [Node.calculateControlPointsIn] at h
      cases hr : calculateChildren g middle end_ (child :: rest) [] with
      | none => simp [hr] at h
      | some r =>
        obtain ⟨cs', c'⟩ := r
        cases ha : middleAnchor middle parentGeom g with
        | none => simp [hr, ha] at h
        | some a =>
          simp only [hr, ha, Option.some.injEq] at h
          subst h
          obtain ⟨hlen, hctl, hget⟩ := calculateChildren_eq_some g middle end_ _ _ cs' c' hr
          cases q with
          | nil =>
            simp only [Node.walk, Option.some.injEq] at hq
            subst hq
            refine ⟨fun _ => by simpa using hctl, fun hnil => ?_, rfl, rfl⟩
            simp only [Node.children] at hnil
            subst hnil
            simp at hlen
          | cons i q' =>
            simp only [Node.walk, Node.children] at hq
            cases hi : cs'[i]? with
            | none => simp [hi] at hq
            | some child' =>
              simp only [hi] at hq
              obtain ⟨ch, hch, hcalc⟩ := hget i child' hi
              have hmem : ch ∈ child :: rest := List.getElem?_mem hch
              exact ih ch hmem (hfc ch hmem) g child' hcalc q' m' hq

/-- Every node of the result of `calculateControlPoints`, run on a freshly built tree,
is as `Node.calculated` says. -/
theorem Node.calculateControlPoints_calculated (first middle end_ : String) (n n' : Node α)
    (hfresh : n.isFresh) (h : n.calculateControlPoints first middle end_ = some n')
    (q : List Nat) (m' : Node α) (hq : n'.walk q = some m') : m'.calculated := by
  cases n with
  | mk g cs an ao c co =>
    rw [Node.isFresh_mk] at hfresh
    obtain ⟨_, _, _, hc0, _, hfc⟩ := hfresh
    subst hc0
    cases cs with
    | nil =>
      simp only [Node.calculateControlPoints] at h
      cases hv : rootEndControlPoint end_ g with
      | none => simp [hv] at h
      | some v =>
        cases ha : firstAnchor first g with
        | none => simp [hv, ha] at h
        | some a =>
          simp only [hv, ha, Option.some.injEq] at h
          subst h
          cases q with
          | nil =>
            simp only [Node.walk, Option.some.injEq] at hq
            subst hq
            exact ⟨fun hne => absurd rfl hne, fun _ => rfl, rfl, rfl⟩
          | cons i rest => simp [Node.walk, Node.children] at hq
    | cons child rest =>
      simp only [Node.calculateControlPoints] at h
      cases hr : calculateChildren g middle end_ (child :: rest) [] with
      | none => simp [hr] at h
      | some r =>
        obtain ⟨cs', c'⟩ := r
        cases ha : firstAnchor first g with
        | none => simp [hr, ha] at h
        | some a =>
          simp only [hr, ha, Option.some.injEq] at h
          subst h
          obtain ⟨hlen, hctl, hget⟩ := calculateChildren_eq_some g middle end_ _ _ cs' c' hr
          cases q with
          | nil =>
            simp only [Node.walk, Option.some.injEq] at hq
            subst hq
            refine ⟨fun _ => by simpa using hctl, fun hnil => ?_, rfl, rfl⟩
            simp only [Node.children] at hnil
            subst hnil
            simp at hlen
          | cons i q' =>
            simp only [Node.walk, Node.children] at hq
            cases hi : cs'[i]? with
            | none => simp [hi] at hq
            | some child' =>
              simp only [hi] at hq
              obtain ⟨ch, hch, hcalc⟩ := hget i child' hi
              have hmem : ch ∈ child :: rest := List.getElem?_mem hch
              exact Node.calculateControlPointsIn_calculated middle end_ ch (hfc ch hmem) g
                child' hcalc q' m' hq

/-- The call on the root does not abort when `first` is `left` or `centre`, `middle` is
`left` or `inter` and `end` is `right`, or `down` on a root that has children. -/
theorem Node.calculateControlPoints_isSome (first middle end_ : String) (n : Node α)
    (hfirst : first = "left" ∨ first = "centre") (hmiddle : middle = "left" ∨ middle = "inter")
    (hend : end_ = "right" ∨ (end_ = "down" ∧ n.children ≠ [])) :
    ∃ n', n.calculateControlPoints first middle end_ = some n' := by
  cases n with
  | mk g cs an ao c co =>
    obtain ⟨a, ha⟩ := firstAnchor_isSome first g hfirst
    cases cs with
    | nil =>
      rcases hend with rfl | ⟨_, hne⟩
      · exact ⟨Node.mk g [] a a (c ++ [g.getBoundingBox.right]) (c ++ [g.getBoundingBox.right]),
          by simp only [Node.calculateControlPoints, rootEndControlPoint, if_true, ha]⟩
      · exact absurd rfl hne
    | cons child rest =>
      have hend' : end_ = "right" ∨ end_ = "down" := by
        rcases hend with h | ⟨h, _⟩
        · exact Or.inl h
        · exact Or.inr h
      obtain ⟨r, hr⟩ := calculateChildren_isSome g middle end_ (child :: rest) c
        (fun ch _ => Node.calculateControlPointsIn_isSome middle end_ hmiddle hend' ch g)
      obtain ⟨cs', c'⟩ := r
      exact ⟨Node.mk g cs' a a c' c', by simp only [Node.calculateControlPoints, hr, ha]⟩

end Calculate

end bgq_opengl

/-! ## Claims on the reset and on the computation of the control points -/

namespace bgq_opengl

section CalculateClaims

variable {α : Type} [LinearOrderedField α]

end CalculateClaims

end bgq_opengl

/-! ## The bounding box after a reset -/

namespace bgq_opengl

section GeometryTree

variable {α : Type} [CommRing α]

theorem geometryTreeChildren_eq (f : Geometry α → Geometry α) (cs : List (Node α)) :
    geometryTreeChildren f cs = cs.map (Node.geometryTree f) := by
  induction cs with
  | nil => rfl
  | cons child rest ih => simp only [geometryTreeChildren, List.map_cons, ih]

theorem Node.geometryTree_mk (f : Geometry α → Geometry α) (g : Geometry α)
    (cs : List (Node α)) (an ao : Vec3 α) (c co : List (Vec3 α)) :
    (Node.mk g cs an ao c co).geometryTree f
      = Node.mk (f g) (cs.map (Node.geometryTree f)) ⟨0, 0, 0⟩ ⟨0, 0, 0⟩ [] [] := by
  rw [Node.geometryTree, geometryTreeChildren_eq]

/-- A list of results that have the geometry trees of the arguments has the geometry
trees of the list of arguments. -/
theorem allSome_geometryTree (f : Geometry α → Geometry α) (op : Node α → Option (Node α)) :
    ∀ (cs cs' : List (Node α)), allSome op cs = some cs' →
      (∀ child ∈ cs, ∀ child', op child = some child' →
        child'.geometryTree f = child.geometryTree f) →
      cs'.map (Node.geometryTree f) = cs.map (Node.geometryTree f) := by
  intro cs
  induction cs with
  | nil =>
    intro cs' h _
    simp only [allSome, Option.some.injEq] at h
    subst h
    rfl
  | cons child rest ih =>
    intro cs' h hop
    simp only [allSome] at h
    cases hc : op child with
    | none => simp [hc] at h
    | some child' =>
      cases hr : allSome op rest with
      | none => simp [hc, hr] at h
      | some rest' =>
        simp only [hc, hr, Option.some.injEq] at h
        subst h
        simp only [List.map_cons]
        rw [hop child (by simp) child' hc,
          ih rest' hr (fun ch hch => hop ch (by simp [hch]))]

/-- An unscoped operation that changes the geometries only in a way `f` does not see
leaves the geometry tree through `f` as it was. -/
theorem Node.visit_geometryTree (f : Geometry α → Geometry α) (u : NodeUpdate α)
    (hu : ∀ g, f (u.onGeometry g) = f g) (n : Node α) :
    ∀ n', n.visit u = some n' → n'.geometryTree f = n.geometryTree f := by
  induction n using Node.induction with
  | step g cs an ao c co ih =>
    intro n' h
    obtain ⟨cs', c', co', hcs, _, rfl⟩ := Node.visit_mk u g cs an ao c co n' h
    rw [Node.geometryTree_mk, Node.geometryTree_mk, hu,
      allSome_geometryTree f (Node.visit u) cs cs' hcs ih]

theorem Node.applyAt_geometryTree (f : Geometry α → Geometry α)
    (op : Node α → Option (Node α))
    (hop : ∀ m m', op m = some m' → m'.geometryTree f = m.geometryTree f) (p : List Nat) :
    ∀ n n' : Node α, n.applyAt op p = some n' → n'.geometryTree f = n.geometryTree f := by
  induction p with
  | nil => intro n n' h; exact hop n n' h
  | cons ind rest ih =>
    intro n n' h
    cases n with
    | mk g cs an ao c co =>
      simp only [Node.applyAt] at h
      cases hch : cs[ind]? with
      | none => simp [hch] at h
      | some child =>
        cases hr : Node.applyAt op rest child with
        | none => simp [hch, hr] at h
        | some child' =>
          simp only [hch, hr, Option.some.injEq] at h
          subst h
          rw [Node.geometryTree_mk, Node.geometryTree_mk]
          congr 1
          rw [List.map_set, ih child child' hr]
          apply List.ext_getElem?
          intro i
          by_cases hi : ind = i
          · subst hi
            have hlt : ind < (cs.map (Node.geometryTree f)).length := by
              rw [List.length_map]
              exact (List.getElem?_eq_some.mp hch).1
            rw [List.getElem?_set_self hlt, List.getElem?_map, hch]
            rfl
          · rw [List.getElem?_set_ne hi]

theorem Node.transformHere_geometryTree (anchor : Vec3 α) (M : Mat4 α) (m m' : Node α)
    (h : m.transformHere anchor M = some m') :
    m'.geometryTree Geometry.resetTransforms = m.geometryTree Geometry.resetTransforms := by
  cases m with
  | mk g cs an ao c co =>
    rw [Node.transformHere, transformAnchorChildren_eq] at h
    cases hcs : allSome (Node.transformAnchor anchor M) cs with
    | none => simp [hcs] at h
    | some cs' =>
      simp only [hcs, Option.some.injEq] at h
      subst h
      rw [Node.geometryTree_mk, Node.geometryTree_mk,
        allSome_geometryTree _ _ cs cs' hcs (fun ch _ ch' hch' => by
          rw [Node.transformAnchor_eq_visit] at hch'
          exact Node.visit_geometryTree _ _ (fun _ => rfl) ch ch' hch')]
      rfl

theorem Node.rotateHere_geometryTree (rot : Rotation α) (anchor : Vec3 α) (x y z angle : α)
    (m m' : Node α) (h : m.rotateHere rot anchor x y z angle = some m') :
    m'.geometryTree Geometry.resetTransforms = m.geometryTree Geometry.resetTransforms := by
  cases m with
  | mk g cs an ao c co =>
    rw [Node.rotateHere, rotateAnchorChildren_eq] at h
    cases hcs : allSome (Node.rotateAnchor rot anchor x y z angle) cs with
    | none => simp [hcs] at h
    | some cs' =>
      simp only [hcs, Option.some.injEq] at h
      subst h
      rw [Node.geometryTree_mk, Node.geometryTree_mk,
        allSome_geometryTree _ _ cs cs' hcs (fun ch _ ch' hch' => by
          rw [Node.rotateAnchor_eq_visit] at hch'
          exact Node.visit_geometryTree _ _ (fun _ => rfl) ch ch' hch')]
      rfl

/-- No call changes the vertices or the shape of the tree: the geometry tree with every
transform put back to the identity is the same after the call. -/
theorem Node.call_geometryTree (rot : Rotation α) (n n' : Node α) (op : NodeOp α)
    (h : n.call rot op = some n') :
    n'.geometryTree Geometry.resetTransforms = n.geometryTree Geometry.resetTransforms := by
  cases op with
  | rotate x y z angle =>
    simp only [Node.call, Node.rotate, Node.rotateAnchor_eq_visit] at h
    exact Node.visit_geometryTree _ _ (fun _ => rfl) n n' h
  | rotateInds inds x y z angle =>
    simp only [Node.call, Node.rotateInds, Node.rotateSelfHops_eq] at h
    exact Node.applyAt_geometryTree _ _
      (fun m m' hm => Node.rotateHere_geometryTree rot _ x y z angle m m' hm) _ n n' h
  | rotateAnchor anchor x y z angle =>
    simp only [Node.call, Node.rotateAnchor_eq_visit] at h
    exact Node.visit_geometryTree _ _ (fun _ => rfl) n n' h
  | rotateIndsAnchor inds anchor x y z angle =>
    simp only [Node.call, Node.rotateIndsAnchor, Node.rotateHops_eq] at h
    exact Node.applyAt_geometryTree _ _
      (fun m m' hm => Node.rotateHere_geometryTree rot _ x y z angle m m' hm) _ n n' h
  | scale x y z =>
    simp only [Node.call, Node.scale_eq_visit] at h
    exact Node.visit_geometryTree _ _ (fun _ => rfl) n n' h
  | translate x y z =>
    simp only [Node.call, Node.translate_eq_visit] at h
    exact Node.visit_geometryTree _ _ (fun _ => rfl) n n' h
  | transform matrix =>
    simp only [Node.call, Node.transform, Node.transformAnchor_eq_visit] at h
    exact Node.visit_geometryTree _ _ (fun _ => rfl) n n' h
  | transformInds inds matrix =>
    simp only [Node.call, Node.transformInds, Node.transformSelfHops_eq] at h
    exact Node.applyAt_geometryTree _ _
      (fun m m' hm => Node.transformHere_geometryTree _ matrix m m' hm) _ n n' h
  | transformAnchor anchor matrix =>
    simp only [Node.call, Node.transformAnchor_eq_visit] at h
    exact Node.visit_geometryTree _ _ (fun _ => rfl) n n' h
  | transformIndsAnchor inds anchor matrix =>
    simp only [Node.call, Node.transformIndsAnchor, Node.transformHops_eq] at h
    exact Node.applyAt_geometryTree _ _
      (fun m m' hm => Node.transformHere_geometryTree _ matrix m m' hm) _ n n' h

theorem Node.callAll_geometryTree (rot : Rotation α) (ops : List (NodeOp α)) :
    ∀ n n' : Node α, n.callAll rot ops = some n' →
      n'.geometryTree Geometry.resetTransforms = n.geometryTree Geometry.resetTransforms := by
  induction ops with
  | nil =>
    intro n n' h
    simp only [Node.callAll, Option.some.injEq] at h
    rw [h]
  | cons op ops ih =>
    intro n n' h
    simp only [Node.callAll] at h
    cases hc : n.call rot op with
    | none => simp [hc] at h
    | some n1 =>
      simp only [hc] at h
      rw [ih n1 n' h, Node.call_geometryTree rot n n1 op hc]

theorem Node.resetTransforms_geometryTree (n : Node α) :
    n.resetTransforms.geometryTree id = n.geometryTree Geometry.resetTransforms := by
  induction n using Node.induction with
  | step g cs an ao c co ih =>
    rw [Node.resetTransforms, resetTransformsChildren_eq, Node.geometryTree_mk,
      Node.geometryTree_mk, List.map_map]
    congr 1
    apply List.map_congr_left
    intro child hchild
    exact ih child hchild

theorem Node.resetTransforms_idempotent (n : Node α) :
    n.resetTransforms.resetTransforms = n.resetTransforms := by
  induction n using Node.induction with
  | step g cs an ao c co ih =>
    simp only [Node.resetTransforms, resetTransformsChildren_eq, List.map_map]
    congr 1
    apply List.map_congr_left
    intro child hchild
    exact ih child hchild

theorem Node.isFresh_geometryTree (n : Node α) :
    n.isFresh → n.geometryTree id = n.geometryTree Geometry.resetTransforms := by
  induction n using Node.induction with
  | step g cs an ao c co ih =>
    intro hfresh
    rw [Node.isFresh, freshChildren_iff] at hfresh
    obtain ⟨hg, _, _, _, _, hfc⟩ := hfresh
    rw [Node.geometryTree_mk, Node.geometryTree_mk]
    have hgeo : id g = g.resetTransforms := by
      cases g with
      | mk vertices transforms =>
        simp only [Geometry.resetTransforms, id]
        rw [show transforms = Mat4.identity from hg]
    rw [hgeo]
    congr 1
    apply List.map_congr_left
    intro child hchild
    exact ih child hchild (hfc child hchild)

end GeometryTree

end bgq_opengl

namespace bgq_opengl

section BoundingBoxes

variable {α : Type} [LinearOrderedField α]

theorem widenByChildren_congr :
    ∀ (cs cs' : List (Node α)) (bb : BoundingBox α),
      cs.map Node.getBoundingBox = cs'.map Node.getBoundingBox →
      widenByChildren bb cs = widenByChildren bb cs' := by
  intro cs
  induction cs with
  | nil =>
    intro cs' bb h
    cases cs' with
    | nil => rfl
    | cons c' rest' => simp at h
  | cons child rest ih =>
    intro cs' bb h
    cases cs' with
    | nil => simp at h
    | cons c' rest' =>
      simp only [List.map_cons, List.cons.injEq] at h
      simp only [widenByChildren, h.1]
      exact ih rest' _ h.2

theorem Node.getBoundingBox_mk (g : Geometry α) (cs : List (Node α)) (an ao : Vec3 α)
    (c co : List (Vec3 α)) :
    (Node.mk g cs an ao c co).getBoundingBox = widenByChildren g.getBoundingBox cs.tail := by
  cases cs with
  | nil => simp [Node.getBoundingBox, widenByChildren]
  | cons child rest => simp [Node.getBoundingBox]

/-- The bounding box of a node depends on its geometries and on the shape of the tree
only. -/
theorem Node.getBoundingBox_geometryTree (n : Node α) :
    (n.geometryTree id).getBoundingBox = n.getBoundingBox := by
  induction n using Node.induction with
  | step g cs an ao c co ih =>
    rw [Node.geometryTree_mk, Node.getBoundingBox_mk, Node.getBoundingBox_mk]
    apply widenByChildren_congr
    rw [← List.map_tail, List.map_map]
    apply List.map_congr_left
    intro child hchild
    exact ih child (List.mem_of_mem_tail hchild)

theorem calculateChildren_geometryTree (f : Geometry α → Geometry α) (geometry : Geometry α)
    (middle end_ : String) :
    ∀ (cs : List (Node α)) (control : List (Vec3 α)) (cs' : List (Node α))
      (control' : List (Vec3 α)),
      calculateChildren geometry middle end_ cs control = some (cs', control') →
      (∀ child ∈ cs, ∀ child', child.calculateControlPointsIn geometry middle end_ = some child' →
        child'.geometryTree f = child.geometryTree f) →
      cs'.map (Node.geometryTree f) = cs.map (Node.geometryTree f) := by
  intro cs
  induction cs with
  | nil =>
    intro control cs' control' h _
    simp only [calculateChildren, Option.some.injEq, Prod.mk.injEq] at h
    rw [← h.1]
  | cons child rest ih =>
    intro control cs' control' h hop
    rw [calculateChildren] at h
    cases hc : child.calculateControlPointsIn geometry middle end_ with
    | none => simp [hc] at h
    | some child1 =>
      cases hr : calculateChildren geometry middle end_ rest (control ++ [child1.getAnchor]) with
      | none => simp [hc, hr] at h
      | some r =>
        obtain ⟨rest1, control1⟩ := r
        simp only [hc, hr, Option.some.injEq, Prod.mk.injEq] at h
        obtain ⟨rfl, rfl⟩ := h
        simp only [List.map_cons]
        rw [hop child (by simp) child1 hc,
          ih _ rest1 control1 hr (fun ch hch => hop ch (by simp [hch]))]

theorem Node.calculateControlPointsIn_geometryTree (f : Geometry α → Geometry α)
    (middle end_ : String) (n : Node α) :
    ∀ (parentGeom : Geometry α) (n' : Node α),
      n.calculateControlPointsIn parentGeom middle end_ = some n' →
      n'.geometryTree f = n.geometryTree f := by
  induction n using Node.induction with
  | step g cs an ao c co ih =>
    intro parentGeom n' h
    cases cs with
    | nil =>
      simp only [Node.calculateControlPointsIn] at h
      cases hv : endControlPoint end_ g with
      | none => simp [hv] at h
      | some v =>
        cases ha : middleAnchor middle parentGeom g with
        | none => simp [hv, ha] at h
        | some a =>
          simp only [hv, ha, Option.some.injEq] at h
          subst h
          rw [Node.geometryTree_mk, Node.geometryTree_mk]
    | cons child rest =>
      simp only [Node.calculateControlPointsIn] at h
      cases hr : calculateChildren g middle end_ (child :: rest) c with
      | none => simp [hr] at h
      | some r =>
        obtain ⟨cs', c'⟩ := r
        cases ha : middleAnchor middle parentGeom g with
        | none => simp [hr, ha] at h
        | some a =>
          simp only [hr, ha, Option.some.injEq] at h
          subst h
          rw [Node.geometryTree_mk, Node.geometryTree_mk,
            calculateChildren_geometryTree f g middle end_ _ _ cs' c' hr
              (fun ch hch ch' hch' => ih ch hch g ch' hch')]

/-- The computation of the control points leaves every geometry as it was. -/
theorem Node.calculateControlPoints_geometryTree (f : Geometry α → Geometry α)
    (first middle end_ : String) (n n' : Node α)
    (h : n.calculateControlPoints first middle end_ = some n') :
    n'.geometryTree f = n.geometryTree f := by
  cases n with
  | mk g cs an ao c co =>
    cases cs with
    | nil =>
      simp only [Node.calculateControlPoints] at h
      cases hv : rootEndControlPoint end_ g with
      | none => simp [hv] at h
      | some v =>
        cases ha : firstAnchor first g with
        | none => simp [hv, ha] at h
        | some a =>
          simp only [hv, ha, Option.some.injEq] at h
          subst h
          rw [Node.geometryTree_mk, Node.geometryTree_mk]
    | cons child rest =>
      simp only [Node.calculateControlPoints] at h
      cases hr : calculateChildren g middle end_ (child :: rest) c with
      | none => simp [hr] at h
      | some r =>
        obtain ⟨cs', c'⟩ := r
        cases ha : firstAnchor first g with
        | none => simp [hr, ha] at h
        | some a =>
          simp only [hr, ha, Option.some.injEq] at h
          subst h
          rw [Node.geometryTree_mk, Node.geometryTree_mk,
            calculateChildren_geometryTree f g middle end_ _ _ cs' c' hr
              (fun ch _ ch' hch' =>
                Node.calculateControlPointsIn_geometryTree f middle end_ ch g ch' hch')]

/-- C12: take a freshly built tree, run `calculateControlPoints` on it (state `built`),
then any sequence of rotate, translate, scale and transform calls, scoped or unscoped
(state `posed`): `resetTransforms` followed by `getBoundingBox` on `posed` returns the box
`getBoundingBox` returned on `built`, and a second `resetTransforms` does not change
that box. -/
theorem resetTransforms_restores_bounding_box (rot : Rotation α) (raw built posed : Node α)
    (first middle end_ : String) (ops : List (NodeOp α)) (hfresh : raw.isFresh)
    (hbuilt : raw.calculateControlPoints first middle end_ = some built)
    (hposed : built.callAll rot ops = some posed) :
    posed.resetTransforms.getBoundingBox = built.getBoundingBox ∧
      posed.resetTransforms.resetTransforms.getBoundingBox = built.getBoundingBox := by
  have hbuiltTree : built.geometryTree id = built.geometryTree Geometry.resetTransforms := by
    rw [Node.calculateControlPoints_geometryTree id first middle end_ raw built hbuilt,
      Node.calculateControlPoints_geometryTree Geometry.resetTransforms first middle end_ raw
        built hbuilt]
    exact Node.isFresh_geometryTree raw hfresh
  have hposedTree := Node.callAll_geometryTree rot ops built posed hposed
  have h1 : posed.resetTransforms.geometryTree id = built.geometryTree id := by
    rw [Node.resetTransforms_geometryTree, hposedTree, hbuiltTree]
  have h2 : posed.resetTransforms.getBoundingBox = built.getBoundingBox := by
    rw [← Node.getBoundingBox_geometryTree, h1, Node.getBoundingBox_geometryTree]
  exact ⟨h2, by rw [Node.resetTransforms_idempotent, h2]⟩

end BoundingBoxes

end bgq_opengl

namespace bgq_opengl

theorem resetTransforms_restores_bounding_box_witness :
    rawChain.isFresh ∧
    rawChain.calculateControlPoints "left" "inter" "right" = some builtChain ∧
    builtChain.callAll halfTurn poseCalls = some posedChain ∧
    (posedChain.resetTransforms.getBoundingBox = builtChain.getBoundingBox ∧
      posedChain.resetTransforms.resetTransforms.getBoundingBox = builtChain.getBoundingBox) :=
  ⟨by simp [rawChain, Node.new, Node.isFresh, freshChildren], by with_unfolding_all rfl, rfl,
    resetTransforms_restores_bounding_box halfTurn rawChain builtChain posedChain
      "left" "inter" "right" poseCalls
      (by simp [rawChain, Node.new, Node.isFresh, freshChildren])
      (by with_unfolding_all rfl) rfl⟩

end bgq_opengl


/-! ## Algebra of the matrices -/

namespace bgq_opengl

section MatrixAlgebra

variable {α : Type} [CommRing α]

theorem Mat4.mul_assoc (a b c : Mat4 α) : (a.mul b).mul c = a.mul (b.mul c) := by
  simp only [Mat4.mul, Mat4.rowMul, Vec4.dot, Mat4.c0, Mat4.c1, Mat4.c2, Mat4.c3,
    Mat4.mk.injEq, Vec4.mk.injEq]
  refine ⟨⟨?_, ?_, ?_, ?_⟩, ⟨?_, ?_, ?_, ?_⟩, ⟨?_, ?_, ?_, ?_⟩, ⟨?_, ?_, ?_, ?_⟩⟩ <;> ring

theorem Mat4.identity_mul (a : Mat4 α) : Mat4.identity.mul a = a := by
  cases a with
  | mk r0 r1 r2 r3 =>
    cases r0; cases r1; cases r2; cases r3
    simp only [Mat4.mul, Mat4.rowMul, Vec4.dot, Mat4.c0, Mat4.c1, Mat4.c2, Mat4.c3,
      Mat4.identity, Mat4.mk.injEq, Vec4.mk.injEq]
    refine ⟨⟨?_, ?_, ?_, ?_⟩, ⟨?_, ?_, ?_, ?_⟩, ⟨?_, ?_, ?_, ?_⟩, ⟨?_, ?_, ?_, ?_⟩⟩ <;> ring

theorem Mat4.mul_identity (a : Mat4 α) : a.mul Mat4.identity = a := by
  cases a with
  | mk r0 r1 r2 r3 =>
    cases r0; cases r1; cases r2; cases r3
    simp only [Mat4.mul, Mat4.rowMul, Vec4.dot, Mat4.c0, Mat4.c1, Mat4.c2, Mat4.c3,
      Mat4.identity, Mat4.mk.injEq, Vec4.mk.injEq]
    refine ⟨⟨?_, ?_, ?_, ?_⟩, ⟨?_, ?_, ?_, ?_⟩, ⟨?_, ?_, ?_, ?_⟩, ⟨?_, ?_, ?_, ?_⟩⟩ <;> ring

theorem Mat4.applyPoint_identity (p : Vec3 α) : Mat4.identity.applyPoint p = p := by
  cases p
  simp only [Mat4.applyPoint, Mat4.mulVec, Vec4.dot, Vec4.ofPoint, Vec4.xyz, Mat4.identity,
    Vec3.mk.injEq]
  refine ⟨?_, ?_, ?_⟩ <;> ring

/-- The last row of a product whose left factor is affine is the last row of the right
factor. -/
theorem Mat4.mul_r3 (a b : Mat4 α) (ha : a.r3 = ⟨0, 0, 0, 1⟩) : (a.mul b).r3 = b.r3 := by
  cases b with
  | mk r0 r1 r2 r3 =>
    cases r0; cases r1; cases r2; cases r3
    simp only [Mat4.mul, Mat4.rowMul, Vec4.dot, Mat4.c0, Mat4.c1, Mat4.c2, Mat4.c3, ha,
      Vec4.mk.injEq]
    refine ⟨?_, ?_, ?_, ?_⟩ <;> ring

/-- Applying a product to a point is applying the factors one after the other, when the
right factor is affine (its last row is `0 0 0 1`). -/
theorem Mat4.applyPoint_mul (a b : Mat4 α) (hb : b.r3 = ⟨0, 0, 0, 1⟩) (p : Vec3 α) :
    (a.mul b).applyPoint p = a.applyPoint (b.applyPoint p) := by
  cases b with
  | mk r0 r1 r2 r3 =>
    simp only at hb
    subst hb
    simp only [Mat4.applyPoint, Mat4.mulVec, Mat4.mul, Mat4.rowMul, Vec4.dot, Mat4.c0,
      Mat4.c1, Mat4.c2, Mat4.c3, Vec4.ofPoint, Vec4.xyz, Vec3.mk.injEq]
    refine ⟨?_, ?_, ?_⟩ <;> ring

theorem Mat4.translation_neg_mul (a : Vec3 α) :
    (Mat4.translation a.neg).mul (Mat4.translation a) = Mat4.identity := by
  simp only [Mat4.mul, Mat4.rowMul, Vec4.dot, Mat4.c0, Mat4.c1, Mat4.c2, Mat4.c3,
    Mat4.translation, Mat4.identity, Vec3.neg, Mat4.mk.injEq, Vec4.mk.injEq]
  refine ⟨⟨?_, ?_, ?_, ?_⟩, ⟨?_, ?_, ?_, ?_⟩, ⟨?_, ?_, ?_, ?_⟩, ⟨?_, ?_, ?_, ?_⟩⟩ <;> ring

theorem Mat4.translation_mul_neg (a : Vec3 α) :
    (Mat4.translation a).mul (Mat4.translation a.neg) = Mat4.identity := by
  simp only [Mat4.mul, Mat4.rowMul, Vec4.dot, Mat4.c0, Mat4.c1, Mat4.c2, Mat4.c3,
    Mat4.translation, Mat4.identity, Vec3.neg, Mat4.mk.injEq, Vec4.mk.injEq]
  refine ⟨⟨?_, ?_, ?_, ?_⟩, ⟨?_, ?_, ?_, ?_⟩, ⟨?_, ?_, ?_, ?_⟩, ⟨?_, ?_, ?_, ?_⟩⟩ <;> ring

theorem Mat4.aboutPoint_eq (a : Vec3 α) (r : Mat4 α) :
    Mat4.aboutPoint a r = (Mat4.translation a).mul (r.mul (Mat4.translation a.neg)) := by
  rw [Mat4.aboutPoint, Mat4.identity_mul, Mat4.mul_assoc]

/-- The pivot matrix of an affine matrix is affine. -/
theorem Mat4.aboutPoint_r3 (a : Vec3 α) (r : Mat4 α) (hr : r.r3 = ⟨0, 0, 0, 1⟩) :
    (Mat4.aboutPoint a r).r3 = ⟨0, 0, 0, 1⟩ := by
  rw [Mat4.aboutPoint_eq, Mat4.mul_r3 _ _ rfl, Mat4.mul_r3 _ _ hr]
  rfl

/-- The pivot matrices of two matrices that are inverse of each other are inverse of each
other. -/
theorem Mat4.aboutPoint_mul_inverse (a : Vec3 α) (r r' : Mat4 α)
    (h : r'.mul r = Mat4.identity) :
    (Mat4.aboutPoint a r').mul (Mat4.aboutPoint a r) = Mat4.identity := by
  rw [Mat4.aboutPoint_eq, Mat4.aboutPoint_eq, Mat4.mul_assoc, Mat4.mul_assoc,
    ← Mat4.mul_assoc (Mat4.translation a.neg), Mat4.translation_neg_mul, Mat4.identity_mul,
    ← Mat4.mul_assoc r', h, Mat4.identity_mul, Mat4.translation_mul_neg]

/-- Undoing a pivot matrix: when `r'` is the inverse of the affine matrix `r`, the pivot
matrix of `r'` takes every point moved by the pivot matrix of `r` back to where it
was. -/
theorem Mat4.aboutPoint_undo (a : Vec3 α) (r r' : Mat4 α) (hr : r.r3 = ⟨0, 0, 0, 1⟩)
    (h : r'.mul r = Mat4.identity) (p : Vec3 α) :
    (Mat4.aboutPoint a r').applyPoint ((Mat4.aboutPoint a r).applyPoint p) = p := by
  rw [← Mat4.applyPoint_mul _ _ (Mat4.aboutPoint_r3 a r hr), Mat4.aboutPoint_mul_inverse a r r' h,
    Mat4.applyPoint_identity]

/-- The rotation matrices of the library about the `z` axis, for the cosine `c` and the
sines `s` and `-s` of an angle and of its opposite, are affine and inverse of each
other. -/
theorem Mat4.axisAngle_z_inverse (c s : α) (h : c * c + s * s = 1) :
    (Mat4.axisAngle c s ⟨0, 0, 1⟩).r3 = ⟨0, 0, 0, 1⟩ ∧
      (Mat4.axisAngle c (-s) ⟨0, 0, 1⟩).mul (Mat4.axisAngle c s ⟨0, 0, 1⟩) = Mat4.identity := by
  refine ⟨rfl, ?_⟩
  simp only [Mat4.mul, Mat4.rowMul, Vec4.dot, Mat4.c0, Mat4.c1, Mat4.c2, Mat4.c3,
    Mat4.axisAngle, Mat4.identity, Mat4.mk.injEq, Vec4.mk.injEq]
  refine ⟨⟨?_, ?_, ?_, ?_⟩, ⟨?_, ?_, ?_, ?_⟩, ⟨?_, ?_, ?_, ?_⟩, ⟨?_, ?_, ?_, ?_⟩⟩ <;>
    first
      | ring1
      | linear_combination h

end MatrixAlgebra

end bgq_opengl

/-! ## Shape of the tree under the operations -/

namespace bgq_opengl

section ShapeBasic

variable {α : Type}

theorem updateControls_length (f : Vec3 α → Vec3 α) (c co c' co' : List (Vec3 α))
    (h : updateControls f c co = some (c', co')) :
    c'.length = c.length ∧ co'.length = co.length := by
  obtain ⟨h1, h2⟩ := updateControls_eq_some f c co c' co' h
  subst h1 h2
  refine ⟨List.length_map _ _, ?_⟩
  rw [List.length_append, List.length_map, ← List.length_append, List.take_append_drop]

theorem allSome_mem {β γ : Type} (f : β → Option γ) (bs : List β) (cs : List γ)
    (h : allSome f bs = some cs) (c : γ) (hc : c ∈ cs) : ∃ b ∈ bs, f b = some c := by
  obtain ⟨hlen, hget⟩ := allSome_eq_some f bs cs h
  obtain ⟨i, hi⟩ := List.getElem?_of_mem hc
  have hlt : i < bs.length := by
    rw [← hlen]
    exact (List.getElem?_eq_some.mp hi).1
  obtain ⟨c0, hc0, hf⟩ := hget i bs[i] (List.getElem?_eq_getElem hlt)
  rw [hi] at hc0
  exact ⟨bs[i], List.getElem_mem hlt, by rw [hf, Option.some.inj hc0]⟩

/-- A path-scoped operation keeps a well-formed tree well formed when the operation it
lands does. -/
theorem Node.applyAt_wellFormed (op : Node α → Option (Node α))
    (hop : ∀ m m', op m = some m' → m.wellFormed = true → m'.wellFormed = true)
    (p : List Nat) :
    ∀ n n' : Node α, n.applyAt op p = some n' → n.wellFormed = true →
      n'.wellFormed = true := by
  induction p with
  | nil => intro n n' h hwf; exact hop n n' h hwf
  | cons ind rest ih =>
    intro n n' h hwf
    cases n with
    | mk g cs an ao c co =>
      simp only [Node.applyAt] at h
      cases hch : cs[ind]? with
      | none => simp [hch] at h
      | some child =>
        cases hr : Node.applyAt op rest child with
        | none => simp [hch, hr] at h
        | some child' =>
          simp only [hch, hr, Option.some.injEq] at h
          subst h
          rw [Node.wellFormed_mk] at hwf ⊢
          refine ⟨hwf.1, ?_⟩
          intro ch hmem
          rcases List.mem_or_eq_of_mem_set hmem with hin | heq
          · exact hwf.2 ch hin
          · rw [heq]
            exact ih child child' hr (hwf.2 child (List.getElem?_mem hch))

theorem Node.walk_append_list (l1 l2 : List Nat) :
    ∀ n : Node α, n.walk (l1 ++ l2) = (n.walk l1).bind (fun m => m.walk l2) := by
  induction l1 with
  | nil => intro n; rfl
  | cons j rest ih =>
    intro n
    simp only [List.cons_append, Node.walk]
    cases n.children[j]? with
    | none => rfl
    | some child => exact ih child

/-- An unscoped operation keeps a well-formed tree well formed. -/
theorem Node.visit_wellFormed (u : NodeUpdate α) (n : Node α) :
    ∀ n', n.visit u = some n' → n.wellFormed = true → n'.wellFormed = true := by
  induction n using Node.induction with
  | step g cs an ao c co ih =>
    intro n' h hwf
    obtain ⟨cs', c', co', hcs, hr, rfl⟩ := Node.visit_mk u g cs an ao c co n' h
    rw [Node.wellFormed_mk] at hwf ⊢
    obtain ⟨hl1, hl2⟩ := updateControls_length _ c co c' co' hr
    refine ⟨by rw [hl1, hl2, hwf.1], ?_⟩
    intro child' hchild'
    obtain ⟨child, hchild, hv⟩ := allSome_mem _ cs cs' hcs child' hchild'
    exact ih child hchild child' hv (hwf.2 child hchild)

end ShapeBasic

section Shape

variable {α : Type} [CommRing α]

theorem Node.transformHere_wellFormed (anchor : Vec3 α) (M : Mat4 α) (m m' : Node α)
    (h : m.transformHere anchor M = some m') (hwf : m.wellFormed = true) :
    m'.wellFormed = true := by
  cases m with
  | mk g cs an ao c co =>
    rw [Node.transformHere, transformAnchorChildren_eq] at h
    cases hcs : allSome (Node.transformAnchor anchor M) cs with
    | none => simp [hcs] at h
    | some cs' =>
      simp only [hcs, Option.some.injEq] at h
      subst h
      rw [Node.wellFormed_mk] at hwf ⊢
      refine ⟨by rw [List.length_map, hwf.1], ?_⟩
      intro child' hchild'
      obtain ⟨child, hchild, hv⟩ := allSome_mem _ cs cs' hcs child' hchild'
      rw [Node.transformAnchor_eq_visit] at hv
      exact Node.visit_wellFormed _ child child' hv (hwf.2 child hchild)

theorem Node.rotateHere_wellFormed (rot : Rotation α) (anchor : Vec3 α) (x y z angle : α)
    (m m' : Node α) (h : m.rotateHere rot anchor x y z angle = some m')
    (hwf : m.wellFormed = true) : m'.wellFormed = true := by
  cases m with
  | mk g cs an ao c co =>
    rw [Node.rotateHere, rotateAnchorChildren_eq] at h
    cases hcs : allSome (Node.rotateAnchor rot anchor x y z angle) cs with
    | none => simp [hcs] at h
    | some cs' =>
      simp only [hcs, Option.some.injEq] at h
      subst h
      rw [Node.wellFormed_mk] at hwf ⊢
      refine ⟨by rw [List.length_map, hwf.1], ?_⟩
      intro child' hchild'
      obtain ⟨child, hchild, hv⟩ := allSome_mem _ cs cs' hcs child' hchild'
      rw [Node.rotateAnchor_eq_visit] at hv
      exact Node.visit_wellFormed _ child child' hv (hwf.2 child hchild)

/-- The anchors and the control points in the subtree of a node on which the body of the
path-scoped rotate has run: all of them have received the matrix of the points. -/
theorem Node.rotateHere_walk (rot : Rotation α) (anchor : Vec3 α) (x y z angle : α)
    (n n' : Node α) (h : n.rotateHere rot anchor x y z angle = some n') (q : List Nat)
    (m : Node α) (hq : n.walk q = some m) :
    ∃ m', n'.walk q = some m' ∧
      m'.anchor = (rotatePointsMat rot anchor angle).applyPoint m.anchor ∧
      m'.control = m.control.map (rotatePointsMat rot anchor angle).applyPoint := by
  cases n with
  | mk g cs an ao c co =>
    rw [Node.rotateHere, rotateAnchorChildren_eq] at h
    cases hcs : allSome (Node.rotateAnchor rot anchor x y z angle) cs with
    | none => simp [hcs] at h
    | some cs' =>
      simp only [hcs, Option.some.injEq] at h
      subst h
      cases q with
      | nil =>
        simp only [Node.walk, Option.some.injEq] at hq
        subst hq
        exact ⟨_, rfl, rfl, rfl⟩
      | cons ind rest =>
        simp only [Node.walk, Node.children] at hq ⊢
        cases hch : cs[ind]? with
        | none => simp [hch] at hq
        | some child =>
          simp only [hch] at hq
          obtain ⟨child', hch', hv⟩ := (allSome_eq_some _ cs cs' hcs).2 ind child hch
          rw [Node.rotateAnchor_eq_visit] at hv
          obtain ⟨m', hm', hvm⟩ := Node.visit_walk _ rest child child' m hv hq
          obtain ⟨_, ha, _, hc, _⟩ := Node.visit_members _ m m' hvm
          simp only [hch']
          exact ⟨m', hm', ha, hc⟩

end Shape

end bgq_opengl

namespace bgq_opengl

section RoundTrip

variable {α : Type} [CommRing α]

/-- C15: on a well-formed tree and a valid path `p`, with a rotation table whose matrix
about `(0, 0, 1)` (the axis the points are rotated about) for `angle` is affine and has
the matrix for `-angle` as inverse, `rotate(p, a, x, y, z, angle)` followed by
`rotate(p, a, x, y, z, -angle)` returns and restores the anchor and every control point
of every node of the tree, those of the addressed subtree included, to their values
before the first call. -/
theorem rotate_round_trip (rot : Rotation α) (root target : Node α) (p : List Nat)
    (a : Vec3 α) (x y z angle : α) (hwf : root.wellFormed = true)
    (hp : root.descend p = some target)
    (haffine : (rot ⟨0, 0, 1⟩ angle).r3 = ⟨0, 0, 0, 1⟩)
    (hinverse : (rot ⟨0, 0, 1⟩ (-angle)).mul (rot ⟨0, 0, 1⟩ angle) = Mat4.identity) :
    ∃ r1 r2, root.rotateIndsAnchor rot p a x y z angle = some r1 ∧
      r1.rotateIndsAnchor rot p a x y z (-angle) = some r2 ∧
      ∀ (q : List Nat) (m : Node α), root.descend q = some m →
        ∃ m2, r2.descend q = some m2 ∧ m2.anchor = m.anchor ∧ m2.control = m.control := by
  have htwf : target.wellFormed = true := Node.wellFormed_walk p.reverse root target hwf hp
  -- the first call
  obtain ⟨t1, ht1⟩ := Node.rotateHere_isSome rot a x y z angle target htwf
  obtain ⟨r1, hr1⟩ := Node.applyAt_isSome (Node.rotateHere rot a x y z angle) p.reverse root
    target t1 hp ht1
  obtain ⟨t1', hp1, ht1'⟩ := Node.applyAt_target _ p.reverse root r1 target hr1 hp
  have ht1eq : t1' = t1 := by
    rw [ht1] at ht1'
    exact (Option.some.inj ht1').symm
  subst ht1eq
  have hwf1 : r1.wellFormed = true :=
    Node.applyAt_wellFormed _ (fun m m' h hm => Node.rotateHere_wellFormed rot a x y z angle m m' h hm)
      p.reverse root r1 hr1 hwf
  have ht1wf : t1'.wellFormed = true := Node.wellFormed_walk p.reverse r1 t1' hwf1 hp1
  -- the second call
  obtain ⟨t2, ht2⟩ := Node.rotateHere_isSome rot a x y z (-angle) t1' ht1wf
  obtain ⟨r2, hr2⟩ := Node.applyAt_isSome (Node.rotateHere rot a x y z (-angle)) p.reverse r1
    t1' t2 hp1 ht2
  obtain ⟨t2', hp2, ht2'⟩ := Node.applyAt_target _ p.reverse r1 r2 t1' hr2 hp1
  have ht2eq : t2' = t2 := by
    rw [ht2] at ht2'
    exact (Option.some.inj ht2').symm
  subst ht2eq
  refine ⟨r1, r2, by rw [Node.rotateIndsAnchor, Node.rotateHops_eq, hr1],
    by rw [Node.rotateIndsAnchor, Node.rotateHops_eq, hr2], ?_⟩
  intro q m hq
  by_cases hsub : p <:+ q
  · -- a node of the addressed subtree
    obtain ⟨t, rfl⟩ := hsub
    have hp' : root.walk p.reverse = some target := hp
    rw [Node.descend, List.reverse_append, Node.walk_append_list, hp', Option.some_bind] at hq
    obtain ⟨m1, hm1, ha1, hc1⟩ := Node.rotateHere_walk rot a x y z angle target t1' ht1
      t.reverse m hq
    obtain ⟨m2, hm2, ha2, hc2⟩ := Node.rotateHere_walk rot a x y z (-angle) t1' t2' ht2
      t.reverse m1 hm1
    refine ⟨m2, ?_, ?_, ?_⟩
    · rw [Node.descend, List.reverse_append, Node.walk_append_list, hp2, Option.some_bind]
      exact hm2
    · rw [ha2, ha1]
      exact Mat4.aboutPoint_undo a _ _ haffine hinverse m.anchor
    · rw [hc2, hc1, List.map_map]
      conv_rhs => rw [← List.map_id m.control]
      apply List.map_congr_left
      intro v _
      exact Mat4.aboutPoint_undo a _ _ haffine hinverse v
  · -- a node outside of it
    have hnot : ¬ p.reverse <+: q.reverse := fun hpre => hsub ( List.reverse_prefix.mp hpre)
    obtain ⟨m1, hm1, hs1⟩ := Node.applyAt_frame _ p.reverse root r1 q.reverse m hr1 hq hnot
    obtain ⟨m2, hm2, hs2⟩ := Node.applyAt_frame _ p.reverse r1 r2 q.reverse m1 hr2 hm1 hnot
    refine ⟨m2, hm2, ?_, ?_⟩
    · rw [hs2.2.1, hs1.2.1]
    · rw [hs2.2.2.2.1, hs1.2.2.2.1]

end RoundTrip

theorem rotate_round_trip_witness :
    fork.wellFormed = true ∧ fork.descend [0] = some mid ∧
    (halfTurn (⟨0, 0, 1⟩ : Vec3 ℤ) 180).r3 = ⟨0, 0, 0, 1⟩ ∧
    (halfTurn (⟨0, 0, 1⟩ : Vec3 ℤ) (-180)).mul (halfTurn ⟨0, 0, 1⟩ 180) = Mat4.identity ∧
    ∃ r1 r2, fork.rotateIndsAnchor halfTurn [0] (pt 1 0 0) 0 1 0 180 = some r1 ∧
      r1.rotateIndsAnchor halfTurn [0] (pt 1 0 0) 0 1 0 (-180) = some r2 ∧
      ∀ (q : List Nat) (m : Node ℤ), fork.descend q = some m →
        ∃ m2, r2.descend q = some m2 ∧ m2.anchor = m.anchor ∧ m2.control = m.control :=
  ⟨by decide, rfl, by decide, by decide,
    rotate_round_trip halfTurn fork mid [0] (pt 1 0 0) 0 1 0 180 (by decide) rfl
      (by decide) (by decide)⟩

end bgq_opengl


/-! ## Control points after an operation, and the algebra of the kinematic steps -/

namespace bgq_opengl

section Images

variable {α : Type}

theorem childControlPoints_allSome (op : Node α → Option (Node α))
    (F : ControlPoint α → ControlPoint α)
    (hF : ∀ i q, F (ControlPoint.pushIndex i q) = ControlPoint.pushIndex i (F q)) :
    ∀ (cs cs' : List (Node α)) (i : Nat), allSome op cs = some cs' →
      (∀ ch ∈ cs, ∀ ch', op ch = some ch' → ch'.getControlPoints = ch.getControlPoints.map F) →
      childControlPoints i cs' = (childControlPoints i cs).map F := by
  intro cs
  induction cs with
  | nil =>
    intro cs' i h _
    simp only [allSome, Option.some.injEq] at h
    subst h
    simp [childControlPoints]
  | cons ch rest ih =>
    intro cs' i h hop
    rw [allSome] at h
    cases hch : op ch with
    | none => simp [hch] at h
    | some ch' =>
      cases hrest : allSome op rest with
      | none => simp [hch, hrest] at h
      | some rest' =>
        simp only [hch, hrest, Option.some.injEq] at h
        subst h
        rw [childControlPoints, childControlPoints, List.map_append,
          ih rest' (i + 1) hrest (fun c hc => hop c (List.mem_cons_of_mem _ hc)),
          hop ch (List.mem_cons_self _ _) ch' hch, List.map_map, List.map_map]
        congr 1
        apply List.map_congr_left
        intro q _
        exact (hF i q).symm

/-- The control points after an unscoped operation are the images of the control points
before it. -/
theorem Node.visit_getControlPoints (u : NodeUpdate α) (n : Node α) :
    ∀ n', n.visit u = some n' →
      n'.getControlPoints = n.getControlPoints.map (ControlPoint.image u.onPoint u.onAnchor) := by
  induction n using Node.induction with
  | step g cs an ao c co ih =>
    intro n' h
    obtain ⟨cs', c', co', hcs, hr, rfl⟩ := Node.visit_mk u g cs an ao c co n' h
    have hc := (updateControls_eq_some _ c co c' co' hr).1
    rw [Node.getControlPoints, Node.getControlPoints, List.map_append,
      childControlPoints_allSome (Node.visit u) (ControlPoint.image u.onPoint u.onAnchor)
        (fun _ _ => rfl) cs cs' 0 hcs (fun ch hch ch' => ih ch hch ch'), hc, List.map_map,
      List.map_map]
    rfl

theorem childControlPoints_last (cs : List (Node α)) (i : Nat) (q : ControlPoint α)
    (h : q ∈ childControlPoints i cs) : ∃ (j : Nat) (l : List Nat), q.indices = l ++ [i + j] := by
  obtain ⟨j, _, q0, _, _, rfl⟩ := childControlPoints_mem cs i q h
  exact ⟨j, q0.indices, rfl⟩

theorem suffix_snoc_iff (a b : List Nat) (x y : Nat) :
    a ++ [x] <:+ b ++ [y] ↔ a <:+ b ∧ x = y := by
  constructor
  · rintro ⟨t, ht⟩
    rw [← List.append_assoc] at ht
    have h1 := List.append_inj_left' ht rfl
    have h2 := List.append_inj_right' ht rfl
    exact ⟨⟨t, h1⟩, by simpa using h2⟩
  · rintro ⟨⟨t, rfl⟩, rfl⟩
    exact ⟨t, by simp⟩

theorem childControlPoints_set (G : ControlPoint α → ControlPoint α)
    (hG : ∀ i q, G (ControlPoint.pushIndex i q) = ControlPoint.pushIndex i (G q))
    (p : List Nat) (child' : Node α) :
    ∀ (cs : List (Node α)) (ind i : Nat) (child : Node α), cs[ind]? = some child →
      child'.getControlPoints
        = child.getControlPoints.map (fun q => if p <:+ q.indices then G q else q) →
      childControlPoints i (cs.set ind child')
        = (childControlPoints i cs).map
            (fun q => if p ++ [i + ind] <:+ q.indices then G q else q) := by
  intro cs
  induction cs with
  | nil => intro ind i child h; simp at h
  | cons ch rest ih =>
    intro ind i child h hchild
    cases ind with
    | zero =>
      simp only [List.getElem?_cons_zero, Option.some.injEq] at h
      subst h
      rw [List.set_cons_zero, childControlPoints, childControlPoints, List.map_append, hchild,
        List.map_map, List.map_map]
      congr 1
      · apply List.map_congr_left
        intro q _
        simp only [Function.comp, ControlPoint.pushIndex, Nat.add_zero, suffix_snoc_iff,
          and_true]
        split
        · exact (hG i q).symm
        · rfl
      · symm
        conv_rhs => rw [← List.map_id (childControlPoints (i + 1) rest)]
        apply List.map_congr_left
        intro q hq
        obtain ⟨j, l, hl⟩ := childControlPoints_last rest (i + 1) q hq
        have : ¬ p ++ [i + 0] <:+ q.indices := by
          rw [hl, suffix_snoc_iff]
          omega
        rw [if_neg this]
        rfl
    | succ m =>
      simp only [List.getElem?_cons_succ] at h
      rw [List.set_cons_succ, childControlPoints, childControlPoints, List.map_append,
        ih m (i + 1) child h hchild]
      congr 1
      · symm
        conv_rhs => rw [← List.map_id (List.map (ControlPoint.pushIndex i) ch.getControlPoints)]
        apply List.map_congr_left
        intro q hq
        obtain ⟨q0, _, rfl⟩ := List.mem_map.mp hq
        have : ¬ p ++ [i + (m + 1)] <:+ (ControlPoint.pushIndex i q0).indices := by
          simp only [ControlPoint.pushIndex]
          rw [suffix_snoc_iff]
          omega
        rw [if_neg this]
        rfl
      · apply List.map_congr_left
        intro q _
        have : i + 1 + m = i + (m + 1) := by omega
        rw [this]

/-- The control points after a path-scoped operation: those whose path ends with the
path of the operation (the control points of the subtree it addresses) are the images
`G` of what they were, the others are as they were. -/
theorem Node.applyAt_getControlPoints (op : Node α → Option (Node α))
    (G : ControlPoint α → ControlPoint α)
    (hG : ∀ i q, G (ControlPoint.pushIndex i q) = ControlPoint.pushIndex i (G q))
    (hop : ∀ m m', op m = some m' → m'.getControlPoints = m.getControlPoints.map G)
    (hops : List Nat) :
    ∀ n n' : Node α, n.applyAt op hops = some n' →
      n'.getControlPoints
        = n.getControlPoints.map (fun q => if hops.reverse <:+ q.indices then G q else q) := by
  induction hops with
  | nil =>
    intro n n' h
    rw [Node.applyAt] at h
    rw [hop n n' h]
    apply List.map_congr_left
    intro q _
    simp
  | cons ind rest ih =>
    intro n n' h
    cases n with
    | mk g cs an ao c co =>
      rw [Node.applyAt] at h
      cases hc : cs[ind]? with
      | none => simp [hc] at h
      | some child =>
        cases hr : Node.applyAt op rest child with
        | none => simp [hc, hr] at h
        | some child' =>
          simp only [hc, hr, Option.some.injEq] at h
          subst h
          rw [Node.getControlPoints, Node.getControlPoints, List.map_append,
            childControlPoints_set G hG rest.reverse child' cs ind 0 child hc
              (ih child child' hr), List.map_map]
          congr 1
          · apply List.map_congr_left
            intro v _
            simp
          · apply List.map_congr_left
            intro q _
            simp

end Images

section TransformImages

variable {α : Type} [CommRing α]

/-- The control points after `Node::transform(inds, anchor, matrix)`: those of the subtree
the path addresses are taken through the matrix, the others are as they were. -/
theorem Node.transformIndsAnchor_getControlPoints (inds : List Nat) (anchor : Vec3 α)
    (M : Mat4 α) (n n' : Node α) (h : n.transformIndsAnchor inds anchor M = some n') :
    n'.getControlPoints = n.getControlPoints.map (fun q =>
      if inds <:+ q.indices then q.image M.applyPoint M.applyPoint else q) := by
  rw [Node.transformIndsAnchor, Node.transformHops_eq] at h
  have hmain := Node.applyAt_getControlPoints (Node.transformHere anchor M)
    (ControlPoint.image M.applyPoint M.applyPoint) (fun _ _ => rfl) ?_ inds.reverse n n' h
  · rw [List.reverse_reverse] at hmain
    exact hmain
  · intro m m' hm
    cases m with
    | mk g cs an ao c co =>
      rw [Node.transformHere, transformAnchorChildren_eq] at hm
      cases hcs : allSome (Node.transformAnchor anchor M) cs with
      | none => simp [hcs] at hm
      | some cs' =>
        simp only [hcs, Option.some.injEq] at hm
        subst hm
        rw [Node.getControlPoints, Node.getControlPoints, List.map_append,
          childControlPoints_allSome (Node.transformAnchor anchor M)
            (ControlPoint.image M.applyPoint M.applyPoint) (fun _ _ => rfl) cs cs' 0 hcs
            (fun ch _ ch' hch => by
              rw [Node.transformAnchor_eq_visit] at hch
              exact Node.visit_getControlPoints (transformUpdate M) ch ch' hch),
          List.map_map, List.map_map]
        rfl

/-- A pivot matrix about `a` moves a point by moving its offset from `a`. -/
theorem Mat4.aboutPoint_applyPoint (a : Vec3 α) (r : Mat4 α) (hr : r.r3 = ⟨0, 0, 0, 1⟩)
    (p : Vec3 α) :
    (Mat4.aboutPoint a r).applyPoint p = a.add (r.applyPoint (p.add a.neg)) := by
  cases r with
  | mk r0 r1 r2 r3 =>
    simp only at hr
    subst hr
    simp only [Mat4.aboutPoint, Mat4.applyPoint, Mat4.mulVec, Mat4.mul, Mat4.rowMul, Vec4.dot,
      Mat4.c0, Mat4.c1, Mat4.c2, Mat4.c3, Vec4.ofPoint, Vec4.xyz, Mat4.identity,
      Mat4.translation, Vec3.neg, Vec3.add, Vec3.mk.injEq]
    refine ⟨?_, ?_, ?_⟩ <;> ring

end TransformImages

section ForwardKinematics2

variable {α : Type} [LinearOrderedField α]

theorem Vec3.dot_self_pos (v : Vec3 α) (h : v ≠ ⟨0, 0, 0⟩) : 0 < v.dot v := by
  obtain ⟨x, y, z⟩ := v
  simp only [Vec3.dot]
  by_contra hn
  have hx := mul_self_nonneg x
  have hy := mul_self_nonneg y
  have hz := mul_self_nonneg z
  have h1 : x * x = 0 := by linarith
  have h2 : y * y = 0 := by linarith
  have h3 : z * z = 0 := by linarith
  apply h
  rw [mul_self_eq_zero.mp h1, mul_self_eq_zero.mp h2, mul_self_eq_zero.mp h3]

theorem Vec3.sub_ne_zero (a b : Vec3 α) (h : a ≠ b) : a.sub b ≠ ⟨0, 0, 0⟩ := by
  intro h0
  apply h
  obtain ⟨x, y, z⟩ := a
  obtain ⟨x2, y2, z2⟩ := b
  simp only [Vec3.sub, Vec3.mk.injEq] at h0
  obtain ⟨h1, h2, h3⟩ := h0
  rw [sub_eq_zero.mp h1, sub_eq_zero.mp h2, sub_eq_zero.mp h3]

theorem ExactSqrt.pos (sqrt : α → α) (x : α) (h : ExactSqrt sqrt x) (hx : 0 < x) :
    0 < sqrt x := by
  rcases h.1.lt_or_eq with h1 | h1
  · exact h1
  · have h2 := h.2
    rw [← h1, mul_zero] at h2
    exact absurd h2 (ne_of_lt hx)

theorem ExactSqrt.one (sqrt : α → α) (h : ExactSqrt sqrt 1) : sqrt 1 = 1 := by
  have h2 := h.2
  have h3 : (sqrt 1 - 1) * (sqrt 1 + 1) = 0 := by linear_combination h2
  rcases mul_eq_zero.mp h3 with h4 | h4
  · linarith
  · have := h.1
    linarith

theorem Vec3.normalize_dot_self (sqrt : α → α) (v : Vec3 α) (h : ExactSqrt sqrt (v.dot v))
    (hv : 0 < v.dot v) : (v.normalize sqrt).dot (v.normalize sqrt) = 1 := by
  have hs := ExactSqrt.pos sqrt _ h hv
  have h2 := h.2
  have h3 : (v.normalize sqrt).dot (v.normalize sqrt)
      = v.dot v * ((1 / sqrt (v.dot v)) * (1 / sqrt (v.dot v))) := by
    simp only [Vec3.normalize, Vec3.times, Vec3.dot]
    ring
  rw [h3]
  have hne : sqrt (v.dot v) ≠ 0 := ne_of_gt hs
  field_simp
  exact h2.symm

/-- The vector is its unit vector times its length. -/
theorem Vec3.normalize_times_length (sqrt : α → α) (v : Vec3 α)
    (h : ExactSqrt sqrt (v.dot v)) (hv : 0 < v.dot v) :
    (v.normalize sqrt).times (v.length sqrt) = v := by
  have hne : sqrt (v.dot v) ≠ 0 := ne_of_gt (ExactSqrt.pos sqrt _ h hv)
  obtain ⟨x, y, z⟩ := v
  simp only [Vec3.normalize, Vec3.times, Vec3.length, Vec3.mk.injEq]
  refine ⟨?_, ?_, ?_⟩ <;> field_simp

/-- Two unit vectors built from directions that are not opposite have `1 + v1 . v2`
positive. -/
theorem Vec3.one_add_dot_pos (sqrt : α → α) (d1 d2 : Vec3 α)
    (e1 : ExactSqrt sqrt (d1.dot d1)) (e2 : ExactSqrt sqrt (d2.dot d2))
    (hd1 : 0 < d1.dot d1) (hd2 : 0 < d2.dot d2) (hopp : ¬ d1.opposite d2) :
    0 < 1 + (d1.normalize sqrt).dot (d2.normalize sqrt) := by
  have u1 := Vec3.normalize_dot_self sqrt d1 e1 hd1
  have u2 := Vec3.normalize_dot_self sqrt d2 e2 hd2
  have hs1 := ExactSqrt.pos sqrt _ e1 hd1
  have hs2 := ExactSqrt.pos sqrt _ e2 hd2
  by_contra hle
  apply hopp
  have hk2 : 1 / sqrt (d2.dot d2) * sqrt (d2.dot d2) = 1 := by
    field_simp
  have hk1pos : 0 < 1 / sqrt (d1.dot d1) := by positivity
  refine ⟨1 / sqrt (d1.dot d1) * sqrt (d2.dot d2), mul_pos hk1pos hs2, ?_⟩
  simp only [Vec3.normalize] at u1 u2 hle
  clear e1 e2 hd1 hd2 hopp
  generalize sqrt (d1.dot d1) = s1 at *
  generalize sqrt (d2.dot d2) = s2 at *
  obtain ⟨x1, y1, z1⟩ := d1
  obtain ⟨x2, y2, z2⟩ := d2
  simp only [Vec3.times, Vec3.dot] at u1 u2 hle
  have hsq : (x1 * (1 / s1) + x2 * (1 / s2)) * (x1 * (1 / s1) + x2 * (1 / s2))
      + (y1 * (1 / s1) + y2 * (1 / s2)) * (y1 * (1 / s1) + y2 * (1 / s2))
      + (z1 * (1 / s1) + z2 * (1 / s2)) * (z1 * (1 / s1) + z2 * (1 / s2)) ≤ 0 := by
    have : (x1 * (1 / s1) + x2 * (1 / s2)) * (x1 * (1 / s1) + x2 * (1 / s2))
      + (y1 * (1 / s1) + y2 * (1 / s2)) * (y1 * (1 / s1) + y2 * (1 / s2))
      + (z1 * (1 / s1) + z2 * (1 / s2)) * (z1 * (1 / s1) + z2 * (1 / s2))
      = 2 * (1 + (x1 * (1 / s1) * (x2 * (1 / s2)) + y1 * (1 / s1) * (y2 * (1 / s2))
          + z1 * (1 / s1) * (z2 * (1 / s2)))) := by
      linear_combination u1 + u2
    rw [this]
    linarith
  have hx := mul_self_nonneg (x1 * (1 / s1) + x2 * (1 / s2))
  have hy := mul_self_nonneg (y1 * (1 / s1) + y2 * (1 / s2))
  have hz := mul_self_nonneg (z1 * (1 / s1) + z2 * (1 / s2))
  have hx0 := mul_self_eq_zero.mp (le_antisymm (by linarith) hx)
  have hy0 := mul_self_eq_zero.mp (le_antisymm (by linarith) hy)
  have hz0 := mul_self_eq_zero.mp (le_antisymm (by linarith) hz)
  simp only [Vec3.times, Vec3.mk.injEq]
  refine ⟨?_, ?_, ?_⟩
  · linear_combination (-x2) * hk2 + s2 * hx0
  · linear_combination (-y2) * hk2 + s2 * hy0
  · linear_combination (-z2) * hk2 + s2 * hz0

/-- The normalised quaternion of two unit vectors that are not opposite: it is the
quaternion `(v1 x v2, 1 + v1 . v2)` times `k`, the inverse of its length, and the length
is positive. -/
theorem arcQuat_normalize_unit (sqrt : α → α) (v1 v2 : Vec3 α) (h1 : v1.dot v1 = 1)
    (h2 : v2.dot v2 = 1) (hs1 : ExactSqrt sqrt 1)
    (hq : ExactSqrt sqrt ((arcQuat sqrt v1 v2).dot (arcQuat sqrt v1 v2)))
    (hpos : 0 < 1 + v1.dot v2) :
    0 < sqrt ((arcQuat sqrt v1 v2).dot (arcQuat sqrt v1 v2)) ∧
    ∃ k, k * k * (2 * (1 + v1.dot v2)) = 1 ∧
      (arcQuat sqrt v1 v2).normalize sqrt
        = ⟨(v1.cross v2).x * k, (v1.cross v2).y * k, (v1.cross v2).z * k,
            (1 + v1.dot v2) * k⟩ := by
  have hone := ExactSqrt.one sqrt hs1
  have harc : arcQuat sqrt v1 v2
      = ⟨(v1.cross v2).x, (v1.cross v2).y, (v1.cross v2).z, 1 + v1.dot v2⟩ := by
    simp only [arcQuat, Vec3.length, h1, h2, mul_one, hone]
  have hdot : (arcQuat sqrt v1 v2).dot (arcQuat sqrt v1 v2) = 2 * (1 + v1.dot v2) := by
    rw [harc]
    obtain ⟨x1, y1, z1⟩ := v1
    obtain ⟨x2, y2, z2⟩ := v2
    simp only [Vec3.dot] at h1 h2
    simp only [Quat.dot, Vec3.cross, Vec3.dot]
    linear_combination (x2 * x2 + y2 * y2 + z2 * z2) * h1 + h2
  have hqpos : 0 < (arcQuat sqrt v1 v2).dot (arcQuat sqrt v1 v2) := by
    rw [hdot]
    linarith
  have hs := ExactSqrt.pos sqrt _ hq hqpos
  refine ⟨hs, 1 / sqrt ((arcQuat sqrt v1 v2).dot (arcQuat sqrt v1 v2)), ?_, ?_⟩
  · have h3 := hq.2
    rw [← hdot]
    have hne := ne_of_gt hs
    field_simp
    exact h3.symm
  · rw [Quat.normalize, if_neg (not_le.mpr hs)]
    rw [harc]

/-- The rotation matrix of a quaternion is linear on the points. -/
theorem Quat.toMat4_times (q : Quat α) (v : Vec3 α) (s : α) :
    q.toMat4.applyPoint (v.times s) = (q.toMat4.applyPoint v).times s := by
  obtain ⟨x, y, z⟩ := v
  simp only [Mat4.applyPoint, Mat4.mulVec, Vec4.dot, Vec4.ofPoint, Vec4.xyz, Quat.toMat4,
    Vec3.times, Vec3.mk.injEq]
  refine ⟨?_, ?_, ?_⟩ <;> ring

/-- The rotation matrix of the normalised quaternion built from two unit vectors takes
the first onto the second: `k` stands for the inverse of the length of the quaternion,
whose square is `2 * (1 + v1 . v2)`. -/
theorem Quat.toMat4_arc (v1 v2 : Vec3 α) (k : α) (h1 : v1.dot v1 = 1) (h2 : v2.dot v2 = 1)
    (hk : k * k * (2 * (1 + v1.dot v2)) = 1) :
    (Quat.toMat4 ⟨(v1.cross v2).x * k, (v1.cross v2).y * k, (v1.cross v2).z * k,
      (1 + v1.dot v2) * k⟩).applyPoint v1 = v2 := by
  obtain ⟨x1, y1, z1⟩ := v1
  obtain ⟨x2, y2, z2⟩ := v2
  simp only [Vec3.dot] at h1 h2 hk
  simp only [Mat4.applyPoint, Mat4.mulVec, Vec4.dot, Vec4.ofPoint, Vec4.xyz, Quat.toMat4,
    Vec3.cross, Vec3.dot, Vec3.mk.injEq]
  refine ⟨?_, ?_, ?_⟩
  · linear_combination
      (k * k * 2 * ((1 + (x1 * x2 + y1 * y2 + z1 * z2)) * x2 - x1
        - (x2 * x2 + y2 * y2 + z2 * z2 - 1) * x1)) * h1
      + (-2 * k * k * x1) * h2 + (x2 - x1) * hk
  · linear_combination
      (k * k * 2 * ((1 + (x1 * x2 + y1 * y2 + z1 * z2)) * y2 - y1
        - (x2 * x2 + y2 * y2 + z2 * z2 - 1) * y1)) * h1
      + (-2 * k * k * y1) * h2 + (y2 - y1) * hk
  · linear_combination
      (k * k * 2 * ((1 + (x1 * x2 + y1 * y2 + z1 * z2)) * z2 - z1
        - (x2 * x2 + y2 * y2 + z2 * z2 - 1) * z1)) * h1
      + (-2 * k * k * z1) * h2 + (z2 - z1) * hk

end ForwardKinematics2

end bgq_opengl

/-! ## The forward kinematics step -/

namespace bgq_opengl

section ForwardKinematics

variable {α : Type} [LinearOrderedField α]

/-- C17: when the FK step is run with no joint selected (`moving_joint == -1`), or with a
selected control point whose `coords` equal its `initial`, it returns the object it was
given: every node keeps its geometry transform, anchor, anchor_original, control and
control_original. -/
theorem fkStep_noop (sqrt : α → α) (selected : ObjectHierarchical α)
    (ctrl_pnts : List (ControlPoint α)) (moving_joint : Int)
    (h : moving_joint = -1 ∨
      ∃ p, atInt ctrl_pnts moving_joint = some p ∧ p.coords = p.initial) :
    fkStep sqrt selected ctrl_pnts moving_joint = some selected := by
  rcases h with h | ⟨p, hp, heq⟩
  · simp [fkStep, h]
  · by_cases hm : moving_joint = -1
    · simp [fkStep, hm]
    · simp [fkStep, hm, hp, heq]


theorem atInt_map {β γ : Type} (f : β → γ) (v : List β) (i : Int) :
    atInt (v.map f) i = (atInt v i).map f := by
  unfold atInt
  split
  · rfl
  · simp

theorem atInt_mem {β : Type} (v : List β) (i : Int) (b : β) (h : atInt v i = some b) :
    b ∈ v := by
  unfold atInt at h
  split at h
  · simp at h
  · exact List.getElem?_mem h

theorem Node.transformIndsAnchor_isSome (n m : Node α) (inds : List Nat) (anchor : Vec3 α)
    (M : Mat4 α) (hwf : n.wellFormed = true) (hm : n.descend inds = some m) :
    ∃ n', n.transformIndsAnchor inds anchor M = some n' := by
  obtain ⟨m', hm'⟩ := Node.transformHere_isSome anchor M m
    (Node.wellFormed_walk inds.reverse n m hwf hm)
  rw [Node.transformIndsAnchor, Node.transformHops_eq]
  exact Node.applyAt_isSome _ inds.reverse n m m' hm hm'

theorem Vec3.add_neg_eq_sub (a b : Vec3 α) : a.add b.neg = a.sub b := by
  simp only [Vec3.add, Vec3.neg, Vec3.sub, Vec3.mk.injEq]
  refine ⟨?_, ?_, ?_⟩ <;> ring

theorem Vec3.add_sub_cancel (a b : Vec3 α) : a.add (b.sub a) = b := by
  obtain ⟨x, y, z⟩ := b
  simp only [Vec3.add, Vec3.sub, Vec3.mk.injEq]
  refine ⟨?_, ?_, ?_⟩ <;> ring

theorem Quat.toMat4_zero (q : Quat α) (a : Vec3 α) :
    q.toMat4.applyPoint (a.sub a) = ⟨0, 0, 0⟩ := by
  simp only [Mat4.applyPoint, Mat4.mulVec, Vec4.dot, Vec4.ofPoint, Vec4.xyz, Quat.toMat4,
    Vec3.sub, Vec3.mk.injEq]
  refine ⟨?_, ?_, ?_⟩ <;> ring

theorem Vec3.add_zero (a : Vec3 α) : a.add ⟨0, 0, 0⟩ = a := by
  obtain ⟨x, y, z⟩ := a
  simp only [Vec3.add, Vec3.mk.injEq]
  refine ⟨?_, ?_, ?_⟩ <;> ring

/-- The rotation of the kinematic steps, for two directions `d1` and `d2` that are not
zero and not opposite and an exact square root: it takes the unit vector of `d1` onto
the unit vector of `d2`. -/
theorem arcQuat_rotates (sqrt : α → α) (d1 d2 : Vec3 α)
    (hd1 : d1 ≠ ⟨0, 0, 0⟩) (hd2 : d2 ≠ ⟨0, 0, 0⟩) (hopp : ¬ d1.opposite d2)
    (e1 : ExactSqrt sqrt (d1.dot d1)) (e2 : ExactSqrt sqrt (d2.dot d2))
    (e3 : ExactSqrt sqrt ((d1.normalize sqrt).dot (d1.normalize sqrt)))
    (e6 : ExactSqrt sqrt ((arcQuat sqrt (d1.normalize sqrt) (d2.normalize sqrt)).dot
      (arcQuat sqrt (d1.normalize sqrt) (d2.normalize sqrt)))) :
    0 < sqrt ((arcQuat sqrt (d1.normalize sqrt) (d2.normalize sqrt)).dot
      (arcQuat sqrt (d1.normalize sqrt) (d2.normalize sqrt))) ∧
    ((arcQuat sqrt (d1.normalize sqrt) (d2.normalize sqrt)).normalize sqrt).toMat4.applyPoint
      (d1.normalize sqrt) = d2.normalize sqrt := by
  have p1 := Vec3.dot_self_pos d1 hd1
  have p2 := Vec3.dot_self_pos d2 hd2
  have u1 := Vec3.normalize_dot_self sqrt d1 e1 p1
  have u2 := Vec3.normalize_dot_self sqrt d2 e2 p2
  rw [u1] at e3
  have hpos := Vec3.one_add_dot_pos sqrt d1 d2 e1 e2 p1 p2 hopp
  obtain ⟨hs, k, hk, hq⟩ := arcQuat_normalize_unit sqrt _ _ u1 u2 e3 e6 hpos
  refine ⟨hs, ?_⟩
  rw [hq]
  exact Quat.toMat4_arc _ _ k u1 u2 hk

/-- The pivot matrix of the kinematic steps keeps the anchor in place: in exact
arithmetic `T(a) * R * T(-a)` takes `a` to `a` for every matrix `R` of a quaternion. For
the code this is a statement on the steps that are `pivotDefined`. -/
theorem pivotMatrix_anchor (sqrt : α → α) (start goal anchor : Vec3 α) :
    (pivotMatrix sqrt start goal anchor).applyPoint anchor = anchor := by
  rw [pivotMatrix, Mat4.aboutPoint_applyPoint _ _ rfl, Vec3.add_neg_eq_sub, Quat.toMat4_zero,
    Vec3.add_zero]

/-- Where the pivot matrix of the kinematic steps takes the point `start`. -/
theorem pivotMatrix_start (sqrt : α → α) (start goal anchor : Vec3 α)
    (hd1 : start ≠ anchor) (hd2 : goal ≠ anchor)
    (hopp : ¬ (start.sub anchor).opposite (goal.sub anchor))
    (e1 : ExactSqrt sqrt ((start.sub anchor).dot (start.sub anchor)))
    (e2 : ExactSqrt sqrt ((goal.sub anchor).dot (goal.sub anchor)))
    (e3 : ExactSqrt sqrt (((start.sub anchor).normalize sqrt).dot
      ((start.sub anchor).normalize sqrt)))
    (e6 : ExactSqrt sqrt ((arcQuat sqrt ((start.sub anchor).normalize sqrt)
        ((goal.sub anchor).normalize sqrt)).dot
      (arcQuat sqrt ((start.sub anchor).normalize sqrt) ((goal.sub anchor).normalize sqrt)))) :
    (pivotMatrix sqrt start goal anchor).applyPoint start
      = anchor.add (((goal.sub anchor).normalize sqrt).times ((start.sub anchor).length sqrt)) := by
  have h := (arcQuat_rotates sqrt _ _ (Vec3.sub_ne_zero _ _ hd1) (Vec3.sub_ne_zero _ _ hd2) hopp
    e1 e2 e3 e6).2
  have hsplit : ∀ q : Quat α, q.toMat4.applyPoint (start.sub anchor)
      = (q.toMat4.applyPoint ((start.sub anchor).normalize sqrt)).times
          ((start.sub anchor).length sqrt) := by
    intro q
    rw [← Quat.toMat4_times, Vec3.normalize_times_length sqrt (start.sub anchor) e1
      (Vec3.dot_self_pos _ (Vec3.sub_ne_zero _ _ hd1))]
  rw [pivotMatrix, Mat4.aboutPoint_applyPoint _ _ rfl, Vec3.add_neg_eq_sub, hsplit, h]

/-- C16: in FK mode, for a selected control point `p` of the tree (the entry
`moving_joint` of the list, whose `coords` the mouse has moved) with `initial != anchor`,
`coords != anchor` and the directions `initial - anchor` and `coords - anchor` not
opposite, and a square root that is exact on the numbers the step takes the root of: the
rotation of the normalised quaternion takes the unit vector of `initial - anchor` onto
the unit vector of `coords - anchor`, the step returns, and after it the control point
`moving_joint` of the tree is at
`anchor + |initial - anchor| * (coords - anchor) / |coords - anchor|`, with the same
anchor and path. -/
theorem fkStep_rotates_onto (sqrt : α → α) (selected : ObjectHierarchical α)
    (ctrl_pnts : List (ControlPoint α)) (moving_joint : Int) (p : ControlPoint α)
    (hwf : selected.root.wellFormed = true)
    (hp : atInt ctrl_pnts moving_joint = some p)
    (htree : atInt selected.getControlPoints moving_joint
      = some ⟨p.initial, p.initial, p.anchor, p.indices⟩)
    (hia : p.initial ≠ p.anchor) (hca : p.coords ≠ p.anchor)
    (hopp : ¬ (p.initial.sub p.anchor).opposite (p.coords.sub p.anchor))
    (hsqrt : ∀ x ∈ fkRadicands sqrt p, ExactSqrt sqrt x) :
    ((arcQuat sqrt ((p.initial.sub p.anchor).normalize sqrt)
        ((p.coords.sub p.anchor).normalize sqrt)).normalize sqrt).toMat4.applyPoint
      ((p.initial.sub p.anchor).normalize sqrt) = (p.coords.sub p.anchor).normalize sqrt ∧
    ∃ selected', fkStep sqrt selected ctrl_pnts moving_joint = some selected' ∧
      atInt selected'.getControlPoints moving_joint
        = some ⟨p.anchor.add (((p.coords.sub p.anchor).normalize sqrt).times
                  ((p.initial.sub p.anchor).length sqrt)),
                p.anchor.add (((p.coords.sub p.anchor).normalize sqrt).times
                  ((p.initial.sub p.anchor).length sqrt)),
                p.anchor, p.indices⟩ := by
  have e1 := hsqrt _ (by simp only [fkRadicands, List.mem_cons]; exact Or.inl rfl)
  have e2 := hsqrt _ (by simp only [fkRadicands, List.mem_cons]; exact Or.inr (Or.inl rfl))
  have e3 := hsqrt _
    (by simp only [fkRadicands, List.mem_cons]; exact Or.inr (Or.inr (Or.inl rfl)))
  have e6 := hsqrt _
    (by simp only [fkRadicands, List.mem_cons]
        exact Or.inr (Or.inr (Or.inr (Or.inr (Or.inr (Or.inl rfl))))))
  refine ⟨(arcQuat_rotates sqrt _ _ (Vec3.sub_ne_zero _ _ hia) (Vec3.sub_ne_zero _ _ hca) hopp
    e1 e2 e3 e6).2, ?_⟩
  have hmj : moving_joint ≠ -1 := by
    intro h
    rw [h] at hp
    simp [atInt] at hp
  by_cases hmove : p.coords = p.initial
  · refine ⟨selected, (by simp [fkStep, hmj, hp, hmove]), ?_⟩
    rw [htree, hmove, Vec3.normalize_times_length sqrt _ e1
      (Vec3.dot_self_pos _ (Vec3.sub_ne_zero _ _ hia)), Vec3.add_sub_cancel]
  · obtain ⟨m, hm, _, _⟩ := Node.getControlPoints_descend _ selected.root _ rfl
      (atInt_mem _ _ _ htree)
    obtain ⟨root', hroot⟩ := Node.transformIndsAnchor_isSome selected.root m p.indices p.anchor
      (pivotMatrix sqrt p.initial p.coords p.anchor) hwf hm
    refine ⟨{ selected with root := root' }, ?_, ?_⟩
    · simp only [fkStep, hmj, ne_eq, not_false_eq_true, if_true, hp, hmove,
        ObjectHierarchical.transform, hroot]
    · simp only [ObjectHierarchical.getControlPoints]
      rw [Node.transformIndsAnchor_getControlPoints _ _ _ _ _ hroot, atInt_map]
      simp only [ObjectHierarchical.getControlPoints] at htree
      rw [htree]
      simp only [Option.map_some', List.suffix_refl, if_true, ControlPoint.image]
      rw [pivotMatrix_anchor, pivotMatrix_start sqrt _ _ _ hia hca hopp e1 e2 e3 e6]

/-- C18, as amended: when `initial != anchor` and `coords != anchor`, both vectors the FK
step normalises are non-zero and so are their lengths, so that neither normalisation
divides by zero; when moreover the two directions are not opposite, the quaternion it
normalises has a positive norm. -/
theorem fkStep_divisors_nonzero (sqrt : α → α) (p : ControlPoint α)
    (hia : p.initial ≠ p.anchor) (hca : p.coords ≠ p.anchor)
    (hsqrt : ∀ x ∈ fkRadicands sqrt p, ExactSqrt sqrt x) :
    p.initial.sub p.anchor ≠ ⟨0, 0, 0⟩ ∧ p.coords.sub p.anchor ≠ ⟨0, 0, 0⟩ ∧
    (p.initial.sub p.anchor).length sqrt ≠ 0 ∧ (p.coords.sub p.anchor).length sqrt ≠ 0 ∧
    (¬ (p.initial.sub p.anchor).opposite (p.coords.sub p.anchor) →
      0 < sqrt ((arcQuat sqrt ((p.initial.sub p.anchor).normalize sqrt)
          ((p.coords.sub p.anchor).normalize sqrt)).dot
        (arcQuat sqrt ((p.initial.sub p.anchor).normalize sqrt)
          ((p.coords.sub p.anchor).normalize sqrt)))) := by
  have e1 := hsqrt _ (by simp only [fkRadicands, List.mem_cons]; exact Or.inl rfl)
  have e2 := hsqrt _ (by simp only [fkRadicands, List.mem_cons]; exact Or.inr (Or.inl rfl))
  have e3 := hsqrt _
    (by simp only [fkRadicands, List.mem_cons]; exact Or.inr (Or.inr (Or.inl rfl)))
  have e6 := hsqrt _
    (by simp only [fkRadicands, List.mem_cons]
        exact Or.inr (Or.inr (Or.inr (Or.inr (Or.inr (Or.inl rfl))))))
  have n1 := Vec3.sub_ne_zero _ _ hia
  have n2 := Vec3.sub_ne_zero _ _ hca
  refine ⟨n1, n2, ne_of_gt (ExactSqrt.pos sqrt _ e1 (Vec3.dot_self_pos _ n1)),
    ne_of_gt (ExactSqrt.pos sqrt _ e2 (Vec3.dot_self_pos _ n2)), ?_⟩
  intro hopp
  exact (arcQuat_rotates sqrt _ _ n1 n2 hopp e1 e2 e3 e6).1

end ForwardKinematics

set_option maxRecDepth 100000

theorem fkStep_rotates_onto_witness :
    armObject.root.wellFormed = true ∧
    atInt (dragTo armObject.getControlPoints 0 (qpt 7 24 0)) 0
      = some ⟨qpt 7 24 0, qpt 2 0 0, qpt 0 0 0, []⟩ ∧
    atInt armObject.getControlPoints 0 = some ⟨qpt 2 0 0, qpt 2 0 0, qpt 0 0 0, []⟩ ∧
    qpt 2 0 0 ≠ qpt 0 0 0 ∧ qpt 7 24 0 ≠ qpt 0 0 0 ∧
    ¬ ((qpt 2 0 0).sub (qpt 0 0 0)).opposite ((qpt 7 24 0).sub (qpt 0 0 0)) ∧
    (∀ x ∈ fkRadicands (sqrtIn [1, 2, 25, 8 / 5]) ⟨qpt 7 24 0, qpt 2 0 0, qpt 0 0 0, []⟩,
      ExactSqrt (sqrtIn [1, 2, 25, 8 / 5]) x) ∧
    ∃ selected', fkStep (sqrtIn [1, 2, 25, 8 / 5]) armObject
        (dragTo armObject.getControlPoints 0 (qpt 7 24 0)) 0 = some selected' ∧
      atInt selected'.getControlPoints 0
        = some ⟨(qpt 0 0 0).add ((((qpt 7 24 0).sub (qpt 0 0 0)).normalize
                  (sqrtIn [1, 2, 25, 8 / 5])).times
                    (((qpt 2 0 0).sub (qpt 0 0 0)).length (sqrtIn [1, 2, 25, 8 / 5]))),
                (qpt 0 0 0).add ((((qpt 7 24 0).sub (qpt 0 0 0)).normalize
                  (sqrtIn [1, 2, 25, 8 / 5])).times
                    (((qpt 2 0 0).sub (qpt 0 0 0)).length (sqrtIn [1, 2, 25, 8 / 5]))),
                qpt 0 0 0, []⟩ :=
  have hopp : ¬ ((qpt 2 0 0).sub (qpt 0 0 0)).opposite ((qpt 7 24 0).sub (qpt 0 0 0)) := by
    rintro ⟨t, _, h⟩
    simp [Vec3.sub, Vec3.times, qpt] at h
  ⟨rfl, rfl, rfl, by with_unfolding_all decide, by with_unfolding_all decide, hopp,
    by with_unfolding_all decide,
    (fkStep_rotates_onto (sqrtIn [1, 2, 25, 8 / 5]) armObject
      (dragTo armObject.getControlPoints 0 (qpt 7 24 0)) 0
      ⟨qpt 7 24 0, qpt 2 0 0, qpt 0 0 0, []⟩ rfl rfl rfl (by with_unfolding_all decide)
      (by with_unfolding_all decide) hopp (by with_unfolding_all decide)).2⟩

/-- The control point the FK step of the witness arrives at. -/
theorem fkStep_rotates_onto_value :
    (qpt 0 0 0).add ((((qpt 7 24 0).sub (qpt 0 0 0)).normalize
        (sqrtIn [1, 2, 25, 8 / 5])).times
          (((qpt 2 0 0).sub (qpt 0 0 0)).length (sqrtIn [1, 2, 25, 8 / 5])))
      = qpt (14 / 25) (48 / 25) 0 := by
  with_unfolding_all decide

/-- C18, as stated, fails on the arm, in two FK steps that are not skipped. In the first the
control point of the middle link is dragged onto its anchor: `coords != initial`, the
transform is applied, and the vector `coords - anchor` the step normalises is zero, with
length zero. In the second it is dragged to the opposite side of its anchor: both
vectors are non-zero, and the quaternion the step normalises is zero, with norm zero.
The square root is exact on every number the steps take the root of. -/
theorem fkStep_degenerate_not_skipped :
    (atInt (dragTo armObject.getControlPoints 1 (qpt 2 0 0)) 1
        = some ⟨qpt 2 0 0, qpt 4 0 0, qpt 2 0 0, [0]⟩ ∧
      qpt 2 0 0 ≠ qpt 4 0 0 ∧
      fkStep (sqrtIn [0, 1, 2]) armObject (dragTo armObject.getControlPoints 1 (qpt 2 0 0)) 1
        = armObject.transform [0] (qpt 2 0 0)
            (pivotMatrix (sqrtIn [0, 1, 2]) (qpt 4 0 0) (qpt 2 0 0) (qpt 2 0 0)) ∧
      (∀ x ∈ fkRadicands (sqrtIn [0, 1, 2]) ⟨qpt 2 0 0, qpt 4 0 0, qpt 2 0 0, [0]⟩,
        ExactSqrt (sqrtIn [0, 1, 2]) x) ∧
      (qpt 2 0 0).sub (qpt 2 0 0) = ⟨0, 0, 0⟩ ∧
      ((qpt 2 0 0).sub (qpt 2 0 0)).length (sqrtIn [0, 1, 2]) = 0) ∧
    (atInt (dragTo armObject.getControlPoints 1 (qpt 0 0 0)) 1
        = some ⟨qpt 0 0 0, qpt 4 0 0, qpt 2 0 0, [0]⟩ ∧
      qpt 0 0 0 ≠ qpt 4 0 0 ∧
      fkStep (sqrtIn [0, 1, 2]) armObject (dragTo armObject.getControlPoints 1 (qpt 0 0 0)) 1
        = armObject.transform [0] (qpt 2 0 0)
            (pivotMatrix (sqrtIn [0, 1, 2]) (qpt 4 0 0) (qpt 0 0 0) (qpt 2 0 0)) ∧
      (∀ x ∈ fkRadicands (sqrtIn [0, 1, 2]) ⟨qpt 0 0 0, qpt 4 0 0, qpt 2 0 0, [0]⟩,
        ExactSqrt (sqrtIn [0, 1, 2]) x) ∧
      (qpt 4 0 0).sub (qpt 2 0 0) ≠ ⟨0, 0, 0⟩ ∧ (qpt 0 0 0).sub (qpt 2 0 0) ≠ ⟨0, 0, 0⟩ ∧
      arcQuat (sqrtIn [0, 1, 2]) (((qpt 4 0 0).sub (qpt 2 0 0)).normalize (sqrtIn [0, 1, 2]))
          (((qpt 0 0 0).sub (qpt 2 0 0)).normalize (sqrtIn [0, 1, 2])) = ⟨0, 0, 0, 0⟩ ∧
      sqrtIn [0, 1, 2]
        ((arcQuat (sqrtIn [0, 1, 2])
            (((qpt 4 0 0).sub (qpt 2 0 0)).normalize (sqrtIn [0, 1, 2]))
            (((qpt 0 0 0).sub (qpt 2 0 0)).normalize (sqrtIn [0, 1, 2]))).dot
          (arcQuat (sqrtIn [0, 1, 2])
            (((qpt 4 0 0).sub (qpt 2 0 0)).normalize (sqrtIn [0, 1, 2]))
            (((qpt 0 0 0).sub (qpt 2 0 0)).normalize (sqrtIn [0, 1, 2])))) = 0) :=
  ⟨⟨rfl, by with_unfolding_all decide, by with_unfolding_all rfl,
      by with_unfolding_all decide, by with_unfolding_all decide,
      by with_unfolding_all decide⟩,
    ⟨rfl, by with_unfolding_all decide, by with_unfolding_all rfl,
      by with_unfolding_all decide, by with_unfolding_all decide,
      by with_unfolding_all decide, by with_unfolding_all decide,
      by with_unfolding_all decide⟩⟩

theorem fkStep_divisors_nonzero_witness :
    qpt 2 0 0 ≠ qpt 0 0 0 ∧ qpt 7 24 0 ≠ qpt 0 0 0 ∧
    (∀ x ∈ fkRadicands (sqrtIn [1, 2, 25, 8 / 5]) ⟨qpt 7 24 0, qpt 2 0 0, qpt 0 0 0, []⟩,
      ExactSqrt (sqrtIn [1, 2, 25, 8 / 5]) x) ∧
    (qpt 2 0 0).sub (qpt 0 0 0) ≠ ⟨0, 0, 0⟩ ∧ (qpt 7 24 0).sub (qpt 0 0 0) ≠ ⟨0, 0, 0⟩ ∧
    ((qpt 2 0 0).sub (qpt 0 0 0)).length (sqrtIn [1, 2, 25, 8 / 5]) ≠ 0 ∧
    ((qpt 7 24 0).sub (qpt 0 0 0)).length (sqrtIn [1, 2, 25, 8 / 5]) ≠ 0 ∧
    (¬ ((qpt 2 0 0).sub (qpt 0 0 0)).opposite ((qpt 7 24 0).sub (qpt 0 0 0)) →
      0 < sqrtIn [1, 2, 25, 8 / 5]
        ((arcQuat (sqrtIn [1, 2, 25, 8 / 5])
            (((qpt 2 0 0).sub (qpt 0 0 0)).normalize (sqrtIn [1, 2, 25, 8 / 5]))
            (((qpt 7 24 0).sub (qpt 0 0 0)).normalize (sqrtIn [1, 2, 25, 8 / 5]))).dot
          (arcQuat (sqrtIn [1, 2, 25, 8 / 5])
            (((qpt 2 0 0).sub (qpt 0 0 0)).normalize (sqrtIn [1, 2, 25, 8 / 5]))
            (((qpt 7 24 0).sub (qpt 0 0 0)).normalize (sqrtIn [1, 2, 25, 8 / 5]))))) :=
  ⟨by with_unfolding_all decide, by with_unfolding_all decide, by with_unfolding_all decide,
    fkStep_divisors_nonzero (sqrtIn [1, 2, 25, 8 / 5]) ⟨qpt 7 24 0, qpt 2 0 0, qpt 0 0 0, []⟩
      (by with_unfolding_all decide) (by with_unfolding_all decide)
      (by with_unfolding_all decide)⟩

theorem Vec3.dot_self_nonneg {α : Type} [LinearOrderedField α] (v : Vec3 α) :
    0 ≤ v.dot v := by
  have hx := mul_self_nonneg v.x
  have hy := mul_self_nonneg v.y
  have hz := mul_self_nonneg v.z
  simp only [Vec3.dot]
  linarith

/-- The real square root is exact on the non-negative numbers. -/
theorem exactSqrt_real (x : ℝ) (hx : 0 ≤ x) : ExactSqrt Real.sqrt x :=
  ⟨Real.sqrt_nonneg x, Real.mul_self_sqrt hx⟩

/-- The quarter turn of the specification, over the reals: with the anchor at the origin,
the pivot matrix built for `initial = (1, 0, 0)` and `coords = (0, 1, 0)` takes
`(1, 0, 0)` to `(0, 1, 0)`. -/
theorem pivotMatrix_quarter_turn :
    (pivotMatrix Real.sqrt (⟨1, 0, 0⟩ : Vec3 ℝ) ⟨0, 1, 0⟩ ⟨0, 0, 0⟩).applyPoint ⟨1, 0, 0⟩
      = ⟨0, 1, 0⟩ := by
  have hopp : ¬ ((⟨1, 0, 0⟩ : Vec3 ℝ).sub ⟨0, 0, 0⟩).opposite
      ((⟨0, 1, 0⟩ : Vec3 ℝ).sub ⟨0, 0, 0⟩) := by
    rintro ⟨t, _, h⟩
    simp [Vec3.sub, Vec3.times] at h
  rw [pivotMatrix_start Real.sqrt _ _ _ (by simp) (by simp) hopp
    (exactSqrt_real _ (Vec3.dot_self_nonneg _)) (exactSqrt_real _ (Vec3.dot_self_nonneg _))
    (exactSqrt_real _ (Vec3.dot_self_nonneg _))
    (exactSqrt_real _ (by
      simp only [Quat.dot]
      nlinarith [mul_self_nonneg (arcQuat Real.sqrt
          (((⟨1, 0, 0⟩ : Vec3 ℝ).sub ⟨0, 0, 0⟩).normalize Real.sqrt)
          (((⟨0, 1, 0⟩ : Vec3 ℝ).sub ⟨0, 0, 0⟩).normalize Real.sqrt)).x,
        mul_self_nonneg (arcQuat Real.sqrt
          (((⟨1, 0, 0⟩ : Vec3 ℝ).sub ⟨0, 0, 0⟩).normalize Real.sqrt)
          (((⟨0, 1, 0⟩ : Vec3 ℝ).sub ⟨0, 0, 0⟩).normalize Real.sqrt)).y,
        mul_self_nonneg (arcQuat Real.sqrt
          (((⟨1, 0, 0⟩ : Vec3 ℝ).sub ⟨0, 0, 0⟩).normalize Real.sqrt)
          (((⟨0, 1, 0⟩ : Vec3 ℝ).sub ⟨0, 0, 0⟩).normalize Real.sqrt)).z,
        mul_self_nonneg (arcQuat Real.sqrt
          (((⟨1, 0, 0⟩ : Vec3 ℝ).sub ⟨0, 0, 0⟩).normalize Real.sqrt)
          (((⟨0, 1, 0⟩ : Vec3 ℝ).sub ⟨0, 0, 0⟩).normalize Real.sqrt)).w]))]
  simp [Vec3.sub, Vec3.normalize, Vec3.times, Vec3.length, Vec3.dot, Vec3.add]

theorem fkStep_noop_witness :
    fkStep (sqrtIn [1]) armObject armObject.getControlPoints 2 = some armObject :=
  fkStep_noop (sqrtIn [1]) armObject armObject.getControlPoints 2
    (Or.inr ⟨⟨qpt 6 0 0, qpt 6 0 0, qpt 4 0 0, [0, 0]⟩, rfl, rfl⟩)

end bgq_opengl


/-! ## The inverse kinematics loop: termination and what holds when it returns -/

namespace bgq_opengl

section Links

variable {α : Type}

/-- The links fetched for a control point of the tree: there are
`min(num_ik, path length + 1)` of them and the path of each is valid. -/
theorem Node.getOrderedControlPoints_of_mem (root : Node α) (k : Int) (reach : ControlPoint α)
    (hmem : reach ∈ root.getControlPoints) :
    ∃ r, root.getOrderedControlPoints k reach = some r ∧
      r.length = min (k % 2 ^ 64).toNat (reach.indices.length + 1) ∧
      ∀ (i : Nat) (link : ControlPoint α), r[i]? = some link →
        ∃ m, root.descend link.indices = some m := by
  obtain ⟨t, ht, _, _⟩ := Node.getControlPoints_descend _ root reach rfl hmem
  obtain ⟨r, hr, hlen, hA, _, _⟩ :=
    Node.orderedHops_spec k reach reach.indices.reverse root t ht
  refine ⟨r, hr, ?_, ?_⟩
  · rw [hlen, List.length_reverse]
  · intro i link hi
    obtain ⟨hinds, nm, hnm, _⟩ := hA i link hi
    refine ⟨nm, ?_⟩
    rw [Node.descend, hinds, List.reverse_reverse]
    exact hnm

end Links

section InverseKinematicsLemmas

variable {α : Type} [LinearOrderedField α]

theorem IkState.consistent_length (num_ik moving_joint : Int) (path : List Nat)
    (s : IkState α) (h : s.consistent num_ik moving_joint path) :
    s.ik_struc.length = min (num_ik % 2 ^ 64).toNat (path.length + 1) := by
  obtain ⟨_, hcc, reach, hreach, hpath, hik⟩ := h
  rw [hcc] at hreach
  obtain ⟨r, hr, hlen, _⟩ := Node.getOrderedControlPoints_of_mem s.selected.root num_ik reach
    (atInt_mem _ _ _ hreach)
  have : r = s.ik_struc := by
    have h2 : s.selected.root.getOrderedControlPoints num_ik reach = some s.ik_struc := hik
    rw [hr] at h2
    exact Option.some.inj h2
  rw [← this, hlen, hpath]

/-- One link application from a consistent state: it returns, the state stays
consistent, and `iterations` has grown by one. -/
theorem ikLink_consistent (sqrt : α → α) (num_ik moving_joint : Int) (target : Vec3 α)
    (path : List Nat) (i : Nat) (s : IkState α)
    (h : s.consistent num_ik moving_joint path) (hi : i < s.ik_struc.length)
    (hint : s.iterations + 1 < 2 ^ 31) :
    ∃ s', ikLink sqrt num_ik moving_joint target i s = some s' ∧
      s'.consistent num_ik moving_joint path ∧ s'.iterations = s.iterations + 1 ∧
      (s'.has_moved = false → s.has_moved = false) := by
  obtain ⟨hwf, hcc, reach, hreach, hpath, hik⟩ := h
  have hreach0 := hreach
  rw [hcc] at hreach
  obtain ⟨r, hr, _, hvalid⟩ := Node.getOrderedControlPoints_of_mem s.selected.root num_ik
    reach (atInt_mem _ _ _ hreach)
  have hrs : r = s.ik_struc := by
    have h2 : s.selected.root.getOrderedControlPoints num_ik reach = some s.ik_struc := hik
    rw [hr] at h2
    exact Option.some.inj h2
  subst hrs
  obtain ⟨link, hlink⟩ : ∃ link, s.ik_struc[i]? = some link :=
    ⟨s.ik_struc[i], List.getElem?_eq_getElem hi⟩
  obtain ⟨m, hm⟩ := hvalid i link hlink
  obtain ⟨root', hroot⟩ := Node.transformIndsAnchor_isSome s.selected.root m link.indices
    link.anchor (pivotMatrix sqrt reach.coords target link.anchor) hwf hm
  have hwf' : root'.wellFormed = true := by
    rw [Node.transformIndsAnchor, Node.transformHops_eq] at hroot
    exact Node.applyAt_wellFormed _
      (fun a b hab hwa => Node.transformHere_wellFormed _ _ a b hab hwa) _ _ _ hroot hwf
  have hgcp := Node.transformIndsAnchor_getControlPoints _ _ _ _ _ hroot
  have hreach' : ∃ reach', atInt root'.getControlPoints moving_joint = some reach' ∧
      reach'.indices = path := by
    rw [hgcp, atInt_map]
    simp only [ObjectHierarchical.getControlPoints] at hreach
    rw [hreach]
    refine ⟨_, rfl, ?_⟩
    simp only
    split
    · exact hpath
    · exact hpath
  obtain ⟨reach', hreach', hpath'⟩ := hreach'
  obtain ⟨r', hr', _, _⟩ := Node.getOrderedControlPoints_of_mem root' num_ik reach'
    (atInt_mem _ _ _ hreach')
  refine ⟨⟨{ s.selected with root := root' }, root'.getControlPoints, r',
    if 1 / 100 ≤ Vec3.distance sqrt reach.coords reach'.coords then true else s.has_moved,
    s.iterations + 1⟩, ?_, ⟨hwf', rfl, reach', hreach', hpath', hr'⟩, rfl, ?_⟩
  · simp only [ikLink, hreach0, hlink, ObjectHierarchical.transform, hroot,
      ObjectHierarchical.getControlPoints, hreach', ObjectHierarchical.getOrderedControlPoints,
      hr', hint, if_true]
  · intro hm
    simp only at hm
    split at hm
    · exact absurd hm (by simp)
    · exact hm

/-- The `for` loop from a consistent state: with fuel for the links that remain it ends,
in a consistent state, after one application for each of them. -/
theorem ikFor_consistent (sqrt : α → α) (num_ik moving_joint : Int) (target : Vec3 α)
    (path : List Nat) (n : Nat) (hn : n = min (num_ik % 2 ^ 64).toNat (path.length + 1)) :
    ∀ (fuel i : Nat) (s : IkState α), s.consistent num_ik moving_joint path → i ≤ n →
      n - i < fuel → s.iterations + (n - i) < 2 ^ 31 →
      ∃ s', ikFor sqrt num_ik moving_joint target fuel i s = .done s' ∧
        s'.consistent num_ik moving_joint path ∧ s'.iterations = s.iterations + (n - i) ∧
        (s'.has_moved = false → s.has_moved = false) := by
  intro fuel
  induction fuel with
  | zero => intro i s _ _ hf; omega
  | succ fuel ih =>
    intro i s hs hi hf hint
    have hlen := IkState.consistent_length num_ik moving_joint path s hs
    rw [← hn] at hlen
    rw [ikFor]
    by_cases hlt : i < n
    · obtain ⟨s1, h1, hs1, hit1, hm1⟩ := ikLink_consistent sqrt num_ik moving_joint target path
        i s hs (by omega) (by omega)
      obtain ⟨s2, h2, hs2, hit2, hm2⟩ := ih (i + 1) s1 hs1 (by omega) (by omega) (by omega)
      refine ⟨s2, ?_, hs2, by omega, fun h => hm1 (hm2 h)⟩
      rw [if_pos (by omega), h1]
      exact h2
    · refine ⟨s, ?_, hs, by omega, fun h => h⟩
      rw [if_neg (by omega)]

/-- The `while` loop from a consistent state at the start of a pass, after `passes`
whole passes of `n` applications: with fuel for the passes that remain it ends, after
whole passes, not more than `n * n` of them. -/
theorem ikWhile_consistent (sqrt : α → α) (num_ik moving_joint : Int) (target : Vec3 α)
    (path : List Nat) (n forFuel : Nat)
    (hn : n = min (num_ik % 2 ^ 64).toNat (path.length + 1)) (hnum : num_ik = (n : Int))
    (hfor : n < forFuel) (hint : n ^ 3 < 2 ^ 31) :
    ∀ (fuel passes : Nat) (s : IkState α), s.consistent num_ik moving_joint path →
      s.iterations = passes * n → passes * n < n ^ 3 → n * n - passes < fuel →
      ∃ s' total, ikWhile sqrt num_ik moving_joint target forFuel fuel passes s
          = .done (s', total) ∧
        s'.consistent num_ik moving_joint path ∧
        s'.iterations = total * n ∧ total ≤ n * n ∧ s'.iterations ≤ n ^ 3 ∧
        (s'.has_moved = false ∨ s'.iterations = n ^ 3) := by
  have hcube : n ^ 3 = n * n * n := by ring
  intro fuel
  induction fuel with
  | zero => intro passes s _ _ _ hf; omega
  | succ fuel ih =>
    intro passes s hs hit hlt hf
    have hp : passes < n * n := by
      rw [hcube] at hlt
      exact Nat.lt_of_mul_lt_mul_right hlt
    have hp1 : (passes + 1) * n ≤ n ^ 3 := by
      rw [hcube]
      exact Nat.mul_le_mul_right n hp
    rw [ikWhile]
    by_cases hmoved : s.has_moved = true
    · rw [if_pos hmoved]
      have hs0 : IkState.consistent num_ik moving_joint path { s with has_moved := false } := hs
      obtain ⟨s1, h1, hs1, hit1, _⟩ := ikFor_consistent sqrt num_ik moving_joint target path n
        hn forFuel 0 { s with has_moved := false } hs0 (Nat.zero_le n) (by omega)
        (by
          have : (passes + 1) * n = passes * n + n := by ring
          simp only [Nat.sub_zero]
          omega)
      have hit1' : s1.iterations = (passes + 1) * n := by
        have : (passes + 1) * n = passes * n + n := by ring
        simp only [Nat.sub_zero] at hit1
        omega
      rw [h1]
      simp only
      by_cases hbreak : num_ik ^ 3 ≤ (s1.iterations : Int)
      · rw [if_pos hbreak]
        have hge : n ^ 3 ≤ s1.iterations := by
          rw [hnum] at hbreak
          exact_mod_cast hbreak
        exact ⟨s1, passes + 1, rfl, hs1, hit1', hp, by omega, Or.inr (by omega)⟩
      · rw [if_neg hbreak]
        have hlt1 : s1.iterations < n ^ 3 := by
          rw [hnum] at hbreak
          have : ¬ n ^ 3 ≤ s1.iterations := by
            intro hc
            apply hbreak
            exact_mod_cast hc
          omega
        exact ih (passes + 1) s1 hs1 hit1' (by omega) (by omega)
    · rw [if_neg hmoved]
      refine ⟨s, passes, rfl, hs, hit, le_of_lt hp, by omega, Or.inl ?_⟩
      cases hb : s.has_moved
      · rfl
      · exact absurd hb hmoved

/-- The IK solve: with a well-formed tree, the joint `moving_joint` a control point of the
tree with the path of `p`, `ik_level >= 1` and `n = min(path length + 1, ik_level)` with
`n^3` in the range of `int`, the solve with fuel for `n * n` passes ends, after whole
passes of `n` applications, at most `n * n` of them, and either `has_moved` is false or
`iterations` is `n^3`. -/
theorem ikSolve_spec (sqrt : α → α) (selected : ObjectHierarchical α) (p reach : ControlPoint α)
    (moving_joint ik_level : Int) (fuel n : Nat)
    (hwf : selected.root.wellFormed = true)
    (htree : atInt selected.getControlPoints moving_joint = some reach)
    (hpath : reach.indices = p.indices) (hlevel : 1 ≤ ik_level)
    (hn : n = min (p.indices.length + 1) ik_level.toNat) (hint : n ^ 3 < 2 ^ 31)
    (hfuel : n * n < fuel) :
    ∃ s passes, ikSolve sqrt selected p moving_joint ik_level fuel = .done (s, passes) ∧
      s.iterations = passes * n ∧ passes ≤ n * n ∧ s.iterations ≤ n ^ 3 ∧
      (s.has_moved = false ∨ s.iterations = n ^ 3) := by
  have hn1 : 1 ≤ n := by
    rw [hn]
    have : 1 ≤ ik_level.toNat := by omega
    omega
  have hcube : n ^ 3 = n * n * n := by ring
  have hnlt : n < 2 ^ 31 := by
    have h1 : n * 1 ≤ n * n := Nat.mul_le_mul_left n hn1
    have h2 : n * n * 1 ≤ n * n * n := Nat.mul_le_mul_left (n * n) hn1
    omega
  have hnum : min ((p.indices.length : Int) + 1) ik_level = (n : Int) := by
    rw [hn]
    omega
  have hsize : n = min ((min ((p.indices.length : Int) + 1) ik_level) % 2 ^ 64).toNat
      (p.indices.length + 1) := by
    rw [hnum]
    have : ((n : Int) % 2 ^ 64).toNat = n := by omega
    rw [this, hn]
    omega
  obtain ⟨r, hr, _, _⟩ := Node.getOrderedControlPoints_of_mem selected.root
    (min ((p.indices.length : Int) + 1) ik_level) reach (atInt_mem _ _ _ htree)
  have hr' : selected.getOrderedControlPoints (min ((p.indices.length : Int) + 1) ik_level)
      reach = some r := hr
  obtain ⟨s, total, hw, _, h1, h2, h3, h4⟩ := ikWhile_consistent sqrt
    (min ((p.indices.length : Int) + 1) ik_level) moving_joint p.coords p.indices n fuel
    hsize hnum (by
      have h1 : n * 1 ≤ n * n := Nat.mul_le_mul_left n hn1
      omega) hint fuel 0
    ⟨selected, selected.getControlPoints, r, true, 0⟩ ⟨hwf, rfl, reach, htree, hpath, hr'⟩
    (by simp) (by
      rw [hcube]
      have : 0 < n * n * n := by positivity
      omega) (by omega)
  refine ⟨s, total, ?_, h1, h2, h3, h4⟩
  rw [ikSolve, htree]
  simp only [hr']
  exact hw

end InverseKinematicsLemmas

section InverseKinematicsClaims

variable {α : Type} [LinearOrderedField α]

/-- A link application that leaves `has_moved` false has moved the effector by less than
`0.01`. -/
theorem ikLink_not_moved (sqrt : α → α) (num_ik moving_joint : Int) (target : Vec3 α)
    (i : Nat) (s s' : IkState α) (reach reach' : ControlPoint α)
    (h : ikLink sqrt num_ik moving_joint target i s = some s')
    (hr : atInt s.current_ctrl moving_joint = some reach)
    (hr' : atInt s'.current_ctrl moving_joint = some reach')
    (hm : s'.has_moved = false) :
    Vec3.distance sqrt reach.coords reach'.coords < 1 / 100 := by
  simp only [ikLink, hr] at h
  split at h
  · exact absurd h (by simp)
  · split at h
    · exact absurd h (by simp)
    · split at h
      · exact absurd h (by simp)
      · rename_i r1 hr1
        split at h
        · exact absurd h (by simp)
        · split at h
          · simp only [Option.some.injEq] at h
            subst h
            simp only at hr' hm
            rw [hr1] at hr'
            simp only [Option.some.injEq] at hr'
            subst hr'
            by_contra hge
            rw [if_pos (not_lt.mp hge)] at hm
            exact absurd hm (by simp)
          · exact absurd h (by simp)

/-- C19: for every well-formed tree, every joint `moving_joint` that is a control point
of the tree with the path of `p = ctrl_pnts[moving_joint]`, and `ik_level >= 1`, with
`n = min(path length + 1, ik_level)` and `n^3` in the range of `int`: the IK solve with
fuel for `n * n` passes ends (it neither runs out of fuel nor into undefined behaviour),
after whole passes of `n` link applications each (`iterations = passes * n`), at most
`n * n` passes, and at most `n^3` applications, whatever the geometry, the target and
the square root. -/
theorem ikSolve_terminates_within_cube (sqrt : α → α) (selected : ObjectHierarchical α)
    (p reach : ControlPoint α) (moving_joint ik_level : Int) (fuel n : Nat)
    (hwf : selected.root.wellFormed = true)
    (htree : atInt selected.getControlPoints moving_joint = some reach)
    (hpath : reach.indices = p.indices) (hlevel : 1 ≤ ik_level)
    (hn : n = min (p.indices.length + 1) ik_level.toNat) (hint : n ^ 3 < 2 ^ 31)
    (hfuel : n * n < fuel) :
    ∃ s passes, ikSolve sqrt selected p moving_joint ik_level fuel = .done (s, passes) ∧
      s.iterations = passes * n ∧ passes ≤ n * n ∧ s.iterations ≤ n ^ 3 := by
  obtain ⟨s, passes, h, h1, h2, h3, _⟩ := ikSolve_spec sqrt selected p reach moving_joint
    ik_level fuel n hwf htree hpath hlevel hn hint hfuel
  exact ⟨s, passes, h, h1, h2, h3⟩

end InverseKinematicsClaims

theorem ikSolve_terminates_within_cube_witness :
    armObject.root.wellFormed = true ∧
    atInt armObject.getControlPoints 2 = some ⟨qpt 6 0 0, qpt 6 0 0, qpt 4 0 0, [0, 0]⟩ ∧
    (1 : Int) ≤ 2 ∧ 2 = min (armStall.indices.length + 1) (2 : Int).toNat ∧
    2 ^ 3 < 2 ^ 31 ∧ 2 * 2 < 5 ∧
    ∃ s passes, ikSolve (sqrtIn [0, 1, 2, 3, 4, 5, 6]) armObject armStall 2 2 5
        = .done (s, passes) ∧
      s.iterations = passes * 2 ∧ passes ≤ 2 * 2 ∧ s.iterations ≤ 2 ^ 3 :=
  ⟨rfl, rfl, by decide, by decide, by decide, by decide,
    ikSolve_terminates_within_cube (sqrtIn [0, 1, 2, 3, 4, 5, 6]) armObject armStall
      ⟨qpt 6 0 0, qpt 6 0 0, qpt 4 0 0, [0, 0]⟩ 2 2 5 2 rfl rfl rfl (by decide) (by decide)
      (by decide) (by decide)⟩

/-- C20, as stated, fails on the arm: its three links of length 2 lie along the `x` axis and
its effector, at `(6, 0, 0)`, is dragged to `(5, 0, 0)`, within the extended length of
the arm, with `ik_level = 3`. The guard of the IK branch holds. Every rotation of the
first pass is the identity, so the solve returns after one pass with `iterations = 3`,
which is not `27`, with `has_moved` false, and with the effector at distance `1` from
the target, which is not below `0.01`. -/
theorem ikSolve_stalls_short_of_target :
    atInt (dragTo armObject.getControlPoints 2 (qpt 5 0 0)) 2 = some armStall ∧
    armStall.coords ≠ armStall.initial ∧
    ((ikSolve (sqrtIn [0, 1, 2, 3, 4, 5, 6]) armObject armStall 2 3 10).result?.map
      (fun r => (r.1.iterations, r.1.has_moved, r.2,
        r.1.reach (sqrtIn [0, 1, 2, 3, 4, 5, 6]) 2 armStall.coords)))
      = some (3, false, 1, some 1) ∧
    3 ≠ 3 ^ 3 ∧ ¬ ((1 : ℚ) < 1 / 100) :=
  ⟨rfl, by decide!, by decide!, by decide, by decide!⟩

end bgq_opengl


/-! ## Policy strings, the anchor argument, the bounding box, the object methods and the selection -/

namespace bgq_opengl

section PolicyStrings

variable {α : Type} [LinearOrderedField α]

theorem middleAnchor_accepts (middle : String) (parentGeom g : Geometry α) (a : Vec3 α)
    (h : middleAnchor middle parentGeom g = some a) : middle = "left" ∨ middle = "inter" := by
  unfold middleAnchor at h
  by_cases h1 : middle = "left"
  · exact Or.inl h1
  · by_cases h2 : middle = "inter"
    · exact Or.inr h2
    · simp [h1, h2] at h

theorem endControlPoint_accepts (end_ : String) (g : Geometry α) (v : Vec3 α)
    (h : endControlPoint end_ g = some v) : end_ = "right" ∨ end_ = "down" := by
  unfold endControlPoint at h
  by_cases h1 : end_ = "right"
  · exact Or.inl h1
  · by_cases h2 : end_ = "down"
    · exact Or.inr h2
    · simp [h1, h2] at h

theorem rootEndControlPoint_accepts (end_ : String) (g : Geometry α) (v : Vec3 α)
    (h : rootEndControlPoint end_ g = some v) : end_ = "right" := by
  unfold rootEndControlPoint at h
  by_cases h1 : end_ = "right"
  · exact h1
  · simp [h1] at h

theorem firstAnchor_accepts (first : String) (g : Geometry α) (a : Vec3 α)
    (h : firstAnchor first g = some a) : first = "left" ∨ first = "centre" := by
  unfold firstAnchor at h
  by_cases h1 : first = "left"
  · exact Or.inl h1
  · by_cases h2 : first = "centre"
    · exact Or.inr h2
    · simp [h1, h2] at h

/-- When the loop over a non-empty list of children returns, the call on the first child
has returned. -/
theorem calculateChildren_head (geometry : Geometry α) (middle end_ : String)
    (child : Node α) (rest : List (Node α)) (control : List (Vec3 α))
    (r : List (Node α) × List (Vec3 α))
    (h : calculateChildren geometry middle end_ (child :: rest) control = some r) :
    ∃ child', child.calculateControlPointsIn geometry middle end_ = some child' := by
  rw [calculateChildren] at h
  cases hc : child.calculateControlPointsIn geometry middle end_ with
  | none => simp [hc] at h
  | some child' => exact ⟨child', rfl⟩

/-- The overload with a parent geometry returns only for `middle` among `left`, `inter`
and `end` among `right`, `down`. -/
theorem Node.calculateControlPointsIn_accepts (middle end_ : String) (n : Node α) :
    ∀ (parentGeom : Geometry α) (n' : Node α),
      n.calculateControlPointsIn parentGeom middle end_ = some n' →
      (middle = "left" ∨ middle = "inter") ∧ (end_ = "right" ∨ end_ = "down") := by
  induction n using Node.induction with
  | step g cs an ao c co ih =>
    intro parentGeom n' h
    cases cs with
    | nil =>
      rw [Node.calculateControlPointsIn] at h
      cases hv : endControlPoint end_ g with
      | none => simp [hv] at h
      | some v =>
        cases ha : middleAnchor middle parentGeom g with
        | none => simp [hv, ha] at h
        | some a =>
          exact ⟨middleAnchor_accepts _ _ _ _ ha, endControlPoint_accepts _ _ _ hv⟩
    | cons child rest =>
      rw [Node.calculateControlPointsIn] at h
      cases hr : calculateChildren g middle end_ (child :: rest) c with
      | none => simp [hr] at h
      | some r =>
        cases ha : middleAnchor middle parentGeom g with
        | none => simp [hr, ha] at h
        | some a =>
          obtain ⟨child', hchild⟩ := calculateChildren_head g middle end_ child rest c r hr
          exact ⟨middleAnchor_accepts _ _ _ _ ha,
            (ih child (List.mem_cons_self _ _) g child' hchild).2⟩

/-- C22, as amended: each policy has its own accepted values. For every tree,
`calculateControlPoints(first, middle, end)` completes without aborting exactly when
`first` is `left` or `centre`, `middle` is `left` or `inter` if the root has children (on
a tree of one node `middle` is not examined), and `end` is `right`, or `down` if the root
has children; for every other combination it runs into `assert(false)`. -/
theorem calculateControlPoints_accepts_iff (first middle end_ : String) (n : Node α) :
    (∃ n', n.calculateControlPoints first middle end_ = some n') ↔
      (first = "left" ∨ first = "centre") ∧
      (n.children ≠ [] → middle = "left" ∨ middle = "inter") ∧
      (end_ = "right" ∨ (end_ = "down" ∧ n.children ≠ [])) := by
  constructor
  · rintro ⟨n', h⟩
    cases n with
    | mk g cs an ao c co =>
      cases cs with
      | nil =>
        rw [Node.calculateControlPoints] at h
        cases hv : rootEndControlPoint end_ g with
        | none => simp [hv] at h
        | some v =>
          cases ha : firstAnchor first g with
          | none => simp [hv, ha] at h
          | some a =>
            exact ⟨firstAnchor_accepts _ _ _ ha, fun hne => absurd rfl hne,
              Or.inl (rootEndControlPoint_accepts _ _ _ hv)⟩
      | cons child rest =>
        rw [Node.calculateControlPoints] at h
        cases hr : calculateChildren g middle end_ (child :: rest) c with
        | none => simp [hr] at h
        | some r =>
          cases ha : firstAnchor first g with
          | none => simp [hr, ha] at h
          | some a =>
            obtain ⟨child', hchild⟩ := calculateChildren_head g middle end_ child rest c r hr
            obtain ⟨hm, he⟩ := Node.calculateControlPointsIn_accepts middle end_ child g child'
              hchild
            refine ⟨firstAnchor_accepts _ _ _ ha, fun _ => hm, ?_⟩
            rcases he with he | he
            · exact Or.inl he
            · exact Or.inr ⟨he, by simp [Node.children]⟩
  · rintro ⟨hfirst, hmiddle, hend⟩
    cases n with
    | mk g cs an ao c co =>
      obtain ⟨a, ha⟩ := firstAnchor_isSome first g hfirst
      cases cs with
      | nil =>
        rcases hend with rfl | ⟨_, hne⟩
        · exact ⟨Node.mk g [] a a (c ++ [g.getBoundingBox.right])
            (c ++ [g.getBoundingBox.right]),
            by simp only [Node.calculateControlPoints, rootEndControlPoint, if_true, ha]⟩
        · exact absurd rfl hne
      | cons child rest =>
        have hend' : end_ = "right" ∨ end_ = "down" := by
          rcases hend with h | ⟨h, _⟩
          · exact Or.inl h
          · exact Or.inr h
        have hmiddle' := hmiddle (by simp [Node.children])
        obtain ⟨r, hr⟩ := calculateChildren_isSome g middle end_ (child :: rest) c
          (fun ch _ => Node.calculateControlPointsIn_isSome middle end_ hmiddle' hend' ch g)
        obtain ⟨cs', c'⟩ := r
        exact ⟨Node.mk g cs' a a c' c', by simp only [Node.calculateControlPoints, hr, ha]⟩

end PolicyStrings

/-- C22, as stated, fails in both directions. The values `right` for `first` and `centre`
for `middle` are in the enumerated set and make the call abort, on a tree of one node
and on a chain; the value `bogus` for `middle` is outside the set and the call completes
on a tree of one node. -/
theorem calculateControlPoints_accepted_values_differ :
    (rawLeaf.calculateControlPoints "right" "inter" "right").isSome = false ∧
    (rawChain.calculateControlPoints "left" "centre" "right").isSome = false ∧
    (rawLeaf.calculateControlPoints "left" "bogus" "right").isSome = true := by
  decide!

theorem Node.applyAt_congr {α : Type} (op op' : Node α → Option (Node α)) (h : ∀ m, op m = op' m)
    (p : List Nat) : ∀ n : Node α, n.applyAt op p = n.applyAt op' p := by
  induction p with
  | nil => intro n; exact h n
  | cons ind rest ih =>
    intro n
    cases n with
    | mk g cs an ao c co =>
      rw [Node.applyAt, Node.applyAt]
      cases cs[ind]? with
      | none => rfl
      | some child => simp only [ih child]

section AnchorArgument

variable {α : Type} [LinearOrderedField α]

theorem Node.transformHere_anchor_irrelevant (a1 a2 : Vec3 α) (M : Mat4 α) (n : Node α) :
    n.transformHere a1 M = n.transformHere a2 M := by
  cases n with
  | mk g cs an ao c co =>
    rw [Node.transformHere, Node.transformHere, transformAnchorChildren_eq,
      transformAnchorChildren_eq,
      allSome_congr (Node.transformAnchor a1 M) (Node.transformAnchor a2 M) cs
        (fun ch _ => by
          rw [Node.transformAnchor_eq_visit, Node.transformAnchor_eq_visit])]

/-- C29: the anchor argument of `transform` has no effect. For every tree, path `p`,
matrix `M` and points `a1`, `a2`, the calls `transform(p, a1, M)` and `transform(p, a2,
M)` give the same result, and so do `transform(a1, M)` and `transform(a2, M)`, on `Node`
and through `ObjectHierarchical`. -/
theorem transform_anchor_argument_unused (o : ObjectHierarchical α) (p : List Nat)
    (M : Mat4 α) (a1 a2 : Vec3 α) :
    o.root.transformIndsAnchor p a1 M = o.root.transformIndsAnchor p a2 M ∧
    o.root.transformAnchor a1 M = o.root.transformAnchor a2 M ∧
    o.transform p a1 M = o.transform p a2 M ∧
    o.transformAnchor a1 M = o.transformAnchor a2 M := by
  have h1 : o.root.transformIndsAnchor p a1 M = o.root.transformIndsAnchor p a2 M := by
    rw [Node.transformIndsAnchor, Node.transformIndsAnchor, Node.transformHops_eq,
      Node.transformHops_eq]
    exact Node.applyAt_congr _ _ (Node.transformHere_anchor_irrelevant a1 a2 M) _ _
  have h2 : o.root.transformAnchor a1 M = o.root.transformAnchor a2 M := by
    rw [Node.transformAnchor_eq_visit, Node.transformAnchor_eq_visit]
  refine ⟨h1, h2, ?_, ?_⟩
  · rw [ObjectHierarchical.transform, ObjectHierarchical.transform, h1]
  · rw [ObjectHierarchical.transformAnchor, ObjectHierarchical.transformAnchor, h2]

end AnchorArgument

/-- The function `ObjectHierarchical::translate` returns the object it was given. -/
theorem ObjectHierarchical.translate_eq {α : Type} (o : ObjectHierarchical α) (x y z : α) :
    o.translate x y z = o := rfl

/-- C24, evaluated on the arm and the translation by `(1, 0, 0)`: after
`ObjectHierarchical::translate` the control points are where they were, while `translate`
on the root node moves each of them, and its anchor, by `(1, 0, 0)`. -/
theorem objectHierarchical_translate_moves_nothing :
    (armObject.translate 1 0 0).getControlPoints = armObject.getControlPoints ∧
    (armObject.translate 1 0 0).getControlPoints
      = [⟨qpt 2 0 0, qpt 2 0 0, qpt 0 0 0, []⟩, ⟨qpt 4 0 0, qpt 4 0 0, qpt 2 0 0, [0]⟩,
         ⟨qpt 6 0 0, qpt 6 0 0, qpt 4 0 0, [0, 0]⟩] ∧
    (armObject.root.translate 1 0 0).map Node.getControlPoints
      = some [⟨qpt 3 0 0, qpt 3 0 0, qpt 1 0 0, []⟩, ⟨qpt 5 0 0, qpt 5 0 0, qpt 3 0 0, [0]⟩,
         ⟨qpt 7 0 0, qpt 7 0 0, qpt 5 0 0, [0, 0]⟩] := by
  decide!

/-- C23, evaluated on a parent with one child: the box of the parent spans `x` from 0 to
1 and the box of the child spans `x` from 1 to 2. `Node::getBoundingBox` on the parent
returns the box of the parent alone, which leaves out the vertex `(2, 1, 1)` of the
child, while the fold over every child, child 0 included, reaches `x = 2`. -/
theorem getBoundingBox_skips_first_child :
    rawPair.getBoundingBox = ⟨⟨0, 0, 0⟩, ⟨1, 1, 1⟩⟩ ∧
    rawPair.getBoundingBox = rawPair.geometry.getBoundingBox ∧
    (rawPair.children.map Node.getBoundingBox) = [⟨⟨1, 0, 0⟩, ⟨2, 1, 1⟩⟩] ∧
    widenByChildren rawPair.geometry.getBoundingBox rawPair.children
      = ⟨⟨0, 0, 0⟩, ⟨2, 1, 1⟩⟩ := by
  decide!

section Selection

variable {α : Type} [LinearOrderedField α]

/-- The selection loop from the index `i` on, with `moving_joint` and `min_dist` as they
stand: when no distance that remains is below both `min_dist` and 10 the selection is
kept; otherwise the loop selects the first index, counted from `i`, of the least distance
that remains. -/
theorem pickJoint_spec (dists : List α) :
    ∀ (i : Nat) (moving_joint : Int) (min_dist : α),
      ((∀ d ∈ dists, ¬ (d < min_dist ∧ d < 10)) →
        pickJoint dists i moving_joint min_dist = moving_joint) ∧
      ((∃ d ∈ dists, d < min_dist ∧ d < 10) →
        ∃ (k : Nat) (dk : α), pickJoint dists i moving_joint min_dist = ((i + k : Nat) : Int) ∧
          dists[k]? = some dk ∧ dk < min_dist ∧ dk < 10 ∧
          (∀ (j : Nat) (d : α), dists[j]? = some d → dk ≤ d) ∧
          (∀ (j : Nat) (d : α), j < k → dists[j]? = some d → dk < d)) := by
  induction dists with
  | nil =>
    intro i moving_joint min_dist
    refine ⟨fun _ => rfl, ?_⟩
    rintro ⟨d, hd, _⟩
    simp at hd
  | cons dist rest ih =>
    intro i moving_joint min_dist
    by_cases hsel : dist < min_dist ∧ dist < 10
    · have hstep : pickJoint (dist :: rest) i moving_joint min_dist
          = pickJoint rest (i + 1) (i : Int) dist := by
        rw [pickJoint, if_pos hsel]
      refine ⟨fun hnone => absurd hsel (hnone dist (List.mem_cons_self _ _)), fun _ => ?_⟩
      obtain ⟨ih1, ih2⟩ := ih (i + 1) (i : Int) dist
      by_cases hmore : ∃ d ∈ rest, d < dist ∧ d < 10
      · obtain ⟨k, dk, hk, hget, hlt, hten, hmin, hfirst⟩ := ih2 hmore
        refine ⟨k + 1, dk, ?_, by simpa using hget, lt_trans hlt hsel.1, hten, ?_, ?_⟩
        · rw [hstep, hk]
          congr 1
          omega
        · intro j d hj
          cases j with
          | zero =>
            simp only [List.getElem?_cons_zero, Option.some.injEq] at hj
            subst hj
            exact le_of_lt hlt
          | succ j => exact hmin j d (by simpa using hj)
        · intro j d hjk hj
          cases j with
          | zero =>
            simp only [List.getElem?_cons_zero, Option.some.injEq] at hj
            subst hj
            exact hlt
          | succ j => exact hfirst j d (by omega) (by simpa using hj)
      · have hnone : ∀ d ∈ rest, ¬ (d < dist ∧ d < 10) := by
          intro d hd hc
          exact hmore ⟨d, hd, hc⟩
        refine ⟨0, dist, ?_, List.getElem?_cons_zero, hsel.1, hsel.2, ?_, ?_⟩
        · rw [hstep, ih1 hnone]
          rfl
        · intro j d hj
          cases j with
          | zero =>
            simp only [List.getElem?_cons_zero, Option.some.injEq] at hj
            subst hj
            exact le_refl _
          | succ j =>
            have hd : d ∈ rest := List.getElem?_mem (by simpa using hj)
            by_contra hc
            exact hnone d hd ⟨not_le.mp hc, lt_trans (not_le.mp hc) hsel.2⟩
        · intro j d hj0
          omega
    · have hstep : pickJoint (dist :: rest) i moving_joint min_dist
          = pickJoint rest (i + 1) moving_joint min_dist := by
        rw [pickJoint, if_neg hsel]
      obtain ⟨ih1, ih2⟩ := ih (i + 1) moving_joint min_dist
      constructor
      · intro hnone
        rw [hstep]
        exact ih1 (fun d hd => hnone d (List.mem_cons_of_mem _ hd))
      · rintro ⟨d0, hd0, hc0⟩
        have hmore : ∃ d ∈ rest, d < min_dist ∧ d < 10 := by
          rcases List.mem_cons.mp hd0 with h | h
          · subst h
            exact absurd hc0 hsel
          · exact ⟨d0, h, hc0⟩
        obtain ⟨k, dk, hk, hget, hlt, hten, hmin, hfirst⟩ := ih2 hmore
        have hdist : dk < dist := by
          by_contra hc
          have hle := not_lt.mp hc
          exact hsel ⟨lt_of_le_of_lt hle hlt, lt_of_le_of_lt hle hten⟩
        refine ⟨k + 1, dk, ?_, by simpa using hget, hlt, hten, ?_, ?_⟩
        · rw [hstep, hk]
          congr 1
          omega
        · intro j d hj
          cases j with
          | zero =>
            simp only [List.getElem?_cons_zero, Option.some.injEq] at hj
            subst hj
            exact le_of_lt hdist
          | succ j => exact hmin j d (by simpa using hj)
        · intro j d hjk hj
          cases j with
          | zero =>
            simp only [List.getElem?_cons_zero, Option.some.injEq] at hj
            subst hj
            exact hdist
          | succ j => exact hfirst j d (by omega) (by simpa using hj)

/-- C25: with the screen distances `dists` of the control points to the cursor. A release
sets `moving_joint` to `-1`. A press with no joint selected leaves `moving_joint` at `-1`
when no control point is closer than 10 pixels; when one is, it sets `moving_joint` to an
index `k` whose distance is below 10 and minimal over all control points, the lowest such
index on ties (the distance at every lower index is strictly greater). In both cases the
control points are left as they are. -/
theorem handleMouseEvents_selects_nearest (screenDist : ControlPoint α → α)
    (click : ControlPoint α → Vec3 α) (moving_joint : Int) (ctrl_pnts : List (ControlPoint α)) :
    handleMouseEvents 0 screenDist click moving_joint ctrl_pnts = some (-1, ctrl_pnts) ∧
    ((∀ d ∈ ctrl_pnts.map screenDist, ¬ d < 10) →
      handleMouseEvents 1 screenDist click (-1) ctrl_pnts = some (-1, ctrl_pnts)) ∧
    ((∃ d ∈ ctrl_pnts.map screenDist, d < 10) →
      ∃ (k : Nat) (dk : α),
        handleMouseEvents 1 screenDist click (-1) ctrl_pnts = some ((k : Int), ctrl_pnts) ∧
        (ctrl_pnts.map screenDist)[k]? = some dk ∧ dk < 10 ∧
        (∀ (j : Nat) (d : α), (ctrl_pnts.map screenDist)[j]? = some d → dk ≤ d) ∧
        (∀ (j : Nat) (d : α), j < k → (ctrl_pnts.map screenDist)[j]? = some d → dk < d)) := by
  have hpress : handleMouseEvents 1 screenDist click (-1) ctrl_pnts
      = some (pickJoint (ctrl_pnts.map screenDist) 0 (-1) 10000, ctrl_pnts) := by
    simp [handleMouseEvents]
  obtain ⟨h1, h2⟩ := pickJoint_spec (ctrl_pnts.map screenDist) 0 (-1) 10000
  refine ⟨by simp [handleMouseEvents], ?_, ?_⟩
  · intro hnone
    rw [hpress, h1 (fun d hd hc => hnone d hd hc.2)]
  · rintro ⟨d, hd, hlt⟩
    have hbig : d < (10000 : α) := lt_trans hlt (by norm_num)
    obtain ⟨k, dk, hk, hget, _, hten, hmin, hfirst⟩ := h2 ⟨d, hd, hbig, hlt⟩
    refine ⟨k, dk, ?_, hget, hten, hmin, hfirst⟩
    rw [hpress, hk]
    simp

end Selection

theorem handleMouseEvents_selects_nearest_witness :
    (∃ d ∈ onScreen.map xDist, d < 10) ∧
    ∃ (k : Nat) (dk : ℚ),
      handleMouseEvents 1 xDist ControlPoint.coords (-1) onScreen
        = some ((k : Int), onScreen) ∧
      (onScreen.map xDist)[k]? = some dk ∧ dk < 10 ∧
      (∀ (j : Nat) (d : ℚ), (onScreen.map xDist)[j]? = some d → dk ≤ d) ∧
      (∀ (j : Nat) (d : ℚ), j < k → (onScreen.map xDist)[j]? = some d → dk < d) :=
  ⟨⟨4, by decide!, by decide!⟩,
    (handleMouseEvents_selects_nearest xDist ControlPoint.coords (-1) onScreen).2.2
      ⟨4, by decide!, by decide!⟩⟩

/-- The joint the press of the example selects: the joint 1, the first of the two
nearest. -/
theorem handleMouseEvents_selects_nearest_example :
    (handleMouseEvents 1 xDist ControlPoint.coords (-1) onScreen).map Prod.fst = some 1 := by
  decide!

end bgq_opengl


/-! ## The tree built by `loadNode` -/

namespace bgq_opengl

section Loading

theorem mem_nodesOfChildren (cs : List Loaded) (m : Loaded) :
    m ∈ nodesOfChildren cs ↔ ∃ ch ∈ cs, m ∈ ch.nodes := by
  induction cs with
  | nil => simp [nodesOfChildren]
  | cons ch rest ih =>
    rw [nodesOfChildren, List.mem_append, ih]
    simp

theorem mem_entriesOfChildren (cs : List Loaded) (e : Int) :
    e ∈ (nodesOfChildren cs).map Loaded.currentInd ↔ ∃ ch ∈ cs, e ∈ ch.entries := by
  constructor
  · intro h
    obtain ⟨m, hm, rfl⟩ := List.mem_map.mp h
    obtain ⟨ch, hch, hmem⟩ := (mem_nodesOfChildren cs m).mp hm
    exact ⟨ch, hch, List.mem_map.mpr ⟨m, hmem, rfl⟩⟩
  · rintro ⟨ch, hch, h⟩
    obtain ⟨m, hm, rfl⟩ := List.mem_map.mp h
    exact List.mem_map.mpr ⟨m, (mem_nodesOfChildren cs m).mpr ⟨ch, hch, hm⟩, rfl⟩

theorem Loaded.entries_mk (c : Int) (m : Nat) (cs : List Loaded) :
    (Loaded.mk c m cs).entries = c :: (nodesOfChildren cs).map Loaded.currentInd := by
  rw [Loaded.entries, Loaded.nodes]
  rfl

theorem childOf_lt_length (parents : List Int) (c i : Nat) (h : childOf parents c i) :
    i < parents.length := by
  unfold childOf at h
  by_contra hc
  rw [List.getElem?_eq_none (by omega)] at h
  exact absurd h (by simp)

theorem childOf_unique (parents : List Int) (c c' i : Nat) (h : childOf parents c i)
    (h' : childOf parents c' i) : c = c' := by
  unfold childOf at h h'
  rw [h] at h'
  simpa using h'

theorem mem_childEntries (parents : List Int) (c i : Nat) :
    i ∈ childEntries parents (c : Int) ↔ childOf parents c i := by
  unfold childEntries
  rw [List.mem_filter, List.mem_range]
  constructor
  · rintro ⟨_, h⟩
    simpa [childOf] using h
  · intro h
    exact ⟨childOf_lt_length parents c i h, by simpa [childOf] using h⟩

/-- Along the parent links the entries increase and stay indices of the array, when every
entry with a parent that is an index has a smaller parent. -/
theorem reach_mono (parents : List Int)
    (hup : ∀ c i : Nat, c < parents.length → childOf parents c i → c < i) (a b : Nat)
    (h : Relation.ReflTransGen (childOf parents) a b) (ha : a < parents.length) :
    a ≤ b ∧ b < parents.length := by
  induction h with
  | refl => exact ⟨le_refl a, ha⟩
  | tail _ hstep ih =>
    exact ⟨le_of_lt (lt_of_le_of_lt ih.1 (hup _ _ ih.2 hstep)), childOf_lt_length _ _ _ hstep⟩

/-- The ancestors of an entry form a chain. -/
theorem reach_chain (parents : List Int) (a j : Nat)
    (h : Relation.ReflTransGen (childOf parents) a j) :
    ∀ b, Relation.ReflTransGen (childOf parents) b j →
      Relation.ReflTransGen (childOf parents) a b ∨
        Relation.ReflTransGen (childOf parents) b a := by
  induction h with
  | refl => intro b hb; exact Or.inr hb
  | tail hap hstep ih =>
    intro b hb
    rcases Relation.ReflTransGen.cases_tail hb with heq | ⟨p', hbp, hstep'⟩
    · subst heq
      exact Or.inl (Relation.ReflTransGen.tail hap hstep)
    · have : p' = _ := childOf_unique parents _ _ _ hstep' hstep
      subst this
      exact ih b hbp

/-- Two children of an entry that both reach the same entry are the same child. -/
theorem siblings_disjoint (parents : List Int)
    (hup : ∀ c i : Nat, c < parents.length → childOf parents c i → c < i) (c a b j : Nat)
    (hc : c < parents.length) (ha : childOf parents c a) (hb : childOf parents c b)
    (h1 : Relation.ReflTransGen (childOf parents) a j)
    (h2 : Relation.ReflTransGen (childOf parents) b j) : a = b := by
  have key : ∀ x y : Nat, childOf parents c x → childOf parents c y →
      Relation.ReflTransGen (childOf parents) x y → x = y := by
    intro x y hx hy hxy
    rcases Relation.ReflTransGen.cases_tail hxy with heq | ⟨p, hxp, hstep⟩
    · exact heq.symm
    · have hp : p = c := childOf_unique parents _ _ _ hstep hy
      subst hp
      have h3 := (reach_mono parents hup x p hxp (childOf_lt_length _ _ _ hx)).1
      have h4 := hup p x hc hx
      omega
  rcases reach_chain parents a j h1 b h2 with h | h
  · exact key a b ha hb h
  · exact (key b a hb ha h).symm

end Loading

section Loading2

/-- The loop over the indices that remain, when the recursive call builds the tree of
every child of `c`: it builds these trees, in the order of the indices. -/
theorem loadChildren_built (parents : List Int)
    (hup : ∀ c i : Nat, c < parents.length → childOf parents c i → c < i)
    (load : Int → Load Loaded) (c : Nat) (hc : c < parents.length)
    (hload : ∀ i : Nat, childOf parents c i →
      ∃ t, load (i : Int) = .built t ∧ t.builtFor parents i) :
    ∀ L : List Nat, L.Nodup →
      ∃ cs, loadChildren load parents (c : Int) L = .built cs ∧
        cs.map Loaded.currentInd
          = (L.filter (fun i => parents[i]? = some (c : Int))).map Int.ofNat ∧
        (∀ ch ∈ cs, ∃ i : Nat, i ∈ L ∧ childOf parents c i ∧ ch.builtFor parents i) ∧
        (∀ i ∈ L, childOf parents c i → ∃ ch ∈ cs, ch.builtFor parents i) ∧
        ((nodesOfChildren cs).map Loaded.currentInd).Nodup := by
  intro L
  induction L with
  | nil =>
    intro _
    exact ⟨[], rfl, rfl, by simp, by simp, by simp [nodesOfChildren]⟩
  | cons i rest ih =>
    intro hnd
    obtain ⟨hi, hrest⟩ := List.nodup_cons.mp hnd
    obtain ⟨cs, hcs, hmap, hall, hex, hnodup⟩ := ih hrest
    by_cases hchild : parents[i]? = some (c : Int)
    · obtain ⟨t, ht, hbuilt⟩ := hload i hchild
      refine ⟨t :: cs, ?_, ?_, ?_, ?_, ?_⟩
      · rw [loadChildren, if_pos hchild, ht]
        simp only [hcs]
      · rw [List.filter_cons_of_pos (by simpa using hchild), List.map_cons, List.map_cons,
          hmap, hbuilt.1]
        rfl
      · intro ch hch
        rcases List.mem_cons.mp hch with h | h
        · subst h
          exact ⟨i, List.mem_cons_self _ _, hchild, hbuilt⟩
        · obtain ⟨i', hi', hc', hb'⟩ := hall ch h
          exact ⟨i', List.mem_cons_of_mem _ hi', hc', hb'⟩
      · intro i' hi' hc'
        rcases List.mem_cons.mp hi' with h | h
        · subst h
          exact ⟨t, List.mem_cons_self _ _, hbuilt⟩
        · obtain ⟨ch, hch, hb⟩ := hex i' h hc'
          exact ⟨ch, List.mem_cons_of_mem _ hch, hb⟩
      · rw [nodesOfChildren, List.map_append]
        refine List.Nodup.append hbuilt.2.2.2.2.2 hnodup ?_
        intro e he1 he2
        obtain ⟨j, rfl, _⟩ := hbuilt.2.2.2.1 e he1
        have hr1 := (hbuilt.2.2.2.2.1 j).mp he1
        obtain ⟨ch, hch, hmem⟩ := (mem_entriesOfChildren cs _).mp he2
        obtain ⟨i', hi', hc', hb'⟩ := hall ch hch
        have hr2 := (hb'.2.2.2.2.1 j).mp hmem
        have : i = i' := siblings_disjoint parents hup c i i' j hc hchild hc' hr1 hr2
        subst this
        exact hi hi'
    · refine ⟨cs, ?_, ?_, ?_, ?_, hnodup⟩
      · rw [loadChildren, if_neg hchild]
        exact hcs
      · rw [List.filter_cons_of_neg (by simpa using hchild)]
        exact hmap
      · intro ch hch
        obtain ⟨i', hi', hc', hb'⟩ := hall ch hch
        exact ⟨i', List.mem_cons_of_mem _ hi', hc', hb'⟩
      · intro i' hi' hc'
        rcases List.mem_cons.mp hi' with h | h
        · subst h
          exact absurd hc' hchild
        · exact hex i' h hc'

/-- The call of `loadNode` for an entry `c`, with the two arrays of the same length, every
entry of `node_indexes` a mesh of the scene, every parent link going to a smaller entry,
and fuel for the entries above `c`: it builds the tree of `c`. -/
theorem loadNode_built (numMeshes : Nat) (node_indexes parents : List Int)
    (hlen : node_indexes.length = parents.length)
    (hmesh : ∀ m ∈ node_indexes, 0 ≤ m ∧ m < (numMeshes : Int))
    (hup : ∀ c i : Nat, c < parents.length → childOf parents c i → c < i) :
    ∀ (fuel c : Nat), c < parents.length → parents.length - c ≤ fuel →
      ∃ t, loadNode numMeshes node_indexes parents fuel (c : Int) = .built t ∧
        t.builtFor parents c := by
  intro fuel
  induction fuel with
  | zero => intro c hc hf; omega
  | succ fuel ih =>
    intro c hc hf
    obtain ⟨cs, hcs, hmap, hall, hex, hnodup⟩ := loadChildren_built parents hup
      (loadNode numMeshes node_indexes parents fuel) c hc
      (fun i hi => ih i (childOf_lt_length _ _ _ hi) (by
        have := hup c i hc hi
        omega))
      (List.range parents.length) (List.nodup_range _)
    have hcn : c < node_indexes.length := by omega
    have hget : atInt node_indexes (c : Int) = some node_indexes[c] := by
      unfold atInt
      rw [if_neg (by omega)]
      simp [List.getElem?_eq_getElem hcn]
    have hvalid := hmesh node_indexes[c] (List.getElem_mem _)
    refine ⟨.mk (c : Int) node_indexes[c].toNat cs, ?_, rfl, ?_, ?_, ?_, ?_, ?_⟩
    · rw [loadNode, if_neg (by omega), hcs]
      simp only [hget, hvalid, and_self, if_true]
    · intro m hm
      rw [Loaded.nodes] at hm
      rcases List.mem_cons.mp hm with h | h
      · subst h
        exact ⟨c, rfl, hmap⟩
      · obtain ⟨ch, hch, hmem⟩ := (mem_nodesOfChildren cs m).mp h
        obtain ⟨i, _, _, hb⟩ := hall ch hch
        exact hb.2.1 m hmem
    · intro m hm ch' hch'
      rw [Loaded.nodes] at hm
      rcases List.mem_cons.mp hm with h | h
      · subst h
        obtain ⟨i, _, hci, hb⟩ := hall ch' hch'
        have := hup c i hc hci
        rw [hb.1]
        simp only [Loaded.currentInd]
        omega
      · obtain ⟨ch, hch, hmem⟩ := (mem_nodesOfChildren cs m).mp h
        obtain ⟨i, _, _, hb⟩ := hall ch hch
        exact hb.2.2.1 m hmem ch' hch'
    · intro e he
      rw [Loaded.entries_mk] at he
      rcases List.mem_cons.mp he with h | h
      · exact ⟨c, h, le_refl c⟩
      · obtain ⟨ch, hch, hmem⟩ := (mem_entriesOfChildren cs e).mp h
        obtain ⟨i, _, hci, hb⟩ := hall ch hch
        obtain ⟨j, hj, hij⟩ := hb.2.2.2.1 e hmem
        have := hup c i hc hci
        exact ⟨j, hj, by omega⟩
    · intro j
      rw [Loaded.entries_mk]
      constructor
      · intro he
        rcases List.mem_cons.mp he with h | h
        · have : j = c := by exact_mod_cast h
          subst this
          exact Relation.ReflTransGen.refl
        · obtain ⟨ch, hch, hmem⟩ := (mem_entriesOfChildren cs _).mp h
          obtain ⟨i, _, hci, hb⟩ := hall ch hch
          exact Relation.ReflTransGen.head hci ((hb.2.2.2.2.1 j).mp hmem)
      · intro hr
        rcases Relation.ReflTransGen.cases_head hr with heq | ⟨i, hci, hij⟩
        · subst heq
          exact List.mem_cons_self _ _
        · obtain ⟨ch, hch, hb⟩ := hex i (List.mem_range.mpr (childOf_lt_length _ _ _ hci)) hci
          exact List.mem_cons_of_mem _
            ((mem_entriesOfChildren cs _).mpr ⟨ch, hch, (hb.2.2.2.2.1 j).mpr hij⟩)
    · rw [Loaded.entries_mk]
      refine List.nodup_cons.mpr ⟨?_, hnodup⟩
      intro hmem
      obtain ⟨ch, hch, hmem'⟩ := (mem_entriesOfChildren cs _).mp hmem
      obtain ⟨i, _, hci, hb⟩ := hall ch hch
      obtain ⟨j, hj, hij⟩ := hb.2.2.2.1 _ hmem'
      have h1 := hup c i hc hci
      have : c = j := by exact_mod_cast hj
      omega

end Loading2

section LoadedTrees

variable {α : Type} [LinearOrderedField α]

theorem toNodes_eq_map (meshes : List (List (Vec3 α))) (cs : List Loaded) :
    toNodes meshes cs = cs.map (Loaded.toNode meshes) := by
  induction cs with
  | nil => rfl
  | cons child rest ih => rw [toNodes, ih, List.map_cons]

/-- The children of the object built for a node are the objects built for its children, in
the same order: the child index used in the paths is the position among the entries with
this parent. -/
theorem Loaded.toNode_children (meshes : List (List (Vec3 α))) (t : Loaded) :
    (t.toNode meshes).children = t.children.map (Loaded.toNode meshes) := by
  cases t with
  | mk c m cs =>
    rw [Loaded.toNode, toNodes_eq_map]
    rfl

end LoadedTrees

section LoadingClaims

/-- The parent links go to smaller entries, in the form the lemmas on `loadNode` use:
from `parents[i] < i` for `i > 0` and `parents[0]` not an index of the array. -/
theorem parents_increase (parents : List Int)
    (hroot : parents.getD 0 0 < 0 ∨ (parents.length : Int) ≤ parents.getD 0 0)
    (hup : ∀ i, i < parents.length → 0 < i → parents.getD i 0 < (i : Int)) :
    ∀ c i : Nat, c < parents.length → childOf parents c i → c < i := by
  intro c i hc hci
  have hi := childOf_lt_length parents c i hci
  have hget : parents.getD i 0 = (c : Int) := by
    unfold childOf at hci
    rw [List.getD_eq_getElem?_getD, hci]
    rfl
  by_cases h0 : i = 0
  · subst h0
    rw [hget] at hroot
    omega
  · have := hup i hi (by omega)
    rw [hget] at this
    omega

/-- Every entry is reachable from the entry 0 when every entry but the first has a
parent that is a smaller entry. -/
theorem all_reachable (parents : List Int)
    (hpar : ∀ i, i < parents.length → 0 < i →
      0 ≤ parents.getD i 0 ∧ parents.getD i 0 < (i : Int)) :
    ∀ i, i < parents.length → Reachable parents i := by
  intro i
  induction i using Nat.strong_induction_on with
  | _ i ih =>
    intro hi
    by_cases h0 : i = 0
    · subst h0
      exact Relation.ReflTransGen.refl
    · obtain ⟨hp0, hpi⟩ := hpar i hi (by omega)
      have hlt : (parents.getD i 0).toNat < i := by omega
      have hreach := ih (parents.getD i 0).toNat hlt (by omega)
      refine Relation.ReflTransGen.tail hreach ?_
      unfold childOf
      rw [List.getElem?_eq_getElem hi, Int.toNat_of_nonneg hp0, List.getD_eq_getElem _ _ hi]

/-- C30: for two arrays of the same length whose entries of `node_indexes` are meshes of
the scene, and a non-empty `parents` array in which every entry `i > 0` has
`parents[i] < i` and `parents[0]` is not an index of the array: the recursion started at
`loadNode(0)` ends with fuel for as many nested calls as there are entries, every
recursive call is on an entry strictly greater than the one of its caller, and there is
exactly one call (one node of the tree) for each entry reachable from the entry 0, and no
other call. -/
theorem loadNode_terminates (numMeshes : Nat) (node_indexes parents : List Int) (fuel : Nat)
    (hlen : node_indexes.length = parents.length)
    (hmesh : ∀ m ∈ node_indexes, 0 ≤ m ∧ m < (numMeshes : Int))
    (hne : 0 < parents.length)
    (hroot : parents.getD 0 0 < 0 ∨ (parents.length : Int) ≤ parents.getD 0 0)
    (hup : ∀ i, i < parents.length → 0 < i → parents.getD i 0 < (i : Int))
    (hfuel : parents.length ≤ fuel) :
    ∃ t, loadNode numMeshes node_indexes parents fuel 0 = .built t ∧
      (∀ m ∈ t.nodes, ∀ ch ∈ m.children, m.currentInd < ch.currentInd) ∧
      (∀ j : Nat, (j : Int) ∈ t.entries ↔ Reachable parents j) ∧
      (∀ e ∈ t.entries, 0 ≤ e) ∧ t.entries.Nodup := by
  obtain ⟨t, ht, _, _, h3, h4, h5, h6⟩ := loadNode_built numMeshes node_indexes parents hlen
    hmesh (parents_increase parents hroot hup) fuel 0 hne (by omega)
  refine ⟨t, ht, h3, h5, ?_, h6⟩
  intro e he
  obtain ⟨j, rfl, _⟩ := h4 e he
  omega

/-- C21: `loadNode` aborts when the two arrays differ in length. For two arrays of the
same length whose entries of `node_indexes` are meshes of the scene, with
`parents[0] = -1` and `0 <= parents[i] < i` for every `i > 0`, `loadNode(0)` builds a tree
with exactly one node for each entry of the arrays, in which the children of the node
built for the entry `k` are the nodes built for the entries `i` with `parents[i] = k`, in
increasing order of `i`. -/
theorem loadNode_builds_hierarchy (numMeshes : Nat) (node_indexes parents : List Int) :
    (node_indexes.length ≠ parents.length → ∀ (fuel : Nat) (currentInd : Int),
      loadNode numMeshes node_indexes parents (fuel + 1) currentInd = .aborted) ∧
    (node_indexes.length = parents.length →
      (∀ m ∈ node_indexes, 0 ≤ m ∧ m < (numMeshes : Int)) →
      parents[0]? = some (-1) →
      (∀ i, i < parents.length → 0 < i →
        0 ≤ parents.getD i 0 ∧ parents.getD i 0 < (i : Int)) →
      ∀ fuel, parents.length ≤ fuel →
      ∃ t, loadNode numMeshes node_indexes parents fuel 0 = .built t ∧
        t.entries.Perm ((List.range parents.length).map Int.ofNat) ∧
        ∀ m ∈ t.nodes, ∃ k : Nat, m.currentInd = (k : Int) ∧
          m.children.map Loaded.currentInd = (childEntries parents k).map Int.ofNat) := by
  constructor
  · intro hne fuel currentInd
    rw [loadNode, if_pos hne]
  · intro hlen hmesh hroot hpar fuel hfuel
    have hne : 0 < parents.length := by
      by_contra hc
      rw [List.getElem?_eq_none (by omega)] at hroot
      exact absurd hroot (by simp)
    have hroot' : parents.getD 0 0 < 0 ∨ (parents.length : Int) ≤ parents.getD 0 0 := by
      left
      rw [List.getD_eq_getElem?_getD, hroot]
      decide
    have hup := parents_increase parents hroot' (fun i hi h0 => (hpar i hi h0).2)
    obtain ⟨t, ht, _, h2, _, h4, h5, h6⟩ := loadNode_built numMeshes node_indexes parents hlen
      hmesh hup fuel 0 hne (by omega)
    refine ⟨t, ht, ?_, h2⟩
    refine (List.perm_ext_iff_of_nodup h6
      ((List.nodup_range _).map (fun a b h => by simpa using h))).mpr ?_
    intro e
    constructor
    · intro he
      obtain ⟨j, rfl, _⟩ := h4 e he
      have := (reach_mono parents hup 0 j ((h5 j).mp he) hne).2
      exact List.mem_map.mpr ⟨j, List.mem_range.mpr this, rfl⟩
    · intro he
      obtain ⟨j, hj, rfl⟩ := List.mem_map.mp he
      exact (h5 j).mpr (all_reachable parents hpar j (List.mem_range.mp hj))

end LoadingClaims

theorem loadNode_terminates_witness :
    indJelly.length = parJelly.length ∧ (∀ m ∈ indJelly, 0 ≤ m ∧ m < ((13 : Nat) : Int)) ∧
    0 < parJelly.length ∧
    (parJelly.getD 0 0 < 0 ∨ (parJelly.length : Int) ≤ parJelly.getD 0 0) ∧
    (∀ i, i < parJelly.length → 0 < i → parJelly.getD i 0 < (i : Int)) ∧
    parJelly.length ≤ 13 ∧
    ∃ t, loadNode 13 indJelly parJelly 13 0 = .built t ∧
      (∀ m ∈ t.nodes, ∀ ch ∈ m.children, m.currentInd < ch.currentInd) ∧
      (∀ j : Nat, (j : Int) ∈ t.entries ↔ Reachable parJelly j) ∧
      (∀ e ∈ t.entries, 0 ≤ e) ∧ t.entries.Nodup :=
  ⟨by decide, by decide, by decide, by decide, by decide, by decide,
    loadNode_terminates 13 indJelly parJelly 13 (by decide) (by decide) (by decide)
      (by decide) (by decide) (by decide)⟩

theorem loadNode_builds_hierarchy_witness :
    (indOnyx.length ≠ parJelly.length ∧
      loadNode 13 indOnyx parJelly (0 + 1) 0 = .aborted) ∧
    indJelly.length = parJelly.length ∧ (∀ m ∈ indJelly, 0 ≤ m ∧ m < ((13 : Nat) : Int)) ∧
    parJelly[0]? = some (-1) ∧
    (∀ i, i < parJelly.length → 0 < i →
      0 ≤ parJelly.getD i 0 ∧ parJelly.getD i 0 < (i : Int)) ∧
    parJelly.length ≤ 13 ∧
    ∃ t, loadNode 13 indJelly parJelly 13 0 = .built t ∧
      t.entries.Perm ((List.range parJelly.length).map Int.ofNat) ∧
      ∀ m ∈ t.nodes, ∃ k : Nat, m.currentInd = (k : Int) ∧
        m.children.map Loaded.currentInd = (childEntries parJelly k).map Int.ofNat :=
  ⟨⟨by decide, (loadNode_builds_hierarchy 13 indOnyx parJelly).1 (by decide) 0 0⟩,
    by decide, by decide, by decide, by decide, by decide,
    (loadNode_builds_hierarchy 13 indJelly parJelly).2 (by decide) (by decide) (by decide)
      (by decide) 13 (by decide)⟩

/-- The tree `loadNode` builds for the second object of `initElements`: the calls are made
for the entries 0 to 12 in this order, and the children of the root are the nodes for
the entries 1, 4, 7 and 10, the first parts of the four arms. -/
theorem loadNode_jelly :
    (match loadNode 13 indJelly parJelly 13 0 with
      | .built t => some (t.entries, t.children.map Loaded.currentInd, t.mesh)
      | _ => none)
      = some ([0, 1, 2, 3, 4, 5, 6, 7, 8, 9, 10, 11, 12], [1, 4, 7, 10], 12) := by
  decide!

end bgq_opengl


/-! ## The shape of the tree, the joints and the attachment to the geometry -/

namespace bgq_opengl

section ShapeLemmas

variable {α : Type}

theorem shapeOfChildren_eq_map (cs : List (Node α)) : shapeOfChildren cs = cs.map Node.shape := by
  induction cs with
  | nil => rfl
  | cons child rest ih => rw [shapeOfChildren, ih, List.map_cons]

theorem Node.shape_mk (g : Geometry α) (cs : List (Node α)) (an ao : Vec3 α)
    (c co : List (Vec3 α)) :
    (Node.mk g cs an ao c co).shape = .mk c.length (cs.map Node.shape) := by
  rw [Node.shape, shapeOfChildren_eq_map]

theorem childControlPoints_paths (cs : List (Node α))
    (ih : ∀ child ∈ cs, child.getControlPoints.map ControlPoint.indices = child.shape.paths) :
    ∀ i : Nat, (childControlPoints i cs).map ControlPoint.indices
      = childPaths i (cs.map Node.shape) := by
  induction cs with
  | nil => intro i; rfl
  | cons child rest ihr =>
    intro i
    rw [childControlPoints, List.map_append, List.map_cons, childPaths,
      ihr (fun ch hch => ih ch (List.mem_cons_of_mem _ hch)) (i + 1),
      ← ih child (List.mem_cons_self _ _), List.map_map, List.map_map]
    rfl

/-- The paths of the control points of a tree are those of its shape. -/
theorem Node.getControlPoints_paths (n : Node α) :
    n.getControlPoints.map ControlPoint.indices = n.shape.paths := by
  induction n using Node.induction with
  | step g cs an ao c co ih =>
    rw [Node.getControlPoints, Node.shape_mk, Shape.paths, List.map_append,
      childControlPoints_paths cs ih 0, List.map_map]
    congr 1
    induction c with
    | nil => rfl
    | cons v rest ihc =>
      rw [List.map_cons, List.length_cons, List.replicate_succ, ihc]
      rfl

theorem allSome_shape (op : Node α → Option (Node α)) :
    ∀ (cs cs' : List (Node α)), allSome op cs = some cs' →
      (∀ child ∈ cs, ∀ child', op child = some child' → child'.shape = child.shape) →
      cs'.map Node.shape = cs.map Node.shape := by
  intro cs
  induction cs with
  | nil =>
    intro cs' h _
    simp only [allSome, Option.some.injEq] at h
    subst h
    rfl
  | cons child rest ih =>
    intro cs' h hop
    simp only [allSome] at h
    cases hc : op child with
    | none => simp [hc] at h
    | some child' =>
      cases hr : allSome op rest with
      | none => simp [hc, hr] at h
      | some rest' =>
        simp only [hc, hr, Option.some.injEq] at h
        subst h
        simp only [List.map_cons]
        rw [hop child (by simp) child' hc,
          ih rest' hr (fun ch hch => hop ch (by simp [hch]))]

theorem Node.applyAt_shape (op : Node α → Option (Node α))
    (hop : ∀ m m', op m = some m' → m'.shape = m.shape) (p : List Nat) :
    ∀ n n' : Node α, n.applyAt op p = some n' → n'.shape = n.shape := by
  induction p with
  | nil => intro n n' h; exact hop n n' h
  | cons ind rest ih =>
    intro n n' h
    cases n with
    | mk g cs an ao c co =>
      simp only [Node.applyAt] at h
      cases hch : cs[ind]? with
      | none => simp [hch] at h
      | some child =>
        cases hr : Node.applyAt op rest child with
        | none => simp [hch, hr] at h
        | some child' =>
          simp only [hch, hr, Option.some.injEq] at h
          subst h
          rw [Node.shape_mk, Node.shape_mk]
          congr 1
          rw [List.map_set, ih child child' hr]
          apply List.ext_getElem?
          intro i
          by_cases hi : ind = i
          · subst hi
            have hlt : ind < (cs.map Node.shape).length := by
              rw [List.length_map]
              exact (List.getElem?_eq_some.mp hch).1
            rw [List.getElem?_set_self hlt, List.getElem?_map, hch]
            rfl
          · rw [List.getElem?_set_ne hi]

theorem Node.visit_shape (u : NodeUpdate α) (n : Node α) :
    ∀ n', n.visit u = some n' → n'.shape = n.shape := by
  induction n using Node.induction with
  | step g cs an ao c co ih =>
    intro n' h
    obtain ⟨cs', c', co', hcs, hr, rfl⟩ := Node.visit_mk u g cs an ao c co n' h
    rw [Node.shape_mk, Node.shape_mk, allSome_shape (Node.visit u) cs cs' hcs ih,
      (updateControls_eq_some _ c co c' co' hr).1, List.length_map]

end ShapeLemmas

section ShapeOfCalls

variable {α : Type} [CommRing α]

theorem Node.transformHere_shape (anchor : Vec3 α) (M : Mat4 α) (m m' : Node α)
    (h : m.transformHere anchor M = some m') : m'.shape = m.shape := by
  cases m with
  | mk g cs an ao c co =>
    rw [Node.transformHere, transformAnchorChildren_eq] at h
    cases hcs : allSome (Node.transformAnchor anchor M) cs with
    | none => simp [hcs] at h
    | some cs' =>
      simp only [hcs, Option.some.injEq] at h
      subst h
      rw [Node.shape_mk, Node.shape_mk, List.length_map,
        allSome_shape _ cs cs' hcs (fun ch _ ch' hch => by
          rw [Node.transformAnchor_eq_visit] at hch
          exact Node.visit_shape _ ch ch' hch)]

theorem Node.rotateHere_shape (rot : Rotation α) (anchor : Vec3 α) (x y z angle : α)
    (m m' : Node α) (h : m.rotateHere rot anchor x y z angle = some m') :
    m'.shape = m.shape := by
  cases m with
  | mk g cs an ao c co =>
    rw [Node.rotateHere, rotateAnchorChildren_eq] at h
    cases hcs : allSome (Node.rotateAnchor rot anchor x y z angle) cs with
    | none => simp [hcs] at h
    | some cs' =>
      simp only [hcs, Option.some.injEq] at h
      subst h
      rw [Node.shape_mk, Node.shape_mk, List.length_map,
        allSome_shape _ cs cs' hcs (fun ch _ ch' hch => by
          rw [Node.rotateAnchor_eq_visit] at hch
          exact Node.visit_shape _ ch ch' hch)]

/-- No transform operation changes the shape of the tree. -/
theorem Node.call_shape (rot : Rotation α) (n n' : Node α) (op : NodeOp α)
    (h : n.call rot op = some n') : n'.shape = n.shape := by
  cases op with
  | rotate x y z angle =>
    simp only [Node.call, Node.rotate, Node.rotateAnchor_eq_visit] at h
    exact Node.visit_shape _ n n' h
  | rotateInds inds x y z angle =>
    simp only [Node.call, Node.rotateInds, Node.rotateSelfHops_eq] at h
    exact Node.applyAt_shape _
      (fun m m' hm => Node.rotateHere_shape rot _ x y z angle m m' hm) _ n n' h
  | rotateAnchor anchor x y z angle =>
    simp only [Node.call, Node.rotateAnchor_eq_visit] at h
    exact Node.visit_shape _ n n' h
  | rotateIndsAnchor inds anchor x y z angle =>
    simp only [Node.call, Node.rotateIndsAnchor, Node.rotateHops_eq] at h
    exact Node.applyAt_shape _
      (fun m m' hm => Node.rotateHere_shape rot _ x y z angle m m' hm) _ n n' h
  | scale x y z =>
    simp only [Node.call, Node.scale_eq_visit] at h
    exact Node.visit_shape _ n n' h
  | translate x y z =>
    simp only [Node.call, Node.translate_eq_visit] at h
    exact Node.visit_shape _ n n' h
  | transform matrix =>
    simp only [Node.call, Node.transform, Node.transformAnchor_eq_visit] at h
    exact Node.visit_shape _ n n' h
  | transformInds inds matrix =>
    simp only [Node.call, Node.transformInds, Node.transformSelfHops_eq] at h
    exact Node.applyAt_shape _
      (fun m m' hm => Node.transformHere_shape _ matrix m m' hm) _ n n' h
  | transformAnchor anchor matrix =>
    simp only [Node.call, Node.transformAnchor_eq_visit] at h
    exact Node.visit_shape _ n n' h
  | transformIndsAnchor inds anchor matrix =>
    simp only [Node.call, Node.transformIndsAnchor, Node.transformHops_eq] at h
    exact Node.applyAt_shape _
      (fun m m' hm => Node.transformHere_shape _ matrix m m' hm) _ n n' h

/-- The transform operations keep a well-formed tree well formed. -/
theorem Node.call_wellFormed (rot : Rotation α) (n n' : Node α) (op : NodeOp α)
    (h : n.call rot op = some n') (hwf : n.wellFormed = true) : n'.wellFormed = true := by
  cases op with
  | rotate x y z angle =>
    simp only [Node.call, Node.rotate, Node.rotateAnchor_eq_visit] at h
    exact Node.visit_wellFormed _ n n' h hwf
  | rotateInds inds x y z angle =>
    simp only [Node.call, Node.rotateInds, Node.rotateSelfHops_eq] at h
    exact Node.applyAt_wellFormed _
      (fun m m' hm hw => Node.rotateHere_wellFormed rot _ x y z angle m m' hm hw) _ n n' h hwf
  | rotateAnchor anchor x y z angle =>
    simp only [Node.call, Node.rotateAnchor_eq_visit] at h
    exact Node.visit_wellFormed _ n n' h hwf
  | rotateIndsAnchor inds anchor x y z angle =>
    simp only [Node.call, Node.rotateIndsAnchor, Node.rotateHops_eq] at h
    exact Node.applyAt_wellFormed _
      (fun m m' hm hw => Node.rotateHere_wellFormed rot _ x y z angle m m' hm hw) _ n n' h hwf
  | scale x y z =>
    simp only [Node.call, Node.scale_eq_visit] at h
    exact Node.visit_wellFormed _ n n' h hwf
  | translate x y z =>
    simp only [Node.call, Node.translate_eq_visit] at h
    exact Node.visit_wellFormed _ n n' h hwf
  | transform matrix =>
    simp only [Node.call, Node.transform, Node.transformAnchor_eq_visit] at h
    exact Node.visit_wellFormed _ n n' h hwf
  | transformInds inds matrix =>
    simp only [Node.call, Node.transformInds, Node.transformSelfHops_eq] at h
    exact Node.applyAt_wellFormed _
      (fun m m' hm hw => Node.transformHere_wellFormed _ matrix m m' hm hw) _ n n' h hwf
  | transformAnchor anchor matrix =>
    simp only [Node.call, Node.transformAnchor_eq_visit] at h
    exact Node.visit_wellFormed _ n n' h hwf
  | transformIndsAnchor inds anchor matrix =>
    simp only [Node.call, Node.transformIndsAnchor, Node.transformHops_eq] at h
    exact Node.applyAt_wellFormed _
      (fun m m' hm hw => Node.transformHere_wellFormed _ matrix m m' hm hw) _ n n' h hwf

/-- On a well-formed tree `resetTransforms` keeps the shape, and the tree stays well
formed. -/
theorem Node.resetTransforms_shape (n : Node α) :
    n.wellFormed = true → n.resetTransforms.shape = n.shape ∧
      n.resetTransforms.wellFormed = true := by
  induction n using Node.induction with
  | step g cs an ao c co ih =>
    intro hwf
    rw [Node.wellFormed_mk] at hwf
    rw [Node.resetTransforms, resetTransformsChildren_eq, Node.shape_mk, Node.shape_mk,
      Node.wellFormed_mk, List.map_map]
    refine ⟨?_, rfl, ?_⟩
    · rw [hwf.1]
      congr 1
      apply List.map_congr_left
      intro ch hch
      exact (ih ch hch (hwf.2 ch hch)).1
    · intro ch hch
      obtain ⟨ch0, hch0, rfl⟩ := List.mem_map.mp hch
      exact (ih ch0 hch0 (hwf.2 ch0 hch0)).2

theorem Node.run_shape (rot : Rotation α) (calls : List (NodeCall α)) :
    ∀ n n' : Node α, n.wellFormed = true → n.run rot calls = some n' →
      n'.shape = n.shape ∧ n'.wellFormed = true := by
  induction calls with
  | nil =>
    intro n n' hwf h
    simp only [Node.run, Option.some.injEq] at h
    subst h
    exact ⟨rfl, hwf⟩
  | cons call rest ih =>
    intro n n' hwf h
    cases call with
    | op c =>
      simp only [Node.run] at h
      cases hc : n.call rot c with
      | none => simp [hc] at h
      | some n1 =>
        simp only [hc] at h
        obtain ⟨h1, h2⟩ := ih n1 n' (Node.call_wellFormed rot n n1 c hc hwf) h
        exact ⟨h1.trans (Node.call_shape rot n n1 c hc), h2⟩
    | reset =>
      simp only [Node.run] at h
      obtain ⟨hs, hw⟩ := Node.resetTransforms_shape n hwf
      obtain ⟨h1, h2⟩ := ih _ n' hw h
      exact ⟨h1.trans hs, h2⟩

end ShapeOfCalls

section PathsStayValid

variable {α : Type} [CommRing α]

/-- The descents along a valid path of a well-formed tree do not leave the tree: the four
path-scoped operations return, and so does `getOrderedControlPoints`. -/
theorem Node.descents_return (rot : Rotation α) (t m : Node α) (p : ControlPoint α)
    (hwf : t.wellFormed = true) (hm : t.descend p.indices = some m) (a : Vec3 α) (M : Mat4 α)
    (x y z angle : α) (k : Int) :
    (∃ r, t.transformIndsAnchor p.indices a M = some r) ∧
    (∃ r, t.transformInds p.indices M = some r) ∧
    (∃ r, t.rotateIndsAnchor rot p.indices a x y z angle = some r) ∧
    (∃ r, t.rotateInds rot p.indices x y z angle = some r) ∧
    (∃ r, t.getOrderedControlPoints k p = some r) := by
  have hmwf : m.wellFormed = true := Node.wellFormed_walk p.indices.reverse t m hwf hm
  refine ⟨?_, ?_, ?_, ?_, ?_⟩
  · obtain ⟨m', hm'⟩ := Node.transformHere_isSome a M m hmwf
    rw [Node.transformIndsAnchor, Node.transformHops_eq]
    exact Node.applyAt_isSome _ p.indices.reverse t m m' hm hm'
  · obtain ⟨m', hm'⟩ := Node.transformHere_isSome m.getAnchor M m hmwf
    rw [Node.transformInds, Node.transformSelfHops_eq]
    exact Node.applyAt_isSome _ p.indices.reverse t m m' hm hm'
  · obtain ⟨m', hm'⟩ := Node.rotateHere_isSome rot a x y z angle m hmwf
    rw [Node.rotateIndsAnchor, Node.rotateHops_eq]
    exact Node.applyAt_isSome _ p.indices.reverse t m m' hm hm'
  · obtain ⟨m', hm'⟩ := Node.rotateHere_isSome rot m.getAnchor x y z angle m hmwf
    rw [Node.rotateInds, Node.rotateSelfHops_eq]
    exact Node.applyAt_isSome _ p.indices.reverse t m m' hm hm'
  · obtain ⟨r, hr, _⟩ := Node.orderedHops_spec k p p.indices.reverse t m hm
    exact ⟨r, hr⟩

/-- C28: on a well-formed tree `t`, no sequence of calls of `rotate`, `translate`, `scale`,
`transform` (in any of their overloads) and `resetTransforms` that return changes the
shape of the tree (the children of every node and the length of every control list). So
for the tree `t'` it reaches, `getControlPoints(t')` has the length of
`getControlPoints(t)` with the same `indices` at each position, and for every point `p`
of `getControlPoints(t)` the descents of `transform(p.indices, ...)`,
`rotate(p.indices, ...)` and `getOrderedControlPoints(k, p)` on `t'` return: they never
index `children` out of range. -/
theorem paths_stay_valid (rot : Rotation α) (t t' : Node α) (calls : List (NodeCall α))
    (hwf : t.wellFormed = true) (hrun : t.run rot calls = some t') :
    t'.shape = t.shape ∧
    t'.getControlPoints.length = t.getControlPoints.length ∧
    t'.getControlPoints.map ControlPoint.indices
      = t.getControlPoints.map ControlPoint.indices ∧
    ∀ p ∈ t.getControlPoints, ∀ (a : Vec3 α) (M : Mat4 α) (x y z angle : α) (k : Int),
      (∃ r, t'.transformIndsAnchor p.indices a M = some r) ∧
      (∃ r, t'.transformInds p.indices M = some r) ∧
      (∃ r, t'.rotateIndsAnchor rot p.indices a x y z angle = some r) ∧
      (∃ r, t'.rotateInds rot p.indices x y z angle = some r) ∧
      (∃ r, t'.getOrderedControlPoints k p = some r) := by
  obtain ⟨hshape, hwf'⟩ := Node.run_shape rot calls t t' hwf hrun
  have hpaths : t'.getControlPoints.map ControlPoint.indices
      = t.getControlPoints.map ControlPoint.indices := by
    rw [Node.getControlPoints_paths, Node.getControlPoints_paths, hshape]
  refine ⟨hshape, ?_, hpaths, ?_⟩
  · have := congrArg List.length hpaths
    simpa using this
  · intro p hp a M x y z angle k
    have hmem : p.indices ∈ t'.getControlPoints.map ControlPoint.indices := by
      rw [hpaths]
      exact List.mem_map.mpr ⟨p, hp, rfl⟩
    obtain ⟨p', hp', hind⟩ := List.mem_map.mp hmem
    obtain ⟨m, hm, _, _⟩ := Node.getControlPoints_descend _ t' p' rfl hp'
    rw [hind] at hm
    exact Node.descents_return rot t' m p hwf' hm a M x y z angle k

end PathsStayValid

theorem paths_stay_valid_witness :
    chain3.wellFormed = true ∧
    (∃ t', chain3.run halfTurn [.op (.rotateInds [0] 0 0 1 180), .reset,
        .op (.translate 1 2 3), .op (.transformInds [0, 0] liftZ)] = some t' ∧
      t'.shape = chain3.shape ∧
      t'.getControlPoints.length = chain3.getControlPoints.length ∧
      t'.getControlPoints.map ControlPoint.indices
        = chain3.getControlPoints.map ControlPoint.indices ∧
      ∀ p ∈ chain3.getControlPoints, ∀ (a : Vec3 ℤ) (M : Mat4 ℤ) (x y z angle : ℤ) (k : Int),
        (∃ r, t'.transformIndsAnchor p.indices a M = some r) ∧
        (∃ r, t'.transformInds p.indices M = some r) ∧
        (∃ r, t'.rotateIndsAnchor halfTurn p.indices a x y z angle = some r) ∧
        (∃ r, t'.rotateInds halfTurn p.indices x y z angle = some r) ∧
        (∃ r, t'.getOrderedControlPoints k p = some r)) :=
  ⟨by decide, _, rfl,
    paths_stay_valid halfTurn chain3 _ [.op (.rotateInds [0] 0 0 1 180), .reset,
      .op (.translate 1 2 3), .op (.transformInds [0, 0] liftZ)] (by decide) rfl⟩

section JointLemmas

variable {α : Type}

theorem jointedChildren_iff (cs : List (Node α)) :
    jointedChildren cs ↔ ∀ child ∈ cs, child.jointed := by
  induction cs with
  | nil => simp [jointedChildren]
  | cons child rest ih => simp [jointedChildren, ih]

theorem Node.jointed_mk (g : Geometry α) (cs : List (Node α)) (an ao : Vec3 α)
    (c co : List (Vec3 α)) :
    (Node.mk g cs an ao c co).jointed ↔
      (cs ≠ [] → c = cs.map Node.anchor) ∧ ∀ child ∈ cs, child.jointed := by
  rw [Node.jointed, jointedChildren_iff]

/-- In a tree with consistent joints every node with children has the anchors of its
children as control points. -/
theorem Node.jointed_walk (q : List Nat) :
    ∀ (n m : Node α), n.jointed → n.walk q = some m →
      m.jointed ∧ (m.children ≠ [] → m.control = m.children.map Node.anchor) := by
  induction q with
  | nil =>
    intro n m hj hw
    simp only [Node.walk, Option.some.injEq] at hw
    subst hw
    refine ⟨hj, ?_⟩
    cases n with
    | mk g cs an ao c co => exact ((Node.jointed_mk g cs an ao c co).mp hj).1
  | cons ind rest ih =>
    intro n m hj hw
    cases n with
    | mk g cs an ao c co =>
      simp only [Node.walk, Node.children] at hw
      cases hch : cs[ind]? with
      | none => simp [hch] at hw
      | some child =>
        simp only [hch] at hw
        exact ih child m (((Node.jointed_mk g cs an ao c co).mp hj).2 child
          (List.getElem?_mem hch)) hw

/-- The anchors of a list of results, when each result has the anchor of its argument
taken through `f`. -/
theorem allSome_anchors (op : Node α → Option (Node α)) (f : Vec3 α → Vec3 α) :
    ∀ (cs cs' : List (Node α)), allSome op cs = some cs' →
      (∀ child ∈ cs, ∀ child', op child = some child' → child'.anchor = f child.anchor) →
      cs'.map Node.anchor = (cs.map Node.anchor).map f := by
  intro cs
  induction cs with
  | nil =>
    intro cs' h _
    simp only [allSome, Option.some.injEq] at h
    subst h
    rfl
  | cons child rest ih =>
    intro cs' h hop
    simp only [allSome] at h
    cases hc : op child with
    | none => simp [hc] at h
    | some child' =>
      cases hr : allSome op rest with
      | none => simp [hc, hr] at h
      | some rest' =>
        simp only [hc, hr, Option.some.injEq] at h
        subst h
        simp only [List.map_cons]
        rw [hop child (by simp) child' hc,
          ih rest' hr (fun ch hch => hop ch (by simp [hch]))]

theorem allSome_ne_nil {β γ : Type} (f : β → Option γ) (bs : List β) (cs : List γ)
    (h : allSome f bs = some cs) : cs ≠ [] → bs ≠ [] := by
  intro hne hb
  subst hb
  simp only [allSome, Option.some.injEq] at h
  exact hne h.symm

/-- An unscoped operation that moves the anchors and the control points by the same
function keeps the joints consistent. -/
theorem Node.visit_jointed (u : NodeUpdate α) (hu : ∀ v, u.onAnchor v = u.onPoint v)
    (n : Node α) : ∀ n', n.visit u = some n' → n.jointed → n'.jointed := by
  induction n using Node.induction with
  | step g cs an ao c co ih =>
    intro n' h hj
    obtain ⟨cs', c', co', hcs, hr, rfl⟩ := Node.visit_mk u g cs an ao c co n' h
    rw [Node.jointed_mk] at hj ⊢
    have hanchors := allSome_anchors (Node.visit u) u.onPoint cs cs' hcs
      (fun ch _ ch' hch => by rw [(Node.visit_members u ch ch' hch).2.1, hu])
    refine ⟨?_, ?_⟩
    · intro hne
      rw [(updateControls_eq_some _ c co c' co' hr).1, hanchors,
        hj.1 (allSome_ne_nil _ cs cs' hcs hne)]
    · intro ch' hch'
      obtain ⟨ch, hch, hv⟩ := allSome_mem (Node.visit u) cs cs' hcs ch' hch'
      exact ih ch hch ch' hv (hj.2 ch hch)

/-- A path-scoped operation keeps the joints consistent when it does so on the node it
addresses and leaves the anchor of that node in place. -/
theorem Node.applyAt_jointed (op : Node α → Option (Node α))
    (hop : ∀ m m', op m = some m' → m.jointed → m'.jointed) (p : List Nat) :
    ∀ (n n' target : Node α), n.walk p = some target →
      (∀ m', op target = some m' → m'.anchor = target.anchor) → n.jointed →
      n.applyAt op p = some n' → n'.jointed ∧ n'.anchor = n.anchor := by
  induction p with
  | nil =>
    intro n n' target hw hanchor hj h
    simp only [Node.walk, Option.some.injEq] at hw
    subst hw
    exact ⟨hop n n' h hj, hanchor n' h⟩
  | cons ind rest ih =>
    intro n n' target hw hanchor hj h
    cases n with
    | mk g cs an ao c co =>
      simp only [Node.walk, Node.children] at hw
      simp only [Node.applyAt] at h
      cases hch : cs[ind]? with
      | none => simp [hch] at h
      | some child =>
        simp only [hch] at hw
        cases hr : Node.applyAt op rest child with
        | none => simp [hch, hr] at h
        | some child' =>
          simp only [hch, hr, Option.some.injEq] at h
          subst h
          rw [Node.jointed_mk] at hj
          obtain ⟨hcj, hca⟩ := ih child child' target hw hanchor
            (hj.2 child (List.getElem?_mem hch)) hr
          refine ⟨?_, rfl⟩
          rw [Node.jointed_mk]
          have hmap : (cs.set ind child').map Node.anchor = cs.map Node.anchor := by
            rw [List.map_set, hca]
            apply List.ext_getElem?
            intro i
            by_cases hi : ind = i
            · subst hi
              have hlt : ind < (cs.map Node.anchor).length := by
                rw [List.length_map]
                exact (List.getElem?_eq_some.mp hch).1
              rw [List.getElem?_set_self hlt, List.getElem?_map, hch]
              rfl
            · rw [List.getElem?_set_ne hi]
          refine ⟨?_, ?_⟩
          · intro _
            rw [hmap]
            exact hj.1 (List.ne_nil_of_mem (List.getElem?_mem hch))
          · intro ch hch'
            rcases List.mem_or_eq_of_mem_set hch' with h1 | h1
            · exact hj.2 ch h1
            · rw [h1]
              exact hcj

end JointLemmas

section JointsOfTransforms

variable {α : Type} [CommRing α]

theorem Node.transformHere_anchor (anchor : Vec3 α) (M : Mat4 α) (m m' : Node α)
    (h : m.transformHere anchor M = some m') : m'.anchor = M.applyPoint m.anchor := by
  cases m with
  | mk g cs an ao c co =>
    rw [Node.transformHere] at h
    cases hcs : transformAnchorChildren anchor M cs with
    | none => simp [hcs] at h
    | some cs' =>
      simp only [hcs, Option.some.injEq] at h
      subst h
      rfl

theorem Node.transformHere_jointed (anchor : Vec3 α) (M : Mat4 α) (m m' : Node α)
    (h : m.transformHere anchor M = some m') (hj : m.jointed) : m'.jointed := by
  cases m with
  | mk g cs an ao c co =>
    rw [Node.transformHere, transformAnchorChildren_eq] at h
    cases hcs : allSome (Node.transformAnchor anchor M) cs with
    | none => simp [hcs] at h
    | some cs' =>
      simp only [hcs, Option.some.injEq] at h
      subst h
      rw [Node.jointed_mk] at hj ⊢
      have hanchors := allSome_anchors (Node.transformAnchor anchor M) M.applyPoint cs cs' hcs
        (fun ch _ ch' hch => by
          rw [Node.transformAnchor_eq_visit] at hch
          exact (Node.visit_members _ ch ch' hch).2.1)
      refine ⟨?_, ?_⟩
      · intro hne
        rw [hanchors, hj.1 (allSome_ne_nil _ cs cs' hcs hne)]
      · intro ch' hch'
        obtain ⟨ch, hch, hv⟩ := allSome_mem _ cs cs' hcs ch' hch'
        rw [Node.transformAnchor_eq_visit] at hv
        exact Node.visit_jointed _ (fun _ => rfl) ch ch' hv (hj.2 ch hch)

/-- The path-scoped `transform(p, a, M)` with a matrix that maps the anchor of the
addressed node to itself keeps the joints consistent and leaves that anchor in place. -/
theorem Node.transformIndsAnchor_jointed (p : List Nat) (a : Vec3 α) (M : Mat4 α)
    (root root' target : Node α) (hj : root.jointed) (hp : root.descend p = some target)
    (hfix : M.applyPoint target.anchor = target.anchor)
    (h : root.transformIndsAnchor p a M = some root') :
    root'.jointed ∧ ∃ target', root'.descend p = some target' ∧
      target'.anchor = target.anchor := by
  rw [Node.transformIndsAnchor, Node.transformHops_eq] at h
  have hanchor : ∀ m', target.transformHere a M = some m' → m'.anchor = target.anchor := by
    intro m' hm'
    rw [Node.transformHere_anchor a M target m' hm', hfix]
  refine ⟨(Node.applyAt_jointed _ (fun m m' hm hmj => Node.transformHere_jointed a M m m' hm hmj)
    p.reverse root root' target hp hanchor hj h).1, ?_⟩
  obtain ⟨target', hw, hop⟩ := Node.applyAt_target _ p.reverse root root' target h hp
  exact ⟨target', hw, hanchor target' hop⟩

end JointsOfTransforms

section LinkAnchors

variable {α : Type}

/-- The links fetched for a control point of the tree: the path of each is valid, and its
anchor is the anchor of the node the path addresses. -/
theorem Node.getOrderedControlPoints_anchors (root : Node α) (k : Int)
    (reach : ControlPoint α) (hmem : reach ∈ root.getControlPoints) :
    ∃ r, root.getOrderedControlPoints k reach = some r ∧
      ∀ (i : Nat) (link : ControlPoint α), r[i]? = some link →
        ∃ m, root.descend link.indices = some m ∧ link.anchor = m.anchor := by
  obtain ⟨t, ht, _, _⟩ := Node.getControlPoints_descend _ root reach rfl hmem
  obtain ⟨r, hr, _, hA, _, _⟩ :=
    Node.orderedHops_spec k reach reach.indices.reverse root t ht
  refine ⟨r, hr, ?_⟩
  intro i link hi
  obtain ⟨hinds, nm, hnm, ha⟩ := hA i link hi
  refine ⟨nm, ?_, ha⟩
  rw [Node.descend, hinds, List.reverse_reverse]
  exact hnm

end LinkAnchors

section JointsOfKinematics

variable {α : Type} [LinearOrderedField α]

/-- What a link application that returns has done: the pivot matrix about the anchor of
the link was applied at the path of the link, and the counter was in range. -/
theorem ikLink_eq_some (sqrt : α → α) (num_ik moving_joint : Int) (target : Vec3 α)
    (i : Nat) (s s' : IkState α)
    (h : ikLink sqrt num_ik moving_joint target i s = some s') :
    ∃ reach link root', atInt s.current_ctrl moving_joint = some reach ∧
      s.ik_struc[i]? = some link ∧
      s.selected.root.transformIndsAnchor link.indices link.anchor
        (pivotMatrix sqrt reach.coords target link.anchor) = some root' ∧
      s'.selected.root = root' ∧ s.iterations + 1 < 2 ^ 31 := by
  unfold ikLink at h
  cases hr : atInt s.current_ctrl moving_joint with
  | none => simp [hr] at h
  | some reach =>
    cases hl : s.ik_struc[i]? with
    | none => simp [hr, hl] at h
    | some link =>
      simp only [hr, hl, ObjectHierarchical.transform] at h
      cases ht : s.selected.root.transformIndsAnchor link.indices link.anchor
          (pivotMatrix sqrt reach.coords target link.anchor) with
      | none => simp [ht] at h
      | some root' =>
        simp only [ht] at h
        refine ⟨reach, link, root', rfl, rfl, ht, ?_⟩
        split at h
        · exact absurd h (by simp)
        · split at h
          · exact absurd h (by simp)
          · split at h
            · simp only [Option.some.injEq] at h
              subst h
              exact ⟨rfl, by assumption⟩
            · exact absurd h (by simp)

/-- A link application from a consistent state, with a pivot matrix that keeps the anchor
of the link in place: it keeps the joints consistent and leaves the anchor of the node it
addresses in place. -/
theorem ikLink_jointed (sqrt : α → α) (num_ik moving_joint : Int) (target : Vec3 α)
    (path : List Nat) (i : Nat) (s s' : IkState α)
    (hs : s.consistent num_ik moving_joint path) (hj : s.selected.root.jointed)
    (hfix : ∀ reach link, atInt s.current_ctrl moving_joint = some reach →
      s.ik_struc[i]? = some link →
      (pivotMatrix sqrt reach.coords target link.anchor).applyPoint link.anchor = link.anchor)
    (h : ikLink sqrt num_ik moving_joint target i s = some s') :
    s'.consistent num_ik moving_joint path ∧ s'.selected.root.jointed ∧
    ∃ link m m', s.ik_struc[i]? = some link ∧
      s.selected.root.descend link.indices = some m ∧
      s'.selected.root.descend link.indices = some m' ∧ m'.anchor = m.anchor := by
  obtain ⟨reach, link, root', hreach, hlink, hroot, hsel, hint⟩ :=
    ikLink_eq_some sqrt num_ik moving_joint target i s s' h
  have hfixed := hfix reach link hreach hlink
  have hi : i < s.ik_struc.length := (List.getElem?_eq_some.mp hlink).1
  obtain ⟨s'', h'', hcons, _⟩ := ikLink_consistent sqrt num_ik moving_joint target path i s hs
    hi hint
  have hs'' : s'' = s' := by
    rw [h] at h''
    exact (Option.some.inj h'').symm
  subst hs''
  obtain ⟨_, hcc, reach0, hreach0, _, hik⟩ := hs
  have hreq : reach0 = reach := by
    rw [hreach] at hreach0
    exact (Option.some.inj hreach0).symm
  subst hreq
  rw [hcc] at hreach
  obtain ⟨r, hr, hanchors⟩ := Node.getOrderedControlPoints_anchors s.selected.root num_ik
    reach0 (atInt_mem _ _ _ hreach)
  have hrs : r = s.ik_struc := by
    have h2 : s.selected.root.getOrderedControlPoints num_ik reach0 = some s.ik_struc := hik
    rw [hr] at h2
    exact Option.some.inj h2
  subst hrs
  obtain ⟨m, hm, ha⟩ := hanchors i link hlink
  obtain ⟨hj', m', hm', ha'⟩ := Node.transformIndsAnchor_jointed link.indices link.anchor
    (pivotMatrix sqrt reach0.coords target link.anchor) s.selected.root root' m hj hm
    (by rw [← ha]; exact hfixed) hroot
  rw [hsel]
  exact ⟨hcons, hj', link, m, m', hlink, hm, hm', ha'⟩

end JointsOfKinematics

section JointClaims

variable {α : Type} [LinearOrderedField α]

end JointClaims

/-- The joints of the arm are consistent. -/
theorem arm_jointed : arm.jointed :=
  (Node.jointed_mk _ _ _ _ _ _).mpr ⟨fun _ => rfl, fun child hchild => by
    rw [List.mem_singleton.mp hchild]
    exact (Node.jointed_mk _ _ _ _ _ _).mpr ⟨fun _ => rfl, fun child2 hchild2 => by
      rw [List.mem_singleton.mp hchild2]
      exact (Node.jointed_mk _ _ _ _ _ _).mpr ⟨fun h => absurd rfl h, fun _ h => by
        simp at h⟩⟩⟩

set_option maxRecDepth 100000

section AttachmentLemmas

variable {α : Type} [CommRing α]

theorem Node.sameMembers_movedBy (m m' : Node α) (h : m.sameMembers m') :
    m.movedBy Mat4.identity m' := by
  obtain ⟨hg, ha, _, hc, _⟩ := h
  refine ⟨by rw [hg, Mat4.identity_mul], by rw [ha, Mat4.applyPoint_identity], ?_⟩
  rw [hc]
  conv_lhs => rw [← List.map_id m.control]
  apply List.map_congr_left
  intro v _
  exact (Mat4.applyPoint_identity v).symm

/-- An unscoped operation whose update multiplies `F` onto the geometry transform and
applies it to the points moves every node of the tree by `F`. -/
theorem Node.visit_movedBy (u : NodeUpdate α) (F : Mat4 α)
    (hg : ∀ g, (u.onGeometry g).transforms = F.mul g.transforms)
    (ha : ∀ v, u.onAnchor v = F.applyPoint v) (hp : ∀ v, u.onPoint v = F.applyPoint v)
    (n n' : Node α) (h : n.visit u = some n') (q : List Nat) (m : Node α)
    (hq : n.walk q = some m) : ∃ m', n'.walk q = some m' ∧ m.movedBy F m' := by
  obtain ⟨m', hm', hv⟩ := Node.visit_walk u q n n' m h hq
  obtain ⟨h1, h2, _, h4, _⟩ := Node.visit_members u m m' hv
  refine ⟨m', hm', by rw [h1, hg], by rw [h2, ha], ?_⟩
  rw [h4]
  apply List.map_congr_left
  intro v _
  exact hp v

theorem Node.transformHere_movedBy (anchor : Vec3 α) (M : Mat4 α) (n n' : Node α)
    (h : n.transformHere anchor M = some n') (q : List Nat) (m : Node α)
    (hq : n.walk q = some m) : ∃ m', n'.walk q = some m' ∧ m.movedBy M m' := by
  cases n with
  | mk g cs an ao c co =>
    rw [Node.transformHere, transformAnchorChildren_eq] at h
    cases hcs : allSome (Node.transformAnchor anchor M) cs with
    | none => simp [hcs] at h
    | some cs' =>
      simp only [hcs, Option.some.injEq] at h
      subst h
      cases q with
      | nil =>
        simp only [Node.walk, Option.some.injEq] at hq
        subst hq
        exact ⟨_, rfl, rfl, rfl, rfl⟩
      | cons ind rest =>
        simp only [Node.walk, Node.children] at hq ⊢
        cases hch : cs[ind]? with
        | none => simp [hch] at hq
        | some child =>
          simp only [hch] at hq
          obtain ⟨child', hch', hv⟩ := (allSome_eq_some _ cs cs' hcs).2 ind child hch
          rw [Node.transformAnchor_eq_visit] at hv
          simp only [hch']
          exact Node.visit_movedBy (transformUpdate M) M (fun _ => rfl) (fun _ => rfl)
            (fun _ => rfl) child child' hv rest m hq

/-- A path-scoped operation that moves the nodes of the subtree it addresses by `F`: every
node of the tree is moved by `F` or by the identity. -/
theorem Node.applyAt_movedBy (op : Node α → Option (Node α)) (F : Mat4 α)
    (hop : ∀ target target', op target = some target' → ∀ (r : List Nat) (x : Node α),
      target.walk r = some x → ∃ x', target'.walk r = some x' ∧ x.movedBy F x')
    (p : List Nat) (n n' : Node α) (h : n.applyAt op p = some n') (q : List Nat) (m : Node α)
    (hq : n.walk q = some m) :
    ∃ m', n'.walk q = some m' ∧ (m.movedBy F m' ∨ m.movedBy Mat4.identity m') := by
  by_cases hpre : p <+: q
  · obtain ⟨r, rfl⟩ := hpre
    rw [Node.walk_append_list] at hq
    cases hp : n.walk p with
    | none => simp [hp] at hq
    | some target =>
      rw [hp, Option.some_bind] at hq
      obtain ⟨target', hp', hop'⟩ := Node.applyAt_target op p n n' target h hp
      obtain ⟨m', hm', hmoved⟩ := hop target target' hop' r m hq
      refine ⟨m', ?_, Or.inl hmoved⟩
      rw [Node.walk_append_list, hp', Option.some_bind]
      exact hm'
  · obtain ⟨m', hm', hsame⟩ := Node.applyAt_frame op p n n' q m h hq hpre
    exact ⟨m', hm', Or.inr (Node.sameMembers_movedBy m m' hsame)⟩

/-- A call that is affine moves every node of the tree by an affine matrix. -/
theorem Node.call_movedBy (rot : Rotation α) (n n' : Node α) (op : NodeOp α)
    (haff : op.affine) (h : n.call rot op = some n') (q : List Nat) (m : Node α)
    (hq : n.descend q = some m) :
    ∃ m' F, n'.descend q = some m' ∧ F.affine ∧ m.movedBy F m' := by
  have hid : (Mat4.identity : Mat4 α).affine := rfl
  have atPath : ∀ (M : Mat4 α) (opm : Node α → Option (Node α)) (p : List Nat), M.affine →
      (∀ target target', opm target = some target' → ∀ (r : List Nat) (x : Node α),
        target.walk r = some x → ∃ x', target'.walk r = some x' ∧ x.movedBy M x') →
      n.applyAt opm p = some n' →
      ∃ m' F, n'.descend q = some m' ∧ F.affine ∧ m.movedBy F m' := by
    intro M opm p hM hopm happ
    obtain ⟨m', hm', hmoved⟩ := Node.applyAt_movedBy opm M hopm p n n' happ q.reverse m hq
    rcases hmoved with h1 | h1
    · exact ⟨m', M, hm', hM, h1⟩
    · exact ⟨m', Mat4.identity, hm', hid, h1⟩
  cases op with
  | rotate x y z angle => exact absurd haff (by simp [NodeOp.affine])
  | rotateInds inds x y z angle => exact absurd haff (by simp [NodeOp.affine])
  | rotateAnchor anchor x y z angle => exact absurd haff (by simp [NodeOp.affine])
  | rotateIndsAnchor inds anchor x y z angle => exact absurd haff (by simp [NodeOp.affine])
  | scale x y z =>
    simp only [Node.call, Node.scale_eq_visit] at h
    obtain ⟨m', hm', hmoved⟩ := Node.visit_movedBy (scaleUpdate x y z) (Mat4.scaling ⟨x, y, z⟩)
      (fun _ => rfl) (fun _ => by simp only [scaleUpdate, Mat4.identity_mul])
      (fun _ => by simp only [scaleUpdate, Mat4.identity_mul]) n n' h q.reverse m hq
    exact ⟨m', Mat4.scaling ⟨x, y, z⟩, hm', rfl, hmoved⟩
  | translate x y z =>
    simp only [Node.call, Node.translate_eq_visit] at h
    obtain ⟨m', hm', hmoved⟩ := Node.visit_movedBy (translateUpdate x y z)
      (Mat4.translation ⟨x, y, z⟩)
      (fun _ => rfl) (fun _ => by simp only [translateUpdate, Mat4.identity_mul])
      (fun _ => by simp only [translateUpdate, Mat4.identity_mul]) n n' h q.reverse m hq
    exact ⟨m', Mat4.translation ⟨x, y, z⟩, hm', rfl, hmoved⟩
  | transform matrix =>
    simp only [Node.call, Node.transform, Node.transformAnchor_eq_visit] at h
    obtain ⟨m', hm', hmoved⟩ := Node.visit_movedBy (transformUpdate matrix) matrix
      (fun _ => rfl) (fun _ => rfl) (fun _ => rfl) n n' h q.reverse m hq
    exact ⟨m', _, hm', haff, hmoved⟩
  | transformInds inds matrix =>
    simp only [Node.call, Node.transformInds, Node.transformSelfHops_eq] at h
    exact atPath matrix _ _ haff
      (fun target target' ht => Node.transformHere_movedBy _ matrix target target' ht) h
  | transformAnchor anchor matrix =>
    simp only [Node.call, Node.transformAnchor_eq_visit] at h
    obtain ⟨m', hm', hmoved⟩ := Node.visit_movedBy (transformUpdate matrix) matrix
      (fun _ => rfl) (fun _ => rfl) (fun _ => rfl) n n' h q.reverse m hq
    exact ⟨m', _, hm', haff, hmoved⟩
  | transformIndsAnchor inds anchor matrix =>
    simp only [Node.call, Node.transformIndsAnchor, Node.transformHops_eq] at h
    exact atPath matrix _ _ haff
      (fun target target' ht => Node.transformHere_movedBy _ matrix target target' ht) h

theorem Node.callAll_shape (rot : Rotation α) (ops : List (NodeOp α)) :
    ∀ n n' : Node α, n.callAll rot ops = some n' → n'.shape = n.shape := by
  induction ops with
  | nil =>
    intro n n' h
    simp only [Node.callAll, Option.some.injEq] at h
    rw [h]
  | cons op rest ih =>
    intro n n' h
    simp only [Node.callAll] at h
    cases hc : n.call rot op with
    | none => simp [hc] at h
    | some n1 =>
      simp only [hc] at h
      exact (ih n1 n' h).trans (Node.call_shape rot n n1 op hc)

/-- C26, as amended: starting from a state in which every geometry transform is the
identity (the state right after `calculateControlPoints`, with anchor `a0` and control
points `c0` at each node), after any sequence of `translate`, `scale` and scoped or
unscoped `transform` calls whose matrices are affine (last row `0 0 0 1`), the tree has
the same shape and every node satisfies `anchor = G applied to a0` and
`control[i] = G applied to c0[i]`, where `G` is the current geometry transform of the
node. -/
theorem anchors_stay_attached (rot : Rotation α) (ops : List (NodeOp α)) :
    ∀ (t0 t : Node α),
      (∀ (q : List Nat) (m0 : Node α), t0.descend q = some m0 →
        m0.geometry.transforms = Mat4.identity) →
      (∀ op ∈ ops, op.affine) → t0.callAll rot ops = some t →
      t.shape = t0.shape ∧
      ∀ (q : List Nat) (m0 : Node α), t0.descend q = some m0 →
        ∃ m, t.descend q = some m ∧
          m.anchor = m.geometry.transforms.applyPoint m0.anchor ∧
          m.control = m0.control.map m.geometry.transforms.applyPoint := by
  intro t0 t hid haff hrun
  refine ⟨Node.callAll_shape rot ops t0 t hrun, ?_⟩
  have key : ∀ (ops : List (NodeOp α)) (s t : Node α), (∀ op ∈ ops, op.affine) →
      s.callAll rot ops = some t →
      (∀ (q : List Nat) (m0 : Node α), t0.descend q = some m0 →
        ∃ m, s.descend q = some m ∧ m.geometry.transforms.affine ∧
          m.anchor = m.geometry.transforms.applyPoint m0.anchor ∧
          m.control = m0.control.map m.geometry.transforms.applyPoint) →
      ∀ (q : List Nat) (m0 : Node α), t0.descend q = some m0 →
        ∃ m, t.descend q = some m ∧ m.geometry.transforms.affine ∧
          m.anchor = m.geometry.transforms.applyPoint m0.anchor ∧
          m.control = m0.control.map m.geometry.transforms.applyPoint := by
    intro ops
    induction ops with
    | nil =>
      intro s t _ hrun hinv
      simp only [Node.callAll, Option.some.injEq] at hrun
      subst hrun
      exact hinv
    | cons op rest ih =>
      intro s t haff hrun hinv
      simp only [Node.callAll] at hrun
      cases hc : s.call rot op with
      | none => simp [hc] at hrun
      | some s1 =>
        simp only [hc] at hrun
        refine ih s1 t (fun o ho => haff o (List.mem_cons_of_mem _ ho)) hrun ?_
        intro q m0 hq
        obtain ⟨m, hm, hG, ha, hcn⟩ := hinv q m0 hq
        obtain ⟨m', F, hm', hF, hg', ha', hc'⟩ := Node.call_movedBy rot s s1 op
          (haff op (List.mem_cons_self _ _)) hc q m hm
        refine ⟨m', hm', ?_, ?_, ?_⟩
        · unfold Mat4.affine
          rw [hg', Mat4.mul_r3 F _ hF]
          exact hG
        · rw [ha', ha, hg', Mat4.applyPoint_mul F _ hG]
        · rw [hc', hcn, hg', List.map_map]
          apply List.map_congr_left
          intro v _
          exact (Mat4.applyPoint_mul F _ hG v).symm
  intro q m0 hq
  obtain ⟨m, hm, _, ha, hc⟩ := key ops t0 t haff hrun (fun q m0 hq => by
    refine ⟨m0, hq, ?_, ?_, ?_⟩
    · unfold Mat4.affine
      rw [hid q m0 hq]
      rfl
    · rw [hid q m0 hq, Mat4.applyPoint_identity]
    · rw [hid q m0 hq]
      conv_lhs => rw [← List.map_id m0.control]
      apply List.map_congr_left
      intro v _
      exact (Mat4.applyPoint_identity v).symm) q m0 hq
  exact ⟨m, hm, ha, hc⟩

end AttachmentLemmas

/-- C26, as stated, fails on the link `tip` (anchor `(2, 0, 0)`, control point
`(3, 0, 0)`, geometry transform the identity) for a `transform` with a matrix that is not
affine followed by a `translate`: after `transform(anchor, doubleW)` and
`translate(1, 0, 0)` the anchor is `(3, 0, 0)` and the control point `(4, 0, 0)`, while
the geometry transform `G` of the node takes the first anchor to `(4, 0, 0)` and the
first control point to `(5, 0, 0)`. -/
theorem anchors_detach_under_projective_transform :
    tip.geometry.transforms = Mat4.identity ∧
    (tip.callAll halfTurn [.transformAnchor (pt 0 0 0) doubleW, .translate 1 0 0]).map
      (fun t => (t.anchor, t.geometry.transforms.applyPoint tip.anchor, t.control,
        tip.control.map t.geometry.transforms.applyPoint))
      = some (pt 3 0 0, pt 4 0 0, [pt 4 0 0], [pt 5 0 0]) := by
  decide

theorem anchors_stay_attached_witness :
    (∀ (q : List Nat) (m0 : Node ℤ), chain3.descend q = some m0 →
      m0.geometry.transforms = Mat4.identity) ∧
    (∀ op ∈ ([.translate 1 2 3, .scale 2 2 2, .transformInds [0] liftZ,
        .transformIndsAnchor [0, 0] (pt 5 5 5) liftZ] : List (NodeOp ℤ)), op.affine) ∧
    ∃ t, chain3.callAll halfTurn [.translate 1 2 3, .scale 2 2 2, .transformInds [0] liftZ,
        .transformIndsAnchor [0, 0] (pt 5 5 5) liftZ] = some t ∧
      t.shape = chain3.shape ∧
      ∀ (q : List Nat) (m0 : Node ℤ), chain3.descend q = some m0 →
        ∃ m, t.descend q = some m ∧
          m.anchor = m.geometry.transforms.applyPoint m0.anchor ∧
          m.control = m0.control.map m.geometry.transforms.applyPoint :=
  have hid : ∀ (q : List Nat) (m0 : Node ℤ), chain3.descend q = some m0 →
      m0.geometry.transforms = Mat4.identity := by
    intro q m0 hq
    have h1 : ∀ (l : List Nat) (m : Node ℤ), tip.walk l = some m →
        m.geometry.transforms = Mat4.identity := by
      intro l m hl
      cases l with
      | nil =>
        simp only [Node.walk, Option.some.injEq] at hl
        subst hl
        rfl
      | cons i r =>
        simp [Node.walk, tip, Node.children] at hl
    have h2 : ∀ (l : List Nat) (m : Node ℤ), mid.walk l = some m →
        m.geometry.transforms = Mat4.identity := by
      intro l m hl
      cases l with
      | nil =>
        simp only [Node.walk, Option.some.injEq] at hl
        subst hl
        rfl
      | cons i r =>
        cases i with
        | zero => exact h1 r m hl
        | succ i => simp [Node.walk, mid, Node.children] at hl
    rw [Node.descend] at hq
    cases hl : q.reverse with
    | nil =>
      rw [hl] at hq
      simp only [Node.walk, Option.some.injEq] at hq
      subst hq
      rfl
    | cons i r =>
      rw [hl] at hq
      cases i with
      | zero => exact h2 r m0 hq
      | succ i => simp [Node.walk, chain3, Node.children] at hq
  have haff : ∀ op ∈ ([.translate 1 2 3, .scale 2 2 2, .transformInds [0] liftZ,
      .transformIndsAnchor [0, 0] (pt 5 5 5) liftZ] : List (NodeOp ℤ)), op.affine := by
    intro op hop
    simp only [List.mem_cons, List.mem_singleton, List.not_mem_nil, or_false] at hop
    rcases hop with rfl | rfl | rfl | rfl
    · trivial
    · trivial
    · rfl
    · rfl
  ⟨hid, haff, _, rfl, anchors_stay_attached halfTurn _ chain3 _ hid haff rfl⟩

end bgq_opengl


/-! ## The last pass of the inverse kinematics loop -/

namespace bgq_opengl

section LastPass

variable {α : Type} [LinearOrderedField α]

/-- The `for` loop that ends with `has_moved` false: the states it has gone through, one
link application from each to the next, at none of which the test
`distance(curr_reach, new reach) >= 0.01` has held. -/
theorem ikFor_chain (sqrt : α → α) (num_ik moving_joint : Int) (target : Vec3 α)
    (path : List Nat) (n : Nat) (hn : n = min (num_ik % 2 ^ 64).toNat (path.length + 1)) :
    ∀ (fuel i : Nat) (s s' : IkState α), s.consistent num_ik moving_joint path → i ≤ n →
      ikFor sqrt num_ik moving_joint target fuel i s = .done s' → s'.has_moved = false →
      s.has_moved = false ∧ s'.iterations = s.iterations + (n - i) ∧
      ∃ states : List (IkState α), states.length = n - i + 1 ∧ states.head? = some s ∧
        states.getLast? = some s' ∧
        ∀ j, j < n - i → ∃ a b ra rb, states[j]? = some a ∧ states[j + 1]? = some b ∧
          ikLink sqrt num_ik moving_joint target (i + j) a = some b ∧
          atInt a.current_ctrl moving_joint = some ra ∧
          atInt b.current_ctrl moving_joint = some rb ∧
          ¬ (1 / 100 ≤ Vec3.distance sqrt ra.coords rb.coords) := by
  intro fuel
  induction fuel with
  | zero =>
    intro i s s' _ _ h
    simp [ikFor] at h
  | succ fuel ih =>
    intro i s s' hs hi h hm
    have hlen := IkState.consistent_length num_ik moving_joint path s hs
    rw [← hn] at hlen
    rw [ikFor] at h
    by_cases hlt : i < s.ik_struc.length
    · rw [if_pos hlt] at h
      cases hl : ikLink sqrt num_ik moving_joint target i s with
      | none => simp [hl] at h
      | some s1 =>
        simp only [hl] at h
        obtain ⟨reach, _, _, hreach, _, _, _, hint⟩ :=
          ikLink_eq_some sqrt num_ik moving_joint target i s s1 hl
        obtain ⟨s1', h1', hs1, hit1, hm1⟩ := ikLink_consistent sqrt num_ik moving_joint target
          path i s hs hlt hint
        have he : s1' = s1 := by
          rw [hl] at h1'
          exact (Option.some.inj h1').symm
        subst he
        obtain ⟨hm1f, hit, states, hslen, hhead, hlast, hsteps⟩ :=
          ih (i + 1) s1' s' hs1 (by omega) h hm
        obtain ⟨_, hcc1, reach1, hreach1, _, _⟩ := hs1
        have hd := ikLink_not_moved sqrt num_ik moving_joint target i s s1' reach reach1 hl
          hreach hreach1 hm1f
        refine ⟨hm1 hm1f, by omega, s :: states, by simp only [List.length_cons]; omega, rfl,
          ?_, ?_⟩
        · cases states with
          | nil => simp at hhead
          | cons b rest => rw [List.getLast?_cons_cons]; exact hlast
        · intro j hj
          cases j with
          | zero =>
            refine ⟨s, s1', reach, reach1, List.getElem?_cons_zero, ?_, hl, hreach, hreach1,
              not_le.mpr hd⟩
            cases states with
            | nil => simp at hhead
            | cons b rest =>
              simp only [List.head?_cons, Option.some.injEq] at hhead
              rw [hhead, Nat.zero_add, List.getElem?_cons_succ]
              exact List.getElem?_cons_zero
          | succ j =>
            obtain ⟨a, b, ra, rb, ha, hb, hab, hra, hrb, hdist⟩ := hsteps j (by omega)
            refine ⟨a, b, ra, rb, ?_, ?_, ?_, hra, hrb, hdist⟩
            · rw [List.getElem?_cons_succ]
              exact ha
            · rw [List.getElem?_cons_succ]
              exact hb
            · have : i + (j + 1) = i + 1 + j := by omega
              rw [this]
              exact hab
    · rw [if_neg hlt] at h
      simp only [Outcome.done.injEq] at h
      subst h
      have hin : n - i = 0 := by omega
      refine ⟨hm, by omega, [s], by simp only [List.length_singleton]; omega, rfl, rfl, ?_⟩
      intro j hj
      omega

/-- The `while` loop that ends with `has_moved` false: either no pass has been made, or
the last pass has gone through `n` link applications at none of which the test
`distance(curr_reach, new reach) >= 0.01` has held. -/
theorem ikWhile_chain (sqrt : α → α) (num_ik moving_joint : Int) (target : Vec3 α)
    (path : List Nat) (n forFuel : Nat)
    (hn : n = min (num_ik % 2 ^ 64).toNat (path.length + 1)) :
    ∀ (fuel passes : Nat) (s s' : IkState α) (total : Nat),
      s.consistent num_ik moving_joint path →
      ikWhile sqrt num_ik moving_joint target forFuel fuel passes s = .done (s', total) →
      s'.has_moved = false →
      (s.has_moved = false ∧ total = passes) ∨
      (passes < total ∧
        ∃ states : List (IkState α), states.length = n + 1 ∧ states.getLast? = some s' ∧
          (∃ first, states.head? = some first ∧ first.iterations + n = s'.iterations) ∧
          ∀ j, j < n → ∃ a b ra rb, states[j]? = some a ∧ states[j + 1]? = some b ∧
            ikLink sqrt num_ik moving_joint target j a = some b ∧
            atInt a.current_ctrl moving_joint = some ra ∧
            atInt b.current_ctrl moving_joint = some rb ∧
            ¬ (1 / 100 ≤ Vec3.distance sqrt ra.coords rb.coords)) := by
  intro fuel
  induction fuel with
  | zero =>
    intro passes s s' total _ h
    simp [ikWhile] at h
  | succ fuel ih =>
    intro passes s s' total hs h hm
    rw [ikWhile] at h
    by_cases hmoved : s.has_moved = true
    · rw [if_pos hmoved] at h
      cases hf : ikFor sqrt num_ik moving_joint target forFuel 0 { s with has_moved := false } with
      | done s1 =>
        simp only [hf] at h
        have hs0 : IkState.consistent num_ik moving_joint path { s with has_moved := false } :=
          hs
        have hs1 : s1.consistent num_ik moving_joint path := by
          have hlen := IkState.consistent_length num_ik moving_joint path _ hs0
          have key : ∀ (fuel i : Nat) (a b : IkState α), a.consistent num_ik moving_joint path →
              ikFor sqrt num_ik moving_joint target fuel i a = .done b →
              b.consistent num_ik moving_joint path := by
            intro fuel
            induction fuel with
            | zero =>
              intro i a b _ hab
              simp [ikFor] at hab
            | succ fuel ih2 =>
              intro i a b ha hab
              rw [ikFor] at hab
              by_cases hlt : i < a.ik_struc.length
              · rw [if_pos hlt] at hab
                cases hl : ikLink sqrt num_ik moving_joint target i a with
                | none => simp [hl] at hab
                | some a1 =>
                  simp only [hl] at hab
                  obtain ⟨_, _, _, _, _, _, _, hint⟩ :=
                    ikLink_eq_some sqrt num_ik moving_joint target i a a1 hl
                  obtain ⟨a1', h1', ha1, _⟩ := ikLink_consistent sqrt num_ik moving_joint
                    target path i a ha hlt hint
                  have he : a1' = a1 := by
                    rw [hl] at h1'
                    exact (Option.some.inj h1').symm
                  subst he
                  exact ih2 (i + 1) a1' b ha1 hab
              · rw [if_neg hlt] at hab
                simp only [Outcome.done.injEq] at hab
                subst hab
                exact ha
          exact key forFuel 0 _ s1 hs0 hf
        have last : s1.has_moved = false →
            ∃ states : List (IkState α), states.length = n + 1 ∧ states.getLast? = some s1 ∧
              (∃ first, states.head? = some first ∧ first.iterations + n = s1.iterations) ∧
              ∀ j, j < n → ∃ a b ra rb, states[j]? = some a ∧ states[j + 1]? = some b ∧
                ikLink sqrt num_ik moving_joint target j a = some b ∧
                atInt a.current_ctrl moving_joint = some ra ∧
                atInt b.current_ctrl moving_joint = some rb ∧
                ¬ (1 / 100 ≤ Vec3.distance sqrt ra.coords rb.coords) := by
          intro hm1
          obtain ⟨_, hit, states, hslen, hhead, hlast, hsteps⟩ := ikFor_chain sqrt num_ik
            moving_joint target path n hn forFuel 0 { s with has_moved := false } s1 hs0
            (Nat.zero_le n) hf hm1
          refine ⟨states, hslen, hlast, ⟨_, hhead, ?_⟩, ?_⟩
          · rw [Nat.sub_zero] at hit
            exact hit.symm
          · intro j hj
            obtain ⟨a, b, ra, rb, ha, hb, hab, hra, hrb, hdist⟩ := hsteps j hj
            refine ⟨a, b, ra, rb, ha, hb, ?_, hra, hrb, hdist⟩
            rw [Nat.zero_add] at hab
            exact hab
        by_cases hbreak : num_ik ^ 3 ≤ (s1.iterations : Int)
        · rw [if_pos hbreak] at h
          simp only [Outcome.done.injEq, Prod.mk.injEq] at h
          obtain ⟨h1, h2⟩ := h
          subst h1
          exact Or.inr ⟨by omega, last hm⟩
        · rw [if_neg hbreak] at h
          rcases ih (passes + 1) s1 s' total hs1 h hm with ⟨hm1, htot⟩ | ⟨hlt, hrest⟩
          · have he : s' = s1 := by
              cases fuel with
              | zero => simp [ikWhile] at h
              | succ fuel =>
                rw [ikWhile, if_neg (by rw [hm1]; simp)] at h
                simp only [Outcome.done.injEq, Prod.mk.injEq] at h
                exact h.1.symm
            subst he
            exact Or.inr ⟨by omega, last hm1⟩
          · exact Or.inr ⟨by omega, hrest⟩
      | undefined => simp [hf] at h
      | outOfFuel => simp [hf] at h
    · rw [if_neg hmoved] at h
      simp only [Outcome.done.injEq, Prod.mk.injEq] at h
      refine Or.inl ⟨?_, h.2.symm⟩
      cases hb : s.has_moved
      · rfl
      · exact absurd hb hmoved

/-- C20, as amended: under the hypotheses of the termination of the IK solve, the solve
returns, and when it does either `has_moved` is false or `iterations` equals exactly
`n^3`. When `has_moved` is false, the last pass has gone through `n` link applications
(states `states[0]`, ..., `states[n]`, the last of which is the state returned), and at
none of them the test `distance(curr_reach, new reach) >= 0.01` has held: no link
application of the last pass has moved the effector by `0.01` or more. -/
theorem ikSolve_stalled_or_cutoff (sqrt : α → α) (selected : ObjectHierarchical α)
    (p reach : ControlPoint α) (moving_joint ik_level : Int) (fuel n : Nat)
    (hwf : selected.root.wellFormed = true)
    (htree : atInt selected.getControlPoints moving_joint = some reach)
    (hpath : reach.indices = p.indices) (hlevel : 1 ≤ ik_level)
    (hn : n = min (p.indices.length + 1) ik_level.toNat) (hint : n ^ 3 < 2 ^ 31)
    (hfuel : n * n < fuel) :
    ∃ s passes, ikSolve sqrt selected p moving_joint ik_level fuel = .done (s, passes) ∧
      ((s.has_moved = false ∧ 1 ≤ passes ∧
        ∃ states : List (IkState α), states.length = n + 1 ∧ states.getLast? = some s ∧
          (∃ first, states.head? = some first ∧ first.iterations + n = s.iterations) ∧
          ∀ i, i < n → ∃ a b ra rb, states[i]? = some a ∧ states[i + 1]? = some b ∧
            ikLink sqrt (min ((p.indices.length : Int) + 1) ik_level) moving_joint p.coords i a
              = some b ∧
            atInt a.current_ctrl moving_joint = some ra ∧
            atInt b.current_ctrl moving_joint = some rb ∧
            ¬ (1 / 100 ≤ Vec3.distance sqrt ra.coords rb.coords)) ∨
        s.iterations = n ^ 3) := by
  obtain ⟨s, passes, h, _, _, _, h4⟩ := ikSolve_spec sqrt selected p reach moving_joint
    ik_level fuel n hwf htree hpath hlevel hn hint hfuel
  refine ⟨s, passes, h, ?_⟩
  rcases h4 with hm | hcut
  · left
    have hnum : min ((p.indices.length : Int) + 1) ik_level = (n : Int) := by
      rw [hn]
      omega
    have hsize : n = min ((min ((p.indices.length : Int) + 1) ik_level) % 2 ^ 64).toNat
        (p.indices.length + 1) := by
      have hcube : n ^ 3 = n * n * n := by ring
      have hn1 : 1 ≤ n := by
        rw [hn]
        have : 1 ≤ ik_level.toNat := by omega
        omega
      have hnlt : n < 2 ^ 31 := by
        have h1 : n * 1 ≤ n * n := Nat.mul_le_mul_left n hn1
        have h2 : n * n * 1 ≤ n * n * n := Nat.mul_le_mul_left (n * n) hn1
        omega
      rw [hnum]
      have : ((n : Int) % 2 ^ 64).toNat = n := by omega
      rw [this, hn]
      omega
    rw [ikSolve, htree] at h
    simp only at h
    cases hr : selected.getOrderedControlPoints (min ((p.indices.length : Int) + 1) ik_level)
        reach with
    | none => simp [hr] at h
    | some r =>
      simp only [hr] at h
      rcases ikWhile_chain sqrt _ moving_joint p.coords p.indices n fuel hsize fuel 0
        ⟨selected, selected.getControlPoints, r, true, 0⟩ s passes
        ⟨hwf, rfl, reach, htree, hpath, hr⟩ h hm with ⟨hfalse, _⟩ | ⟨hpos, hrest⟩
      · simp at hfalse
      · exact ⟨hm, by omega, hrest⟩
  · exact Or.inr hcut

end LastPass

theorem ikSolve_stalled_or_cutoff_witness :
    armObject.root.wellFormed = true ∧
    atInt armObject.getControlPoints 2 = some ⟨qpt 6 0 0, qpt 6 0 0, qpt 4 0 0, [0, 0]⟩ ∧
    (1 : Int) ≤ 3 ∧ 3 = min (armStall.indices.length + 1) (3 : Int).toNat ∧
    3 ^ 3 < 2 ^ 31 ∧ 3 * 3 < 10 ∧
    ∃ s passes, ikSolve (sqrtIn [0, 1, 2, 3, 4, 5, 6]) armObject armStall 2 3 10
        = .done (s, passes) ∧
      ((s.has_moved = false ∧ 1 ≤ passes ∧
        ∃ states : List (IkState ℚ), states.length = 3 + 1 ∧ states.getLast? = some s ∧
          (∃ first, states.head? = some first ∧ first.iterations + 3 = s.iterations) ∧
          ∀ i, i < 3 → ∃ a b ra rb, states[i]? = some a ∧ states[i + 1]? = some b ∧
            ikLink (sqrtIn [0, 1, 2, 3, 4, 5, 6])
                (min ((armStall.indices.length : Int) + 1) 3) 2 armStall.coords i a = some b ∧
            atInt a.current_ctrl 2 = some ra ∧ atInt b.current_ctrl 2 = some rb ∧
            ¬ (1 / 100 ≤ Vec3.distance (sqrtIn [0, 1, 2, 3, 4, 5, 6]) ra.coords rb.coords)) ∨
        s.iterations = 3 ^ 3) :=
  ⟨rfl, rfl, by decide, by decide, by decide, by decide,
    ikSolve_stalled_or_cutoff (sqrtIn [0, 1, 2, 3, 4, 5, 6]) armObject armStall
      ⟨qpt 6 0 0, qpt 6 0 0, qpt 4 0 0, [0, 0]⟩ 2 3 10 3 rfl rfl rfl (by decide) (by decide)
      (by decide) (by decide)⟩

end bgq_opengl
